import Mathlib

/-!
# Index tree (ABB) over a linear record store (EDL)

Shallow embedding of `arvore_binaria` (`EntradaIndice.h`, `NoABB.h`, `ABB.cpp`,
`Registro.h`, `EDL.cpp`, `main.cpp`).

Modelling conventions

* `std::string` is a finite sequence of characters; `operator<` on it is the
  lexicographic order of the sequences. It is embedded as `List Char`.
* `int` is embedded as `Int`; the conversions `int -> size_t` and
  `size_t -> int` are written out with their moduli (`toSizeT`, `toInt32`).
* A `NoABB*` that owns its subtree is embedded as the subtree itself, with
  `NoABB.nulo` for `nullptr`.
* Text written to `std::cout` by the tree operations is returned as a list of
  `Mensagem`.
* Dereferencing a null pointer and throwing `std::out_of_range` are failures:
  `Option.none` and `Except.error`.
-/

namespace ArvoreBinaria

/-- The embedding of `std::string`. -/
abbrev StdString := List Char

/-! ## EntradaIndice.h -/

/-- Class `EntradaIndice`: the ordering key and the position in the record store. -/
structure EntradaIndice where
  chave : StdString
  posicaoEDL : Int
deriving DecidableEq, Repr

namespace EntradaIndice

/-- Default constructor `EntradaIndice()`. -/
def padrao : EntradaIndice := ⟨[], -1⟩

/-- Search constructor `EntradaIndice(chave)`: the position is `-1`. -/
def paraBusca (chave : StdString) : EntradaIndice := ⟨chave, -1⟩

def getChave (e : EntradaIndice) : StdString := e.chave

def getPosicaoEDL (e : EntradaIndice) : Int := e.posicaoEDL

/-- Member `operator<`. -/
def lt (e outra : EntradaIndice) : Bool := decide (e.chave < outra.chave)

/-- Member `operator==`. -/
def eq (e outra : EntradaIndice) : Bool := decide (e.chave = outra.chave)

/-- Member `operator!=`. -/
def ne (e outra : EntradaIndice) : Bool := decide (e.chave ≠ outra.chave)

/-- Member `operator>`. -/
def gt (e outra : EntradaIndice) : Bool := decide (e.chave > outra.chave)

/-- Member `operator<=`. -/
def le (e outra : EntradaIndice) : Bool := decide (e.chave ≤ outra.chave)

/-- Member `operator>=`. -/
def ge (e outra : EntradaIndice) : Bool := decide (e.chave ≥ outra.chave)

end EntradaIndice

/-! ## NoABB.h -/

/-- A `NoABB*`: either `nullptr` or a node with its entry and its two owned children. -/
inductive NoABB where
  | nulo : NoABB
  | no (esq : NoABB) (dado : EntradaIndice) (dir : NoABB) : NoABB
deriving DecidableEq, Repr

namespace NoABB

/-- Constructor `NoABB(entrada)`: both children are null. -/
def novo (entrada : EntradaIndice) : NoABB := no nulo entrada nulo

/-- The test `p == nullptr`. -/
def ehNulo : NoABB → Bool
  | nulo => true
  | no _ _ _ => false

/-- The access `p->dado`; it fails on a null pointer. -/
def dado? : NoABB → Option EntradaIndice
  | nulo => none
  | no _ d _ => some d

end NoABB

/-! ## ABB.cpp -/

/-- The two error lines the tree operations write to `std::cout`. -/
inductive Mensagem where
  | chaveJaExiste (chave : StdString) : Mensagem
  | chaveNaoEncontrada (chave : StdString) : Mensagem
deriving DecidableEq, Repr

open NoABB in
/-- Function `ABB::inserirRecursivo`: the new subtree root and the text written. -/
def inserirRecursivo : NoABB → EntradaIndice → NoABB × List Mensagem
  | nulo, novaEntrada => (novo novaEntrada, [])
  | no esq dado dir, novaEntrada =>
    if novaEntrada.lt dado then
      let r := inserirRecursivo esq novaEntrada
      (no r.1 dado dir, r.2)
    else if novaEntrada.gt dado then
      let r := inserirRecursivo dir novaEntrada
      (no esq dado r.1, r.2)
    else
      (no esq dado dir, [Mensagem.chaveJaExiste novaEntrada.getChave])

open NoABB in
/-- Function `ABB::encontrarMin`: follows `esq` while it is not null. The loop
condition reads `no->esq`, so a null argument is a null dereference. -/
def encontrarMin : NoABB → Option NoABB
  | nulo => none
  | no esq dado dir => if esq.ehNulo then some (no esq dado dir) else encontrarMin esq

open NoABB in
/-- Function `ABB::removerRecursivo`: the new subtree root and the text written;
`none` when a null pointer is dereferenced on the way. -/
def removerRecursivo : NoABB → StdString → Option (NoABB × List Mensagem)
  | nulo, chaveRemover => some (nulo, [Mensagem.chaveNaoEncontrada chaveRemover])
  | no esq dado dir, chaveRemover =>
    if chaveRemover < dado.getChave then
      match removerRecursivo esq chaveRemover with
      | none => none
      | some r => some (no r.1 dado dir, r.2)
    else if chaveRemover > dado.getChave then
      match removerRecursivo dir chaveRemover with
      | none => none
      | some r => some (no esq dado r.1, r.2)
    else if esq.ehNulo then
      some (dir, [])
    else if dir.ehNulo then
      some (esq, [])
    else
      match encontrarMin dir with
      | none => none
      | some temp =>
        match temp.dado? with
        | none => none
        | some dadoTemp =>
          match removerRecursivo dir dadoTemp.getChave with
          | none => none
          | some r => some (no esq dadoTemp r.1, r.2)

open NoABB in
/-- The loop of `ABB::buscarPosicao`, started at the node `noAtual`. -/
def buscarPosicaoLaco : NoABB → StdString → Int
  | nulo, _ => -1
  | no esq dado dir, chaveBusca =>
    if chaveBusca < dado.getChave then buscarPosicaoLaco esq chaveBusca
    else if chaveBusca > dado.getChave then buscarPosicaoLaco dir chaveBusca
    else dado.getPosicaoEDL

open NoABB in
/-- Function `ABB::emOrdemRecursivo`: the entries in the order they are printed. -/
def emOrdemRecursivo : NoABB → List EntradaIndice
  | nulo => []
  | no esq dado dir => emOrdemRecursivo esq ++ dado :: emOrdemRecursivo dir

/-- Class `ABB`: the root pointer. -/
structure ABB where
  raiz : NoABB
deriving DecidableEq, Repr

namespace ABB

/-- Default constructor `ABB()`. -/
def vazia : ABB := ⟨NoABB.nulo⟩

/-- Method `ABB::inserir`. -/
def inserir (a : ABB) (novaEntrada : EntradaIndice) : ABB × List Mensagem :=
  let r := inserirRecursivo a.raiz novaEntrada
  (⟨r.1⟩, r.2)

/-- Method `ABB::remover`. -/
def remover (a : ABB) (chaveRemover : StdString) : Option (ABB × List Mensagem) :=
  match removerRecursivo a.raiz chaveRemover with
  | none => none
  | some r => some (⟨r.1⟩, r.2)

/-- Method `ABB::buscarPosicao`. -/
def buscarPosicao (a : ABB) (chaveBusca : StdString) : Int :=
  buscarPosicaoLaco a.raiz chaveBusca

/-- Method `ABB::emOrdem`: the entries printed between the header and the line end. -/
def emOrdem (a : ABB) : List EntradaIndice := emOrdemRecursivo a.raiz

end ABB

/-- One call of the public mutating interface of the tree. -/
inductive Operacao where
  | inserir (novaEntrada : EntradaIndice) : Operacao
  | remover (chaveRemover : StdString) : Operacao
deriving DecidableEq, Repr

/-- Runs the calls from left to right on the tree `a`; the text written is dropped. -/
def executar : ABB → List Operacao → Option ABB
  | a, [] => some a
  | a, Operacao.inserir e :: ops => executar (a.inserir e).1 ops
  | a, Operacao.remover k :: ops =>
    match a.remover k with
    | none => none
    | some r => executar r.1 ops

/-- Inserts the entries from left to right into `a` with `ABB::inserir`. -/
def inserirTodos (a : ABB) (entradas : List EntradaIndice) : ABB :=
  entradas.foldl (fun t e => (t.inserir e).1) a

/-! ## Registro.h -/

/-- Class `Registro`: the record of one person and its deletion flag. -/
structure Registro where
  cpf : StdString
  nome : StdString
  dataNascimento : StdString
  sexo : Char
  flagDeletado : Bool
deriving DecidableEq, Repr

namespace Registro

/-- Default constructor `Registro()`: an empty record, flagged deleted. -/
def padrao : Registro := ⟨[], [], [], ' ', true⟩

/-- Full constructor `Registro(cpf, nome, dataNascimento, sexo)`. -/
def completo (cpf nome dataNascimento : StdString) (sexo : Char) : Registro :=
  ⟨cpf, nome, dataNascimento, sexo, false⟩

def getCpf (r : Registro) : StdString := r.cpf

def isDeletado (r : Registro) : Bool := r.flagDeletado

/-- Method `Registro::marcarComoDeletado`. -/
def marcarComoDeletado (r : Registro) : Registro :=
  { r with flagDeletado := true, nome := [], dataNascimento := [], sexo := ' ' }

/-- Method `Registro::restaurarRegistro`. -/
def restaurarRegistro (r : Registro) (newCpf newNome newDataNascimento : StdString)
    (newSexo : Char) : Registro :=
  { r with cpf := newCpf, nome := newNome, dataNascimento := newDataNascimento,
           sexo := newSexo, flagDeletado := false }

end Registro

/-! ## Integer conversions -/

/-- The values of the type `int` (32 bits, two's complement). -/
def ehInt32 (i : Int) : Prop := -2 ^ 31 ≤ i ∧ i < 2 ^ 31

instance ehInt32.decidavel (i : Int) : Decidable (ehInt32 i) :=
  inferInstanceAs (Decidable (-2 ^ 31 ≤ i ∧ i < 2 ^ 31))

/-- Conversion `static_cast<size_t>(i)` of an `int`, with a 64-bit `size_t`. -/
def toSizeT (i : Int) : Nat := (i % 2 ^ 64).toNat

/-- Conversion of a `size_t` value to `int`: the low 32 bits, read as two's complement. -/
def toInt32 (n : Nat) : Int :=
  if n % 2 ^ 32 < 2 ^ 31 then ((n % 2 ^ 32 : Nat) : Int) else ((n % 2 ^ 32 : Nat) : Int) - 2 ^ 32

/-! ## EDL.cpp -/

/-- The exception thrown by the record store. -/
inductive Excecao where
  | out_of_range (what : String) : Excecao
deriving DecidableEq, Repr

/-- Class `EDL`: the vector `dados` of records. -/
structure EDL where
  dados : List Registro
deriving DecidableEq, Repr

namespace EDL

/-- Default constructor `EDL()`. -/
def vazia : EDL := ⟨[]⟩

/-- Method `EDL::getTamanho`. -/
def getTamanho (s : EDL) : Nat := s.dados.length

/-- The bounds test `indice < 0 || static_cast<size_t>(indice) >= dados.size()`. -/
def foraDosLimites (s : EDL) (indice : Int) : Prop :=
  indice < 0 ∨ toSizeT indice ≥ s.dados.length

instance foraDosLimites.decidavel (s : EDL) (indice : Int) : Decidable (s.foraDosLimites indice) :=
  inferInstanceAs (Decidable (indice < 0 ∨ toSizeT indice ≥ s.dados.length))

/-- Method `EDL::buscarPorPosicao` (const access). -/
def buscarPorPosicao (s : EDL) (indice : Int) : Except Excecao Registro :=
  if h : s.foraDosLimites indice then
    Except.error (Excecao.out_of_range "EDL::buscarPorPosicao (const): Indice fora dos limites.")
  else
    Except.ok (s.dados.get ⟨toSizeT indice, Nat.lt_of_not_ge (fun hge => h (Or.inr hge))⟩)

/-- Method `EDL::buscarPorPosicaoParaModificacao`: the record the returned reference
designates. -/
def buscarPorPosicaoParaModificacao (s : EDL) (indice : Int) : Except Excecao Registro :=
  if h : s.foraDosLimites indice then
    Except.error
      (Excecao.out_of_range "EDL::buscarPorPosicaoParaModificacao: Indice fora dos limites.")
  else
    Except.ok (s.dados.get ⟨toSizeT indice, Nat.lt_of_not_ge (fun hge => h (Or.inr hge))⟩)

/-- Method `EDL::inserirRegistro`: the store after `push_back` and the returned `int`. -/
def inserirRegistro (s : EDL) (novoRegistro : Registro) : EDL × Int :=
  let dados := s.dados ++ [novoRegistro]
  (⟨dados⟩, toInt32 (dados.length - 1))

/-- The number of elements of a `std::vector` is at most `PTRDIFF_MAX`. -/
def tamanhoRepresentavel (s : EDL) : Prop := s.getTamanho < 2 ^ 63

instance tamanhoRepresentavel.decidavel (s : EDL) : Decidable s.tamanhoRepresentavel :=
  inferInstanceAs (Decidable (s.getTamanho < 2 ^ 63))

end EDL

/-! ## main.cpp -/

/-- The guard of the visit in `gerarEDLOrdenada`:
`pos != -1 && static_cast<size_t>(pos) < edlOriginal.getTamanho()`. -/
def guardaPosicao (pos : Int) (tamanho : Nat) : Bool :=
  decide (pos ≠ -1) && decide (toSizeT pos < tamanho)

open NoABB in
/-- The recursive lambda `popularEDLOrdenada` of `gerarEDLOrdenada`; the store
`novaEDLOrdenada` it appends to is passed through. -/
def popularEDLOrdenada (edlOriginal : EDL) : NoABB → EDL → Except Excecao EDL
  | nulo, nova => Except.ok nova
  | no esq dado dir, nova =>
    match popularEDLOrdenada edlOriginal esq nova with
    | Except.error ex => Except.error ex
    | Except.ok nova1 =>
      if guardaPosicao dado.getPosicaoEDL edlOriginal.getTamanho then
        match edlOriginal.buscarPorPosicao dado.getPosicaoEDL with
        | Except.error ex => Except.error ex
        | Except.ok regNaEDL =>
          if !regNaEDL.isDeletado then
            popularEDLOrdenada edlOriginal dir (nova1.inserirRegistro regNaEDL).1
          else
            popularEDLOrdenada edlOriginal dir nova1
      else
        popularEDLOrdenada edlOriginal dir nova1

/-- Function `gerarEDLOrdenada`: the new store that is printed at the end. -/
def gerarEDLOrdenada (abbIndices : ABB) (edlOriginal : EDL) : Except Excecao EDL :=
  popularEDLOrdenada edlOriginal abbIndices.raiz EDL.vazia

/-- Reference for `gerarEDLOrdenada`, after the specification: walk the entries in
in-order, keep those whose position `p` has `0 <= p < size` and whose record
`store[p]` is not flagged deleted, and give for each kept entry a copy of `store[p]`. -/
def edlOrdenadaReferencia (abbIndices : ABB) (edlOriginal : EDL) : List Registro :=
  abbIndices.emOrdem.filterMap (fun e =>
    if 0 ≤ e.posicaoEDL ∧ e.posicaoEDL < (edlOriginal.getTamanho : Int) then
      match edlOriginal.dados[e.posicaoEDL.toNat]? with
      | some r => if r.isDeletado then none else some r
      | none => none
    else none)

/-! ## The order invariant of the tree -/

/-- The keys of a subtree, in the order of the in-order walk. -/
def chaves (t : NoABB) : List StdString :=
  (emOrdemRecursivo t).map EntradaIndice.chave

open NoABB in
/-- Search-tree invariant: at every node the keys of the left subtree are below
the key of the node and the keys of the right subtree are above it. -/
def ehABB : NoABB → Prop
  | nulo => True
  | no esq dado dir =>
    (∀ c ∈ chaves esq, c < dado.chave) ∧ (∀ c ∈ chaves dir, dado.chave < c) ∧
      ehABB esq ∧ ehABB dir

open NoABB in
/-- The invariant can be checked by evaluation. -/
instance ehABB.decidavel : (t : NoABB) → Decidable (ehABB t)
  | nulo => isTrue trivial
  | no esq dado dir =>
    have : Decidable (ehABB esq) := ehABB.decidavel esq
    have : Decidable (ehABB dir) := ehABB.decidavel dir
    inferInstanceAs (Decidable
      ((∀ c ∈ chaves esq, c < dado.chave) ∧ (∀ c ∈ chaves dir, dado.chave < c) ∧
        ehABB esq ∧ ehABB dir))

/-- Strictly ascending sequence of keys. -/
def estritamenteCrescente (cs : List StdString) : Prop :=
  cs.Pairwise (fun a b => a < b)

instance estritamenteCrescente.decidavel (cs : List StdString) :
    Decidable (estritamenteCrescente cs) :=
  inferInstanceAs (Decidable (cs.Pairwise (fun a b => a < b)))

/-! ## Calls on a record and on the record store -/

/-- One call of a mutating method of `Registro`. -/
inductive OperacaoRegistro where
  | marcarComoDeletado : OperacaoRegistro
  | restaurarRegistro (newCpf newNome newDataNascimento : StdString) (newSexo : Char) :
      OperacaoRegistro
deriving DecidableEq, Repr

/-- The record after one call of a mutating method. -/
def Registro.aplicar (r : Registro) : OperacaoRegistro → Registro
  | OperacaoRegistro.marcarComoDeletado => r.marcarComoDeletado
  | OperacaoRegistro.restaurarRegistro c n d x => r.restaurarRegistro c n d x

/-- The record after the calls of the list, from left to right. -/
def Registro.executar (r : Registro) (ops : List OperacaoRegistro) : Registro :=
  ops.foldl Registro.aplicar r

/-- The attributes other than the key are cleared. -/
def Registro.camposLimpos (r : Registro) : Prop :=
  r.nome = [] ∧ r.dataNascimento = [] ∧ r.sexo = ' '

instance Registro.camposLimpos.decidavel (r : Registro) : Decidable r.camposLimpos :=
  inferInstanceAs (Decidable (r.nome = [] ∧ r.dataNascimento = [] ∧ r.sexo = ' '))

/-- The statement `s.buscarPorPosicaoParaModificacao(indice).m(...)` for a mutating
method `m` of `Registro`: the method runs on the element the reference designates. -/
def EDL.modificar (s : EDL) (indice : Int) (op : OperacaoRegistro) : Except Excecao EDL :=
  match s.buscarPorPosicaoParaModificacao indice with
  | Except.error ex => Except.error ex
  | Except.ok r => Except.ok ⟨s.dados.set (toSizeT indice) (r.aplicar op)⟩

/-- One call that changes the record store. -/
inductive OperacaoEDL where
  | inserirRegistro (novoRegistro : Registro) : OperacaoEDL
  | modificar (indice : Int) (op : OperacaoRegistro) : OperacaoEDL
deriving DecidableEq, Repr

/-- Runs the calls from left to right and stops at the first exception: the store at
the end and the exception that stopped the run, if any. -/
def EDL.executar : EDL → List OperacaoEDL → EDL × Option Excecao
  | s, [] => (s, none)
  | s, OperacaoEDL.inserirRegistro r :: ops => EDL.executar (s.inserirRegistro r).1 ops
  | s, OperacaoEDL.modificar i op :: ops =>
    match s.modificar i op with
    | Except.error ex => (s, some ex)
    | Except.ok s2 => EDL.executar s2 ops

/-! ## ABB.cpp on an explicit heap

The tree operations once more, on nodes that live at the addresses of a heap, so
that two trees sharing a node can be told from two trees that do not. An address is
an index into the heap; `new` takes the next index, `delete` empties the slot. Every
recursion carries a bound on its depth and fails when the bound is used up. -/

open NoABB in
/-- The number of nodes on the longest path from the root to a leaf. -/
def altura : NoABB → Nat
  | nulo => 0
  | no esq _ dir => max (altura esq) (altura dir) + 1

namespace Memoria

/-- An object of class `NoABB` in the heap; a child pointer is an address or `nullptr`. -/
structure Celula where
  dado : EntradaIndice
  esq : Option Nat
  dir : Option Nat
deriving DecidableEq, Repr

/-- The heap: the live object at each address; `none` where the object was deleted. -/
abbrev Heap := List (Option Celula)

/-- Reading through a pointer; it fails when no live object is at the address. -/
def ler (h : Heap) (a : Nat) : Option Celula :=
  match h[a]? with
  | some (some c) => some c
  | _ => none

/-- The expression `new NoABB(entrada)`: the heap with the new object and its address. -/
def alocar (h : Heap) (entrada : EntradaIndice) : Heap × Nat :=
  (h ++ [some ⟨entrada, none, none⟩], h.length)

/-- The assignment `p->dado = d`. -/
def escreverDado (h : Heap) (p : Nat) (d : EntradaIndice) : Option Heap :=
  match ler h p with
  | none => none
  | some c => some (h.set p (some { c with dado := d }))

/-- The assignment `p->esq = q`. -/
def escreverEsq (h : Heap) (p : Nat) (q : Option Nat) : Option Heap :=
  match ler h p with
  | none => none
  | some c => some (h.set p (some { c with esq := q }))

/-- The assignment `p->dir = q`. -/
def escreverDir (h : Heap) (p : Nat) (q : Option Nat) : Option Heap :=
  match ler h p with
  | none => none
  | some c => some (h.set p (some { c with dir := q }))

/-- The statement `delete p`. -/
def liberar (h : Heap) (p : Nat) : Option Heap :=
  match ler h p with
  | none => none
  | some _ => some (h.set p none)

/-- Function `ABB::destruirRecursivo`. -/
def destruirRecursivo : Nat → Heap → Option Nat → Option Heap
  | 0, _, _ => none
  | _ + 1, h, none => some h
  | limite + 1, h, some no => do
    let c ← ler h no
    let h1 ← destruirRecursivo limite h c.esq
    let c1 ← ler h1 no
    let h2 ← destruirRecursivo limite h1 c1.dir
    liberar h2 no

/-- Function `ABB::copiarRecursivo`: the heap afterwards and the address of the copy. -/
def copiarRecursivo : Nat → Heap → Option Nat → Option (Heap × Option Nat)
  | 0, _, _ => none
  | _ + 1, h, none => some (h, none)
  | limite + 1, h, some noOriginal => do
    let c ← ler h noOriginal
    let r := alocar h c.dado
    let novoNo := r.2
    let c1 ← ler r.1 noOriginal
    let e ← copiarRecursivo limite r.1 c1.esq
    let h2 ← escreverEsq e.1 novoNo e.2
    let c2 ← ler h2 noOriginal
    let d ← copiarRecursivo limite h2 c2.dir
    let h3 ← escreverDir d.1 novoNo d.2
    pure (h3, some novoNo)

/-- Function `ABB::inserirRecursivo`: the heap afterwards, the returned pointer and the
text written. -/
def inserirRecursivo :
    Nat → Heap → Option Nat → EntradaIndice → Option (Heap × Option Nat × List Mensagem)
  | 0, _, _, _ => none
  | _ + 1, h, none, novaEntrada => some ((alocar h novaEntrada).1, some (alocar h novaEntrada).2, [])
  | limite + 1, h, some noAtual, novaEntrada => do
    let c ← ler h noAtual
    if novaEntrada.lt c.dado then
      let r ← inserirRecursivo limite h c.esq novaEntrada
      let h2 ← escreverEsq r.1 noAtual r.2.1
      pure (h2, some noAtual, r.2.2)
    else if novaEntrada.gt c.dado then
      let r ← inserirRecursivo limite h c.dir novaEntrada
      let h2 ← escreverDir r.1 noAtual r.2.1
      pure (h2, some noAtual, r.2.2)
    else
      pure (h, some noAtual, [Mensagem.chaveJaExiste novaEntrada.getChave])

/-- Function `ABB::encontrarMin`: the address of the leftmost node. -/
def encontrarMin : Nat → Heap → Option Nat → Option Nat
  | 0, _, _ => none
  | _ + 1, _, none => none
  | limite + 1, h, some no => do
    let c ← ler h no
    match c.esq with
    | none => pure no
    | some e => encontrarMin limite h (some e)

/-- Function `ABB::removerRecursivo`: the heap afterwards, the returned pointer and the
text written. -/
def removerRecursivo :
    Nat → Heap → Option Nat → StdString → Option (Heap × Option Nat × List Mensagem)
  | 0, _, _, _ => none
  | _ + 1, h, none, chaveRemover => some (h, none, [Mensagem.chaveNaoEncontrada chaveRemover])
  | limite + 1, h, some noAtual, chaveRemover => do
    let c ← ler h noAtual
    if chaveRemover < c.dado.getChave then
      let r ← removerRecursivo limite h c.esq chaveRemover
      let h2 ← escreverEsq r.1 noAtual r.2.1
      pure (h2, some noAtual, r.2.2)
    else if chaveRemover > c.dado.getChave then
      let r ← removerRecursivo limite h c.dir chaveRemover
      let h2 ← escreverDir r.1 noAtual r.2.1
      pure (h2, some noAtual, r.2.2)
    else if c.esq.isNone then
      let h2 ← liberar h noAtual
      pure (h2, c.dir, [])
    else if c.dir.isNone then
      let h2 ← liberar h noAtual
      pure (h2, c.esq, [])
    else
      let temp ← encontrarMin limite h c.dir
      let ct ← ler h temp
      let h1 ← escreverDado h noAtual ct.dado
      let c1 ← ler h1 noAtual
      let ct1 ← ler h1 temp
      let r ← removerRecursivo limite h1 c1.dir ct1.dado.getChave
      let h3 ← escreverDir r.1 noAtual r.2.1
      pure (h3, some noAtual, r.2.2)

/-- The loop of `ABB::buscarPosicao`, started at the pointer `noAtual`. -/
def buscarPosicaoLaco : Nat → Heap → Option Nat → StdString → Option Int
  | 0, _, _, _ => none
  | _ + 1, _, none, _ => some (-1)
  | limite + 1, h, some noAtual, chaveBusca => do
    let c ← ler h noAtual
    if chaveBusca < c.dado.getChave then buscarPosicaoLaco limite h c.esq chaveBusca
    else if chaveBusca > c.dado.getChave then buscarPosicaoLaco limite h c.dir chaveBusca
    else pure c.dado.getPosicaoEDL

/-- Function `ABB::emOrdemRecursivo`: the entries in the order they are printed. -/
def emOrdemRecursivo : Nat → Heap → Option Nat → Option (List EntradaIndice)
  | 0, _, _ => none
  | _ + 1, _, none => some []
  | limite + 1, h, some no => do
    let c ← ler h no
    let e ← emOrdemRecursivo limite h c.esq
    let d ← emOrdemRecursivo limite h c.dir
    pure (e ++ c.dado :: d)

/-- An object of class `ABB`: its member `raiz`. -/
structure ABB where
  raiz : Option Nat
deriving DecidableEq, Repr

/-- The argument `const ABB& outraABB` of `operator=`, seen from the object assigned
to: a reference to that object itself (`this == &outraABB`) or to another object. -/
inductive Referencia where
  | esteObjeto : Referencia
  | outroObjeto (outraABB : ABB) : Referencia
deriving DecidableEq, Repr

/-- The depth bound the public methods start with: a path without a repeated node
has at most as many nodes as the heap has addresses. -/
def limiteDe (h : Heap) : Nat := h.length + 1

namespace ABB

/-- Copy constructor `ABB(const ABB&)`. -/
def copia (h : Heap) (outraABB : ABB) : Option (Heap × ABB) := do
  let r ← copiarRecursivo (limiteDe h) h outraABB.raiz
  pure (r.1, ⟨r.2⟩)

/-- Copy assignment `operator=`: when the argument is the object itself the test
`this != &outraABB` fails and nothing is done; otherwise the nodes of the object are
destroyed and `raiz` becomes the copy of the tree of `outraABB`. -/
def atribuir (h : Heap) (este : ABB) : Referencia → Option (Heap × ABB)
  | Referencia.esteObjeto => some (h, este)
  | Referencia.outroObjeto outraABB => do
    let h1 ← destruirRecursivo (limiteDe h) h este.raiz
    let r ← copiarRecursivo (limiteDe h1) h1 outraABB.raiz
    pure (r.1, ⟨r.2⟩)

/-- Method `ABB::inserir`. -/
def inserir (h : Heap) (a : ABB) (novaEntrada : EntradaIndice) :
    Option (Heap × ABB × List Mensagem) := do
  let r ← inserirRecursivo (limiteDe h) h a.raiz novaEntrada
  pure (r.1, ⟨r.2.1⟩, r.2.2)

/-- Method `ABB::remover`. -/
def remover (h : Heap) (a : ABB) (chaveRemover : StdString) :
    Option (Heap × ABB × List Mensagem) := do
  let r ← removerRecursivo (limiteDe h) h a.raiz chaveRemover
  pure (r.1, ⟨r.2.1⟩, r.2.2)

/-- Method `ABB::deletarABB`. -/
def deletarABB (h : Heap) (a : ABB) : Option (Heap × ABB) := do
  let h1 ← destruirRecursivo (limiteDe h) h a.raiz
  pure (h1, ⟨none⟩)

/-- Method `ABB::buscarPosicao`. -/
def buscarPosicao (h : Heap) (a : ABB) (chaveBusca : StdString) : Option Int :=
  buscarPosicaoLaco (limiteDe h) h a.raiz chaveBusca

/-- Method `ABB::emOrdem`. -/
def emOrdem (h : Heap) (a : ABB) : Option (List EntradaIndice) :=
  emOrdemRecursivo (limiteDe h) h a.raiz

end ABB

/-- One call of `inserir`, `remover` or `deletarABB`. -/
inductive Chamada where
  | inserir (novaEntrada : EntradaIndice) : Chamada
  | remover (chaveRemover : StdString) : Chamada
  | deletarABB : Chamada
deriving DecidableEq, Repr

/-- Runs the calls from left to right on the object `a`. -/
def executar : Heap → ABB → List Chamada → Option (Heap × ABB)
  | h, a, [] => some (h, a)
  | h, a, Chamada.inserir e :: cs =>
    match a.inserir h e with
    | none => none
    | some r => executar r.1 r.2.1 cs
  | h, a, Chamada.remover k :: cs =>
    match a.remover h k with
    | none => none
    | some r => executar r.1 r.2.1 cs
  | h, a, Chamada.deletarABB :: cs =>
    match a.deletarABB h with
    | none => none
    | some r => executar r.1 r.2 cs

/-- The tree after the calls of the list, on trees as values. -/
def valorApos : NoABB → List Chamada → Option NoABB
  | t, [] => some t
  | t, Chamada.inserir e :: cs => valorApos (ArvoreBinaria.inserirRecursivo t e).1 cs
  | t, Chamada.remover k :: cs =>
    match ArvoreBinaria.removerRecursivo t k with
    | none => none
    | some r => valorApos r.1 cs
  | _, Chamada.deletarABB :: cs => valorApos NoABB.nulo cs

open NoABB in
/-- The pointer `p` is the root of the tree `t` in the heap `h`, and `fp` lists the
addresses of its nodes, root first; no address occurs twice. -/
def Representa (h : Heap) : Option Nat → NoABB → List Nat → Prop
  | p, nulo, fp => p = none ∧ fp = []
  | p, no l d r, fp =>
    ∃ a c fl fr, p = some a ∧ ler h a = some c ∧ c.dado = d ∧ fp = a :: (fl ++ fr) ∧
      a ∉ fl ++ fr ∧ List.Disjoint fl fr ∧ Representa h c.esq l fl ∧ Representa h c.dir r fr

end Memoria

/-! ## ABB.cpp: traversals, copy, teardown and list construction on trees as values -/

open NoABB in
/-- The number of nodes of a tree. -/
def tamanho : NoABB → Nat
  | nulo => 0
  | no esq _ dir => tamanho esq + tamanho dir + 1

open NoABB in
/-- Function `ABB::preOrdemRecursivo`: the entries in the order they are printed. -/
def preOrdemRecursivo : NoABB → List EntradaIndice
  | nulo => []
  | no esq dado dir => dado :: (preOrdemRecursivo esq ++ preOrdemRecursivo dir)

open NoABB in
/-- Function `ABB::posOrdemRecursivo`: the entries in the order they are printed. -/
def posOrdemRecursivo : NoABB → List EntradaIndice
  | nulo => []
  | no esq dado dir => posOrdemRecursivo esq ++ posOrdemRecursivo dir ++ [dado]

open NoABB in
/-- The loop of `ABB::emLargura` on the queue `fila`, at most `limite - 1` rounds: the
entries in the order they are printed. A null pointer at the front of the queue is a
null dereference. -/
def emLarguraLaco : Nat → List NoABB → Option (List EntradaIndice)
  | 0, _ => none
  | _ + 1, [] => some []
  | _ + 1, nulo :: _ => none
  | limite + 1, no esq dado dir :: fila =>
    match emLarguraLaco limite
        ((if esq.ehNulo then fila else fila ++ [esq]) ++ (if dir.ehNulo then [] else [dir])) with
    | none => none
    | some resto => some (dado :: resto)

open NoABB in
/-- Function `ABB::copiarRecursivo`: the tree built from the new nodes. -/
def copiarRecursivo : NoABB → NoABB
  | nulo => nulo
  | no esq dado dir => no (copiarRecursivo esq) dado (copiarRecursivo dir)

open NoABB in
/-- Function `ABB::destruirRecursivo`: the entries of the nodes in the order they are
deleted. -/
def destruirRecursivo : NoABB → List EntradaIndice
  | nulo => []
  | no esq dado dir => destruirRecursivo esq ++ destruirRecursivo dir ++ [dado]

namespace ABB

/-- Method `ABB::preOrdem`. -/
def preOrdem (a : ABB) : List EntradaIndice := preOrdemRecursivo a.raiz

/-- Method `ABB::posOrdem`. -/
def posOrdem (a : ABB) : List EntradaIndice := posOrdemRecursivo a.raiz

/-- Method `ABB::emLargura`: the queue starts with the root and every round takes one
node from it, so one round more than the tree has nodes is enough. -/
def emLargura (a : ABB) : Option (List EntradaIndice) :=
  if a.raiz.ehNulo then some [] else emLarguraLaco (tamanho a.raiz + 1) [a.raiz]

/-- Copy constructor `ABB(const ABB&)`. -/
def copia (outraABB : ABB) : ABB := ⟨copiarRecursivo outraABB.raiz⟩

/-- Method `ABB::deletarABB`. -/
def deletarABB (_a : ABB) : ABB := ⟨NoABB.nulo⟩

/-- The loop of the constructor `ABB(std::initializer_list<EntradaIndice>)`. -/
def deListaLaco : ABB → List EntradaIndice → ABB × List Mensagem
  | a, [] => (a, [])
  | a, entrada :: resto =>
    ((deListaLaco (a.inserir entrada).1 resto).1,
      (a.inserir entrada).2 ++ (deListaLaco (a.inserir entrada).1 resto).2)

/-- Constructor `ABB(std::initializer_list<EntradaIndice>)`. -/
def deLista (lista : List EntradaIndice) : ABB × List Mensagem :=
  deListaLaco ABB.vazia lista

end ABB

/-! ## Reference definitions for the traversals and the shapes -/

open NoABB in
/-- The entries of the nodes at depth `d`, from left to right. -/
def nivel : NoABB → Nat → List EntradaIndice
  | nulo, _ => []
  | no _ dado _, 0 => [dado]
  | no esq _ dir, d + 1 => nivel esq d ++ nivel dir d

/-- Reference for the level-order walk, after the specification: the root, then the
nodes of depth 1 from left to right, then those of depth 2, and so on. -/
def emLarguraReferencia (t : NoABB) : List EntradaIndice :=
  (List.range (altura t)).flatMap (nivel t)

open NoABB in
/-- The children of a node that are not null, left first: what one round of
`ABB::emLargura` pushes onto the queue. -/
def filhos : NoABB → List NoABB
  | nulo => []
  | no esq _ dir => (if esq.ehNulo then [] else [esq]) ++ (if dir.ehNulo then [] else [dir])

/-- The entries at the roots of the trees of a queue. -/
def dadosRaiz (fila : List NoABB) : List EntradaIndice := fila.filterMap NoABB.dado?

/-- The number of nodes in the trees of a queue. -/
def tamanhoFila (fila : List NoABB) : Nat := (fila.map tamanho).sum

/-- The entries at depth `d` of the trees of a queue, tree after tree. -/
def nivelFila (fila : List NoABB) (d : Nat) : List EntradaIndice :=
  fila.flatMap (fun t => nivel t d)

open NoABB in
/-- The tree without its leftmost node, whose right child takes its place. -/
def semMinimo : NoABB → NoABB
  | nulo => nulo
  | no esq dado dir => if esq.ehNulo then dir else no (semMinimo esq) dado dir

/-- The tree in which every node has no left child, with the entries from the root
down. -/
def espinhaDireita : List EntradaIndice → NoABB
  | [] => NoABB.nulo
  | e :: es => NoABB.no NoABB.nulo e (espinhaDireita es)

/-- The tree in which every node has no right child, with the entries from the root
down. -/
def espinhaEsquerda : List EntradaIndice → NoABB
  | [] => NoABB.nulo
  | e :: es => NoABB.no (espinhaEsquerda es) e NoABB.nulo

open NoABB in
/-- No node of the tree has a left child. -/
def semEsquerda : NoABB → Bool
  | nulo => true
  | no esq _ dir => esq.ehNulo && semEsquerda dir

open NoABB in
/-- No node of the tree has a right child. -/
def semDireita : NoABB → Bool
  | nulo => true
  | no esq _ dir => dir.ehNulo && semDireita esq

/-! ## main.cpp: the steps of the driver -/

/-- What stops a step of the driver: an exception of the store, or a null dereference
in the tree. -/
inductive Falha where
  | excecao (ex : Excecao) : Falha
  | ponteiroNulo : Falha
deriving DecidableEq, Repr

/-- The two objects of `main`: the record file and the index file. -/
structure Estado where
  arquivoRegistros : EDL
  arquivoIndices : ABB
deriving DecidableEq, Repr

namespace Estado

/-- The state at the start of `main`. -/
def inicial : Estado := ⟨EDL.vazia, ABB.vazia⟩

/-- An insertion of `main`: `pos = arquivoRegistros.inserirRegistro(r)`, then
`arquivoIndices.inserir(EntradaIndice(r.getCpf(), pos))`. -/
def adicionar (s : Estado) (r : Registro) : Estado :=
  ⟨(s.arquivoRegistros.inserirRegistro r).1,
    (s.arquivoIndices.inserir ⟨r.getCpf, (s.arquivoRegistros.inserirRegistro r).2⟩).1⟩

/-- A removal of `main`: `posRemover = arquivoIndices.buscarPosicao(cpfRemover)` and,
when it is not `-1`, the record at that position is marked deleted and the key is
removed from the index. -/
def apagar (s : Estado) (cpfRemover : StdString) : Except Falha Estado :=
  if s.arquivoIndices.buscarPosicao cpfRemover ≠ -1 then
    match s.arquivoRegistros.modificar (s.arquivoIndices.buscarPosicao cpfRemover)
        OperacaoRegistro.marcarComoDeletado with
    | Except.error ex => Except.error (Falha.excecao ex)
    | Except.ok edl =>
      match s.arquivoIndices.remover cpfRemover with
      | none => Except.error Falha.ponteiroNulo
      | some r => Except.ok ⟨edl, r.1⟩
  else Except.ok s

end Estado

/-- One step of the driver. -/
inductive Passo where
  | adicionar (r : Registro) : Passo
  | apagar (cpfRemover : StdString) : Passo
deriving DecidableEq, Repr

/-- Runs the steps from left to right. -/
def executarPassos : Estado → List Passo → Except Falha Estado
  | s, [] => Except.ok s
  | s, Passo.adicionar r :: ps => executarPassos (s.adicionar r) ps
  | s, Passo.apagar k :: ps =>
    match s.apagar k with
    | Except.error f => Except.error f
    | Except.ok s2 => executarPassos s2 ps

/-- The number of insertions among the steps. -/
def adicoes : List Passo → Nat
  | [] => 0
  | Passo.adicionar _ :: ps => adicoes ps + 1
  | Passo.apagar _ :: ps => adicoes ps

/-- The index agrees with the store: every entry `(k, p)` of the tree has
`0 <= p < size`, and the record at `p` is not flagged deleted and has the key `k`. -/
def consistente (s : Estado) : Prop :=
  ∀ e ∈ s.arquivoIndices.emOrdem, 0 ≤ e.posicaoEDL ∧
    e.posicaoEDL < (s.arquivoRegistros.getTamanho : Int) ∧
    ∃ r, s.arquivoRegistros.dados[e.posicaoEDL.toNat]? = some r ∧
      r.isDeletado = false ∧ r.getCpf = e.chave

end ArvoreBinaria

/-!
# Chained hash table

Shallow embedding of `hash/hash_table.cpp`. A chain of `Node` objects linked by
`next` is the list of its nodes, `nullptr` being the empty list. The remainder by a
zero `size` and `table[index]` outside the vector are failures (`Option.none`).
-/

namespace TabelaHash

open ArvoreBinaria (StdString)

/-- Class `Node`: the key and the value; the `next` pointer is the rest of the chain. -/
structure Node where
  key : StdString
  value : StdString
deriving DecidableEq, Repr

/-- Class `HashTable`: the vector of chains, its size and the hash function. The hash
function is one that returns a value for every key; a function that throws, as
`hashDivisao` does through `stoull` on a key that is not a number, is not covered. -/
structure HashTable where
  table : List (List Node)
  size : Nat
  dispersionFunction : StdString → Nat

namespace HashTable

/-- Constructor `HashTable(sz, func)`: `sz` empty chains. -/
def novo (sz : Nat) (func : StdString → Nat) : HashTable :=
  ⟨List.replicate sz [], sz, func⟩

/-- The index `dispersionFunction(key) % size`. -/
def indice (t : HashTable) (key : StdString) : Option Nat :=
  if t.size = 0 then none else some (t.dispersionFunction key % t.size)

/-- The loop of `HashTable::search` over a chain: the value of the first node with
the key, or the empty string. -/
def searchLista : List Node → StdString → StdString
  | [], _ => []
  | current :: next, key =>
    if current.key = key then current.value else searchLista next key

/-- Method `HashTable::search`. -/
def search (t : HashTable) (key : StdString) : Option StdString :=
  match t.indice key with
  | none => none
  | some index =>
    match t.table[index]? with
    | none => none
    | some current => some (searchLista current key)

/-- The two branches of `HashTable::insert` that link the new node: into an empty
slot, or behind the last node of the chain. -/
def anexar : List Node → Node → List Node
  | [], newNode => [newNode]
  | current :: next, newNode => current :: anexar next newNode

/-- Method `HashTable::insert`. -/
def insert (t : HashTable) (key value : StdString) : Option HashTable :=
  match t.search key with
  | none => none
  | some encontrado =>
    if !encontrado.isEmpty then some t
    else
      match t.indice key with
      | none => none
      | some index =>
        match t.table[index]? with
        | none => none
        | some current =>
          some { t with table := t.table.set index (anexar current ⟨key, value⟩) }

/-- The loop of `HashTable::remove` over a chain: the chain without the first node
with the key, and whether there was one. -/
def removeLista : List Node → StdString → List Node × Bool
  | [], _ => ([], false)
  | current :: next, key =>
    if current.key = key then (next, true)
    else ((current :: (removeLista next key).1), (removeLista next key).2)

/-- Method `HashTable::remove`: the table afterwards and the returned `bool`. -/
def remove (t : HashTable) (key : StdString) : Option (HashTable × Bool) :=
  match t.indice key with
  | none => none
  | some index =>
    match t.table[index]? with
    | none => none
    | some current =>
      if (removeLista current key).2 then
        some ({ t with table := t.table.set index (removeLista current key).1 }, true)
      else some (t, false)

/-- The stored nodes, chain after chain (the order of `HashTable::print`). -/
def nos (t : HashTable) : List Node := t.table.flatten

end HashTable

/-- One call that changes the hash table. -/
inductive Operacao where
  | insert (key value : StdString) : Operacao
  | remove (key : StdString) : Operacao
deriving DecidableEq, Repr

/-- Runs the calls from left to right on the table `t`. -/
def executar : HashTable → List Operacao → Option HashTable
  | t, [] => some t
  | t, Operacao.insert key value :: ops =>
    match t.insert key value with
    | none => none
    | some t2 => executar t2 ops
  | t, Operacao.remove key :: ops =>
    match t.remove key with
    | none => none
    | some r => executar r.1 ops

/-- The loop of `eliminateDuplicate` over the rows already split into key and value:
a table of 120 chains into which every row is inserted. -/
def eliminateDuplicate (linhas : List (StdString × StdString))
    (dispersionFunc : StdString → Nat) : Option HashTable :=
  executar (HashTable.novo 120 dispersionFunc)
    (linhas.map (fun l => Operacao.insert l.1 l.2))

end TabelaHash

namespace ArvoreBinaria

open NoABB

/-! ## Lemmas on the in-order walk and the invariant -/

theorem chaves_nulo : chaves nulo = [] := rfl

theorem chaves_no (l : NoABB) (d : EntradaIndice) (r : NoABB) :
    chaves (no l d r) = chaves l ++ d.chave :: chaves r := by
  simp [chaves, emOrdemRecursivo]

theorem mem_chaves_iff (t : NoABB) (c : StdString) :
    c ∈ chaves t ↔ ∃ e ∈ emOrdemRecursivo t, e.chave = c := by
  simp [chaves]

theorem ehABB_iff_crescente (t : NoABB) : ehABB t ↔ estritamenteCrescente (chaves t) := by
  induction t with
  | nulo => simp [ehABB, estritamenteCrescente, chaves_nulo]
  | no l d r ihl ihr =>
    simp only [ehABB, chaves_no, estritamenteCrescente, List.pairwise_append,
      List.pairwise_cons, List.mem_cons] at *
    rw [ihl, ihr]
    constructor
    · rintro ⟨h1, h2, h3, h4⟩
      refine ⟨h3, ⟨h2, h4⟩, ?_⟩
      intro a ha b hb
      rcases hb with rfl | hb
      · exact h1 a ha
      · exact lt_trans (h1 a ha) (h2 b hb)
    · rintro ⟨h3, ⟨h2, h4⟩, h5⟩
      exact ⟨fun c hc => h5 c hc d.chave (Or.inl rfl), h2, h3, h4⟩

/-! ## Search -/

theorem buscarPosicaoLaco_ausente (t : NoABB) (k : StdString) (h : k ∉ chaves t) :
    buscarPosicaoLaco t k = -1 := by
  induction t with
  | nulo => rfl
  | no l d r ihl ihr =>
    simp only [chaves_no, List.mem_append, List.mem_cons, not_or] at h
    obtain ⟨h1, h2, h3⟩ := h
    have hne : ¬ (k < d.chave) → ¬ (k > d.chave) → False := by
      intro a b
      rcases lt_trichotomy k d.chave with h | h | h
      · exact a h
      · exact h2 h
      · exact b h
    simp only [buscarPosicaoLaco, EntradaIndice.getChave]
    split_ifs with a b
    · exact ihl h1
    · exact ihr h3
    · exact (hne a b).elim

theorem buscarPosicaoLaco_presente (t : NoABB) (h : ehABB t) (e : EntradaIndice)
    (he : e ∈ emOrdemRecursivo t) : buscarPosicaoLaco t e.chave = e.posicaoEDL := by
  induction t with
  | nulo => simp [emOrdemRecursivo] at he
  | no l d r ihl ihr =>
    obtain ⟨h1, h2, h3, h4⟩ := h
    simp only [emOrdemRecursivo, List.mem_append, List.mem_cons] at he
    simp only [buscarPosicaoLaco, EntradaIndice.getChave, EntradaIndice.getPosicaoEDL]
    rcases he with he | rfl | he
    · have : e.chave < d.chave := h1 _ ((mem_chaves_iff _ _).2 ⟨e, he, rfl⟩)
      rw [if_pos this]
      exact ihl h3 he
    · simp
    · have : d.chave < e.chave := h2 _ ((mem_chaves_iff _ _).2 ⟨e, he, rfl⟩)
      rw [if_neg (lt_asymm this), if_pos this]
      exact ihr h4 he

/-! ## Insertion -/

theorem mem_emOrdem_inserir (t : NoABB) (e x : EntradaIndice)
    (hx : x ∈ emOrdemRecursivo (inserirRecursivo t e).1) :
    x ∈ emOrdemRecursivo t ∨ x = e := by
  induction t with
  | nulo => simpa [inserirRecursivo, novo, emOrdemRecursivo] using hx
  | no l d r ihl ihr =>
    simp only [inserirRecursivo] at hx
    split_ifs at hx with a b
    · simp only [emOrdemRecursivo, List.mem_append, List.mem_cons] at hx ⊢
      rcases hx with hx | hx | hx
      · rcases ihl hx with h | h
        · exact Or.inl (Or.inl h)
        · exact Or.inr h
      · exact Or.inl (Or.inr (Or.inl hx))
      · exact Or.inl (Or.inr (Or.inr hx))
    · simp only [emOrdemRecursivo, List.mem_append, List.mem_cons] at hx ⊢
      rcases hx with hx | hx | hx
      · exact Or.inl (Or.inl hx)
      · exact Or.inl (Or.inr (Or.inl hx))
      · rcases ihr hx with h | h
        · exact Or.inl (Or.inr (Or.inr h))
        · exact Or.inr h
    · exact Or.inl hx

theorem emOrdem_sub_inserir (t : NoABB) (e x : EntradaIndice)
    (hx : x ∈ emOrdemRecursivo t) : x ∈ emOrdemRecursivo (inserirRecursivo t e).1 := by
  induction t with
  | nulo => simp [emOrdemRecursivo] at hx
  | no l d r ihl ihr =>
    simp only [inserirRecursivo]
    simp only [emOrdemRecursivo, List.mem_append, List.mem_cons] at hx
    split_ifs with a b
    · simp only [emOrdemRecursivo, List.mem_append, List.mem_cons]
      rcases hx with hx | hx | hx
      · exact Or.inl (ihl hx)
      · exact Or.inr (Or.inl hx)
      · exact Or.inr (Or.inr hx)
    · simp only [emOrdemRecursivo, List.mem_append, List.mem_cons]
      rcases hx with hx | hx | hx
      · exact Or.inl hx
      · exact Or.inr (Or.inl hx)
      · exact Or.inr (Or.inr (ihr hx))
    · simpa [emOrdemRecursivo] using hx

theorem mem_chaves_inserir (t : NoABB) (e : EntradaIndice) (c : StdString)
    (hc : c ∈ chaves (inserirRecursivo t e).1) : c ∈ chaves t ∨ c = e.chave := by
  obtain ⟨x, hx, rfl⟩ := (mem_chaves_iff _ _).1 hc
  rcases mem_emOrdem_inserir t e x hx with h | h
  · exact Or.inl ((mem_chaves_iff _ _).2 ⟨x, h, rfl⟩)
  · exact Or.inr (by rw [h])

theorem mem_emOrdem_inserir_ausente (t : NoABB) (e : EntradaIndice)
    (h : e.chave ∉ chaves t) : e ∈ emOrdemRecursivo (inserirRecursivo t e).1 := by
  induction t with
  | nulo => simp [inserirRecursivo, novo, emOrdemRecursivo]
  | no l d r ihl ihr =>
    simp only [chaves_no, List.mem_append, List.mem_cons, not_or] at h
    obtain ⟨h1, h2, h3⟩ := h
    simp only [inserirRecursivo, EntradaIndice.lt, EntradaIndice.gt, decide_eq_true_eq]
    split_ifs with a b
    · simp only [emOrdemRecursivo, List.mem_append, List.mem_cons]
      exact Or.inl (ihl h1)
    · simp only [emOrdemRecursivo, List.mem_append, List.mem_cons]
      exact Or.inr (Or.inr (ihr h3))
    · rcases lt_trichotomy e.chave d.chave with h | h | h
      · exact absurd h a
      · exact absurd h h2
      · exact absurd h b

theorem ehABB_inserir (t : NoABB) (e : EntradaIndice) (h : ehABB t) :
    ehABB (inserirRecursivo t e).1 := by
  induction t with
  | nulo => simp [inserirRecursivo, novo, ehABB, chaves_nulo]
  | no l d r ihl ihr =>
    obtain ⟨h1, h2, h3, h4⟩ := h
    simp only [inserirRecursivo, EntradaIndice.lt, EntradaIndice.gt, decide_eq_true_eq]
    split_ifs with a b
    · refine ⟨?_, h2, ihl h3, h4⟩
      intro c hc
      rcases mem_chaves_inserir l e c hc with hc | rfl
      · exact h1 c hc
      · exact a
    · refine ⟨h1, ?_, h3, ihr h4⟩
      intro c hc
      rcases mem_chaves_inserir r e c hc with hc | rfl
      · exact h2 c hc
      · exact b
    · exact ⟨h1, h2, h3, h4⟩

theorem inserirRecursivo_presente (t : NoABB) (h : ehABB t) (e : EntradaIndice)
    (he : e.chave ∈ chaves t) :
    inserirRecursivo t e = (t, [Mensagem.chaveJaExiste e.chave]) := by
  induction t with
  | nulo => simp [chaves_nulo] at he
  | no l d r ihl ihr =>
    obtain ⟨h1, h2, h3, h4⟩ := h
    simp only [chaves_no, List.mem_append, List.mem_cons] at he
    simp only [inserirRecursivo, EntradaIndice.lt, EntradaIndice.gt, decide_eq_true_eq,
      EntradaIndice.getChave]
    rcases he with he | he | he
    · have : e.chave < d.chave := h1 _ he
      rw [if_pos this, ihl h3 he]
    · rw [he]; simp
    · have : d.chave < e.chave := h2 _ he
      rw [if_neg (lt_asymm this), if_pos this, ihr h4 he]

/-! ## Removal -/

theorem encontrarMin_no (l : NoABB) (d : EntradaIndice) (r : NoABB) :
    ∃ m x rest, encontrarMin (no l d r) = some (no nulo m x) ∧
      emOrdemRecursivo (no l d r) = m :: rest := by
  induction l generalizing d r with
  | nulo => exact ⟨d, r, emOrdemRecursivo r, by simp [encontrarMin, ehNulo, emOrdemRecursivo]⟩
  | no a b c iha _ =>
    obtain ⟨m, x, rest, h1, h2⟩ := iha b c
    refine ⟨m, x, rest ++ d :: emOrdemRecursivo r, ?_, ?_⟩
    · rw [encontrarMin]
      simpa [ehNulo] using h1
    · rw [emOrdemRecursivo, h2]
      simp

theorem encontrarMin_naoNulo (t : NoABB) (h : t.ehNulo = false) :
    ∃ m x rest, encontrarMin t = some (no nulo m x) ∧ emOrdemRecursivo t = m :: rest := by
  cases t with
  | nulo => simp [ehNulo] at h
  | no l d r => exact encontrarMin_no l d r

theorem removerRecursivo_definido (t : NoABB) (k : StdString) :
    ∃ r, removerRecursivo t k = some r := by
  induction t generalizing k with
  | nulo => exact ⟨_, rfl⟩
  | no l d r ihl ihr =>
    simp only [removerRecursivo]
    split_ifs with a b c e
    · obtain ⟨x, hx⟩ := ihl k
      simp [hx]
    · obtain ⟨x, hx⟩ := ihr k
      simp [hx]
    · exact ⟨_, rfl⟩
    · exact ⟨_, rfl⟩
    · obtain ⟨m, x, rest, h1, _⟩ := encontrarMin_naoNulo r (by simpa using e)
      obtain ⟨y, hy⟩ := ihr m.chave
      simp [h1, dado?, EntradaIndice.getChave, hy]

theorem filter_chave_ne_eq_self (xs : List EntradaIndice) (k : StdString)
    (h : ∀ e ∈ xs, e.chave ≠ k) : xs.filter (fun e => decide (e.chave ≠ k)) = xs := by
  rw [List.filter_eq_self]
  intro e he
  simpa using h e he

theorem emOrdem_removerRecursivo (t : NoABB) (h : ehABB t) (k : StdString) :
    ∃ r, removerRecursivo t k = some r ∧
      emOrdemRecursivo r.1 = (emOrdemRecursivo t).filter (fun e => decide (e.chave ≠ k)) := by
  induction t generalizing k with
  | nulo => exact ⟨_, rfl, rfl⟩
  | no l d r ihl ihr =>
    obtain ⟨h1, h2, h3, h4⟩ := h
    have hl : ∀ c, c ≤ d.chave → ∀ e ∈ emOrdemRecursivo r, e.chave ≠ c := by
      intro c hc e he heq
      have := h2 _ ((mem_chaves_iff _ _).2 ⟨e, he, rfl⟩)
      rw [heq] at this
      exact absurd this (not_lt.2 hc)
    have hr : ∀ c, d.chave ≤ c → ∀ e ∈ emOrdemRecursivo l, e.chave ≠ c := by
      intro c hc e he heq
      have := h1 _ ((mem_chaves_iff _ _).2 ⟨e, he, rfl⟩)
      rw [heq] at this
      exact absurd this (not_lt.2 hc)
    simp only [removerRecursivo, EntradaIndice.getChave]
    split_ifs with a b c e
    · obtain ⟨x, hx, hx2⟩ := ihl h3 k
      refine ⟨_, by rw [hx], ?_⟩
      simp only [emOrdemRecursivo, List.filter_append, List.filter_cons, hx2]
      rw [filter_chave_ne_eq_self _ _ (hl k (le_of_lt a))]
      simp [ne_of_gt a]
    · obtain ⟨x, hx, hx2⟩ := ihr h4 k
      refine ⟨_, by rw [hx], ?_⟩
      simp only [emOrdemRecursivo, List.filter_append, List.filter_cons, hx2]
      rw [filter_chave_ne_eq_self _ _ (hr k (le_of_lt b))]
      simp [ne_of_lt b]
    · have hk : d.chave = k := le_antisymm (not_lt.1 a) (not_lt.1 b)
      cases l with
      | no _ _ _ => simp [ehNulo] at c
      | nulo =>
        refine ⟨_, rfl, ?_⟩
        simp only [emOrdemRecursivo, List.nil_append, List.filter_cons]
        rw [filter_chave_ne_eq_self _ _ (hl k (le_of_eq hk.symm))]
        simp [hk]
    · have hk : d.chave = k := le_antisymm (not_lt.1 a) (not_lt.1 b)
      cases r with
      | no _ _ _ => simp [ehNulo] at e
      | nulo =>
        refine ⟨_, rfl, ?_⟩
        simp only [emOrdemRecursivo, List.filter_append, List.filter_cons]
        rw [filter_chave_ne_eq_self _ _ (hr k (le_of_eq hk))]
        simp [hk]
    · have hk : d.chave = k := le_antisymm (not_lt.1 a) (not_lt.1 b)
      obtain ⟨m, x, rest, hm1, hm2⟩ := encontrarMin_naoNulo r (by simpa using e)
      obtain ⟨y, hy, hy2⟩ := ihr h4 m.chave
      refine ⟨(no l m y.1, y.2), by simp [hm1, dado?, EntradaIndice.getChave, hy], ?_⟩
      have hsort := (ehABB_iff_crescente _).1 h4
      simp only [chaves, hm2, List.map_cons, estritamenteCrescente, List.pairwise_cons,
        List.mem_map, forall_exists_index, and_imp, forall_apply_eq_imp_iff₂] at hsort
      have hrest : ∀ e ∈ rest, e.chave ≠ m.chave := fun e he => ne_of_gt (hsort.1 e he)
      rw [hm2] at hy2
      simp only [List.filter_cons, ne_eq, not_true_eq_false, decide_False, Bool.false_eq_true,
        ↓reduceIte] at hy2
      rw [filter_chave_ne_eq_self _ _ hrest] at hy2
      simp only [emOrdemRecursivo, List.filter_append, List.filter_cons, hy2]
      rw [filter_chave_ne_eq_self _ _ (hr k (le_of_eq hk)),
        filter_chave_ne_eq_self _ _ (hl k (le_of_eq hk.symm)), ← hm2]
      simp [hk]

theorem removerRecursivo_ausente (t : NoABB) (k : StdString) (h : k ∉ chaves t) :
    removerRecursivo t k = some (t, [Mensagem.chaveNaoEncontrada k]) := by
  induction t with
  | nulo => rfl
  | no l d r ihl ihr =>
    simp only [chaves_no, List.mem_append, List.mem_cons, not_or] at h
    obtain ⟨h1, h2, h3⟩ := h
    simp only [removerRecursivo, EntradaIndice.getChave]
    split_ifs with a b
    · rw [ihl h1]
    · rw [ihr h3]
    · rcases lt_trichotomy k d.chave with h | h | h
      · exact absurd h a
      · exact absurd h h2
      · exact absurd h b
    · rcases lt_trichotomy k d.chave with h | h | h
      · exact absurd h a
      · exact absurd h h2
      · exact absurd h b
    · rcases lt_trichotomy k d.chave with h | h | h
      · exact absurd h a
      · exact absurd h h2
      · exact absurd h b

/-! ## Sequences of calls -/

theorem mem_emOrdem_inserirTodos (es : List EntradaIndice) (t : ABB) (x : EntradaIndice)
    (hx : x ∈ t.emOrdem) : x ∈ (inserirTodos t es).emOrdem := by
  induction es generalizing t with
  | nil => exact hx
  | cons e es ih =>
    simp only [inserirTodos, List.foldl_cons]
    exact ih _ (emOrdem_sub_inserir t.raiz e x hx)

theorem ehABB_inserirTodos (es : List EntradaIndice) (t : ABB) (h : ehABB t.raiz) :
    ehABB (inserirTodos t es).raiz := by
  induction es generalizing t with
  | nil => exact h
  | cons e es ih =>
    simp only [inserirTodos, List.foldl_cons]
    exact ih _ (ehABB_inserir t.raiz e h)

theorem mem_inserirTodos_distintas (es : List EntradaIndice) (t : ABB)
    (hdist : (es.map EntradaIndice.chave).Nodup) (hnovo : ∀ e ∈ es, e.chave ∉ chaves t.raiz)
    (e : EntradaIndice) (he : e ∈ es) : e ∈ (inserirTodos t es).emOrdem := by
  induction es generalizing t with
  | nil => simp at he
  | cons a es ih =>
    simp only [List.map_cons, List.nodup_cons, List.mem_map, not_exists, not_and] at hdist
    obtain ⟨ha, hdist⟩ := hdist
    simp only [inserirTodos, List.foldl_cons]
    rcases List.mem_cons.1 he with rfl | he
    · exact mem_emOrdem_inserirTodos es _ _
        (mem_emOrdem_inserir_ausente t.raiz _ (hnovo _ (List.mem_cons_self _ _)))
    · refine ih _ hdist ?_ he
      intro x hx hmem
      rcases mem_chaves_inserir t.raiz a x.chave hmem with h | h
      · exact hnovo x (List.mem_cons_of_mem _ hx) h
      · exact ha x hx h

theorem executar_ehABB (ops : List Operacao) (t : ABB) (h : ehABB t.raiz) :
    ∃ t2, executar t ops = some t2 ∧ ehABB t2.raiz := by
  induction ops generalizing t with
  | nil => exact ⟨t, rfl, h⟩
  | cons op ops ih =>
    cases op with
    | inserir e =>
      simp only [executar]
      exact ih _ (ehABB_inserir t.raiz e h)
    | remover k =>
      obtain ⟨r, hr, hr2⟩ := emOrdem_removerRecursivo t.raiz h k
      have hr3 : ehABB r.1 := by
        rw [ehABB_iff_crescente] at h ⊢
        unfold estritamenteCrescente chaves at h ⊢
        rw [hr2]
        exact List.Pairwise.sublist ((List.filter_sublist _).map _) h
      simp only [executar, ABB.remover, hr]
      exact ih _ hr3

/-! ## The record store -/

theorem toSizeT_naoNegativo (i : Int) (h0 : 0 ≤ i) (h : ehInt32 i) : toSizeT i = i.toNat := by
  unfold ehInt32 at h
  unfold toSizeT
  omega

theorem toSizeT_negativo (i : Int) (h0 : i < 0) (h : ehInt32 i) :
    2 ^ 64 - 2 ^ 31 ≤ toSizeT i := by
  unfold ehInt32 at h
  unfold toSizeT
  omega

theorem guardaPosicao_iff (pos : Int) (tamanho : Nat) (hp : ehInt32 pos)
    (ht : tamanho < 2 ^ 63) :
    guardaPosicao pos tamanho = true ↔ 0 ≤ pos ∧ pos < (tamanho : Int) := by
  simp only [guardaPosicao, Bool.and_eq_true, decide_eq_true_eq]
  by_cases h0 : 0 ≤ pos
  · rw [toSizeT_naoNegativo pos h0 hp]
    omega
  · have := toSizeT_negativo pos (by omega) hp
    omega

theorem foraDosLimites_iff (s : EDL) (i : Int) (h : ehInt32 i) :
    s.foraDosLimites i ↔ i < 0 ∨ (s.getTamanho : Int) ≤ i := by
  unfold EDL.foraDosLimites EDL.getTamanho
  by_cases h0 : 0 ≤ i
  · rw [toSizeT_naoNegativo i h0 h]
    omega
  · constructor
    · intro _; left; omega
    · intro _; left; omega

theorem buscarPorPosicao_dentro (s : EDL) (i : Int) (h : ehInt32 i) (h0 : 0 ≤ i)
    (h1 : i < (s.getTamanho : Int)) :
    ∃ r, s.dados[i.toNat]? = some r ∧ s.buscarPorPosicao i = Except.ok r ∧
      s.buscarPorPosicaoParaModificacao i = Except.ok r := by
  have hn : ¬ s.foraDosLimites i := by
    rw [foraDosLimites_iff s i h]; omega
  have hlt : i.toNat < s.dados.length := by
    unfold EDL.getTamanho at h1; omega
  refine ⟨s.dados.get ⟨i.toNat, hlt⟩, ?_, ?_, ?_⟩
  · simp [List.getElem?_eq_getElem hlt]
  · simp [EDL.buscarPorPosicao, hn, toSizeT_naoNegativo i h0 h]
  · simp [EDL.buscarPorPosicaoParaModificacao, hn, toSizeT_naoNegativo i h0 h]

theorem popularEDLOrdenada_eq (edl : EDL) (ht : edl.tamanhoRepresentavel) (t : NoABB)
    (hp : ∀ e ∈ emOrdemRecursivo t, ehInt32 e.posicaoEDL) (nova : EDL) :
    popularEDLOrdenada edl t nova =
      Except.ok ⟨nova.dados ++ edlOrdenadaReferencia ⟨t⟩ edl⟩ := by
  induction t generalizing nova with
  | nulo => simp [popularEDLOrdenada, edlOrdenadaReferencia, ABB.emOrdem, emOrdemRecursivo]
  | no l d r ihl ihr =>
    simp only [emOrdemRecursivo, List.mem_append, List.mem_cons] at hp
    have hl := ihl (fun e he => hp e (Or.inl he))
    have hr := ihr (fun e he => hp e (Or.inr (Or.inr he)))
    have hd : ehInt32 d.posicaoEDL := hp d (Or.inr (Or.inl rfl))
    simp only [popularEDLOrdenada, hl, EntradaIndice.getPosicaoEDL]
    have hg := guardaPosicao_iff d.posicaoEDL edl.getTamanho hd ht
    simp only [edlOrdenadaReferencia, ABB.emOrdem, emOrdemRecursivo, List.filterMap_append,
      List.filterMap_cons] at hr ⊢
    by_cases hin : 0 ≤ d.posicaoEDL ∧ d.posicaoEDL < (edl.getTamanho : Int)
    · obtain ⟨rg, hrg1, hrg2, _⟩ := buscarPorPosicao_dentro edl d.posicaoEDL hd hin.1 hin.2
      rw [if_pos (hg.2 hin), hrg2]
      simp only [hin, and_self, if_true, hrg1]
      cases hdel : rg.isDeletado
      · simp [hr, EDL.inserirRegistro]
      · simp [hr]
    · rw [if_neg (fun h => hin (hg.1 h))]
      simp [hin, hr]

theorem gerarEDLOrdenada_eq (edl : EDL) (ht : edl.tamanhoRepresentavel) (abb : ABB)
    (hp : ∀ e ∈ abb.emOrdem, ehInt32 e.posicaoEDL) :
    gerarEDLOrdenada abb edl = Except.ok ⟨edlOrdenadaReferencia abb edl⟩ := by
  have := popularEDLOrdenada_eq edl ht abb.raiz hp EDL.vazia
  simpa [gerarEDLOrdenada, EDL.vazia] using this

theorem cpf_referencia_sublista (edl : EDL) (es : List EntradaIndice)
    (hcons : ∀ e ∈ es, 0 ≤ e.posicaoEDL → ∀ r, edl.dados[e.posicaoEDL.toNat]? = some r →
      r.isDeletado = false → r.getCpf = e.chave) :
    List.Sublist
      ((es.filterMap (fun e =>
        if 0 ≤ e.posicaoEDL ∧ e.posicaoEDL < (edl.getTamanho : Int) then
          match edl.dados[e.posicaoEDL.toNat]? with
          | some r => if r.isDeletado then none else some r
          | none => none
        else none)).map Registro.getCpf)
      (es.map EntradaIndice.chave) := by
  induction es with
  | nil => simp
  | cons e es ih =>
    have ih2 := ih (fun x hx => hcons x (List.mem_cons_of_mem _ hx))
    have he := hcons e (List.mem_cons_self _ _)
    by_cases hin : 0 ≤ e.posicaoEDL ∧ e.posicaoEDL < (edl.getTamanho : Int)
    · cases hget : edl.dados[e.posicaoEDL.toNat]? with
      | none =>
        simp only [List.filterMap_cons, hin, and_self, if_true, hget, List.map_cons]
        exact ih2.cons _
      | some r =>
        cases hdel : r.isDeletado
        · simp only [List.filterMap_cons, hin, and_self, if_true, hget, hdel,
            Bool.false_eq_true, if_false, List.map_cons]
          rw [he hin.1 r hget hdel]
          exact ih2.cons₂ _
        · simp only [List.filterMap_cons, hin, and_self, if_true, hget, hdel, List.map_cons]
          exact ih2.cons _
    · simp only [List.filterMap_cons, hin, if_false, List.map_cons]
      exact ih2.cons _

theorem inserirRegistro_retorno (s : EDL) (r : Registro) :
    (s.inserirRegistro r).2 = toInt32 s.getTamanho ∧
      (s.inserirRegistro r).1 = ⟨s.dados ++ [r]⟩ := by
  simp [EDL.inserirRegistro, EDL.getTamanho]

theorem getTamanho_replicate (n : Nat) (r : Registro) :
    EDL.getTamanho ⟨List.replicate n r⟩ = n := by
  simp [EDL.getTamanho]

theorem buscarPorPosicao_negativo (s : EDL) (i : Int) (h : i < 0) :
    ∃ w, s.buscarPorPosicao i = Except.error (Excecao.out_of_range w) := by
  have hf : s.foraDosLimites i := Or.inl h
  exact ⟨_, by rw [EDL.buscarPorPosicao, dif_pos hf]⟩

/-! ## The claims on the index tree -/

/-- Claim C1: after the entries of a list with pairwise distinct keys were inserted
with `ABB::inserir` into the empty tree, `ABB::buscarPosicao` of the key of any entry
of the list returns the position of that entry. -/
theorem buscarPosicao_apos_insercoes_distintas (entradas : List EntradaIndice)
    (hdist : (entradas.map EntradaIndice.chave).Nodup) (e : EntradaIndice)
    (he : e ∈ entradas) :
    (inserirTodos ABB.vazia entradas).buscarPosicao e.chave = e.posicaoEDL :=
  buscarPosicaoLaco_presente _ (ehABB_inserirTodos entradas ABB.vazia trivial) e
    (mem_inserirTodos_distintas entradas ABB.vazia hdist (fun _ _ h => by simp [ABB.vazia, chaves_nulo] at h)
      e he)

theorem buscarPosicao_apos_insercoes_distintas_witness :
    ([⟨['A'], 0⟩, ⟨['C'], 1⟩, ⟨['B'], 2⟩].map EntradaIndice.chave).Nodup ∧
      (inserirTodos ABB.vazia [⟨['A'], 0⟩, ⟨['C'], 1⟩, ⟨['B'], 2⟩]).buscarPosicao ['B'] = 2 :=
  ⟨by decide,
    buscarPosicao_apos_insercoes_distintas [⟨['A'], 0⟩, ⟨['C'], 1⟩, ⟨['B'], 2⟩] (by decide)
      ⟨['B'], 2⟩ (by decide)⟩

/-- Claim C2: every tree reached from the empty tree by a finite sequence of
`ABB::inserir` and `ABB::remover` calls exists (no call fails) and satisfies the
search-tree invariant; the invariant of a tree is the same as its in-order keys being
strictly ascending, so the in-order walk of the reached tree is strictly ascending. -/
theorem invariante_ABB_preservado (ops : List Operacao) :
    (∃ t, executar ABB.vazia ops = some t ∧ ehABB t.raiz ∧
        estritamenteCrescente (t.emOrdem.map EntradaIndice.chave)) ∧
      ∀ n : NoABB, ehABB n ↔ estritamenteCrescente (chaves n) := by
  refine ⟨?_, ehABB_iff_crescente⟩
  obtain ⟨t, h1, h2⟩ := executar_ehABB ops ABB.vazia trivial
  exact ⟨t, h1, h2, (ehABB_iff_crescente _).1 h2⟩

/-- Claim C3: on a tree with the search-tree invariant, `ABB::remover` of any key
succeeds and afterwards `ABB::buscarPosicao` of that key returns `-1`. -/
theorem buscarPosicao_apos_remover (t : ABB) (h : ehABB t.raiz) (k : StdString) :
    ∃ r, t.remover k = some r ∧ r.1.buscarPosicao k = -1 := by
  obtain ⟨r, hr, hr2⟩ := emOrdem_removerRecursivo t.raiz h k
  refine ⟨(⟨r.1⟩, r.2), by simp [ABB.remover, hr], ?_⟩
  apply buscarPosicaoLaco_ausente
  simp only [chaves, hr2, List.mem_map, List.mem_filter, not_exists, not_and]
  intro x hx hk
  simp [hk] at hx

theorem buscarPosicao_apos_remover_witness :
    ehABB (inserirTodos ABB.vazia [⟨['B'], 0⟩, ⟨['A'], 1⟩, ⟨['D'], 2⟩, ⟨['C'], 3⟩]).raiz ∧
      ∃ r, (inserirTodos ABB.vazia [⟨['B'], 0⟩, ⟨['A'], 1⟩, ⟨['D'], 2⟩, ⟨['C'], 3⟩]).remover
          ['B'] = some r ∧ r.1.buscarPosicao ['B'] = -1 :=
  ⟨by decide, buscarPosicao_apos_remover _ (by decide) ['B']⟩

/-- Claim C4: on a tree with the search-tree invariant, `ABB::inserir` of an entry
whose key is already in the tree returns the same tree, and `ABB::buscarPosicao` of
that key still returns the position of the entry that was stored. -/
theorem inserir_chave_duplicada (t : ABB) (h : ehABB t.raiz) (e : EntradaIndice)
    (he : e.chave ∈ chaves t.raiz) :
    (t.inserir e).1 = t ∧
      ∀ o ∈ t.emOrdem, o.chave = e.chave →
        (t.inserir e).1.buscarPosicao e.chave = o.posicaoEDL := by
  have h1 : (t.inserir e).1 = t := by
    simp [ABB.inserir, inserirRecursivo_presente t.raiz h e he]
  refine ⟨h1, ?_⟩
  intro o ho hk
  rw [h1, ← hk]
  exact buscarPosicaoLaco_presente t.raiz h o ho

theorem inserir_chave_duplicada_witness :
    ehABB (inserirTodos ABB.vazia [⟨['A'], 0⟩, ⟨['C'], 1⟩, ⟨['B'], 2⟩]).raiz ∧
      ((inserirTodos ABB.vazia [⟨['A'], 0⟩, ⟨['C'], 1⟩, ⟨['B'], 2⟩]).inserir ⟨['C'], 9⟩).1 =
        inserirTodos ABB.vazia [⟨['A'], 0⟩, ⟨['C'], 1⟩, ⟨['B'], 2⟩] :=
  ⟨by decide,
    (inserir_chave_duplicada (inserirTodos ABB.vazia [⟨['A'], 0⟩, ⟨['C'], 1⟩, ⟨['B'], 2⟩])
      (by decide) ⟨['C'], 9⟩ (by decide)).1⟩

/-- Claim C5: `ABB::remover` of a key that is not in the tree returns the same tree
(and writes the not-found line once); on the empty tree the result is the empty tree.
The invariant is not needed for this. -/
theorem remover_chave_ausente (t : ABB) (k : StdString) (hk : k ∉ chaves t.raiz) :
    t.remover k = some (t, [Mensagem.chaveNaoEncontrada k]) ∧
      ABB.vazia.remover k = some (ABB.vazia, [Mensagem.chaveNaoEncontrada k]) := by
  constructor
  · simp [ABB.remover, removerRecursivo_ausente t.raiz k hk]
  · rfl

theorem remover_chave_ausente_witness :
    ['Z'] ∉ chaves (inserirTodos ABB.vazia [⟨['A'], 0⟩, ⟨['C'], 1⟩, ⟨['B'], 2⟩]).raiz ∧
      (inserirTodos ABB.vazia [⟨['A'], 0⟩, ⟨['C'], 1⟩, ⟨['B'], 2⟩]).remover ['Z'] =
        some (inserirTodos ABB.vazia [⟨['A'], 0⟩, ⟨['C'], 1⟩, ⟨['B'], 2⟩],
          [Mensagem.chaveNaoEncontrada ['Z']]) :=
  ⟨by decide,
    (remover_chave_ausente (inserirTodos ABB.vazia [⟨['A'], 0⟩, ⟨['C'], 1⟩, ⟨['B'], 2⟩]) ['Z']
      (by decide)).1⟩

/-! ## The claims on the rebuilt store and the record store -/

/-- Claim C6: for every tree whose positions are values of `int` and every store a
vector can hold, `gerarEDLOrdenada` succeeds and the records of the new store are
those of the reference: the in-order entries whose position `p` has `0 <= p < size`
and whose record `store[p]` is not flagged deleted, each replaced by `store[p]`. -/
theorem gerarEDLOrdenada_eq_referencia (abbIndices : ABB) (edlOriginal : EDL)
    (hp : ∀ e ∈ abbIndices.emOrdem, ehInt32 e.posicaoEDL)
    (ht : edlOriginal.tamanhoRepresentavel) :
    gerarEDLOrdenada abbIndices edlOriginal =
      Except.ok ⟨edlOrdenadaReferencia abbIndices edlOriginal⟩ :=
  gerarEDLOrdenada_eq edlOriginal ht abbIndices hp

theorem gerarEDLOrdenada_eq_referencia_witness :
    gerarEDLOrdenada (inserirTodos ABB.vazia [⟨['B'], 1⟩, ⟨['A'], 0⟩, ⟨['C'], 7⟩, ⟨['D'], -1⟩])
        ⟨[Registro.completo ['A'] ['a'] [] 'F',
          (Registro.completo ['B'] ['b'] [] 'M').marcarComoDeletado]⟩ =
      Except.ok ⟨[Registro.completo ['A'] ['a'] [] 'F']⟩ :=
  gerarEDLOrdenada_eq_referencia
    (inserirTodos ABB.vazia [⟨['B'], 1⟩, ⟨['A'], 0⟩, ⟨['C'], 7⟩, ⟨['D'], -1⟩])
    ⟨[Registro.completo ['A'] ['a'] [] 'F',
      (Registro.completo ['B'] ['b'] [] 'M').marcarComoDeletado]⟩
    (by decide) (by decide)

/-- Claim C7, as stated, fails: the tree built by inserting `(A, 0)` and `(B, 1)`
and the store whose record 0 was restored with the key `Z` give the output `Z, B`,
which is not ascending in the record key. -/
theorem gerarEDLOrdenada_nao_ordenada_por_cpf :
    executar ABB.vazia [Operacao.inserir ⟨['A'], 0⟩, Operacao.inserir ⟨['B'], 1⟩] =
        some (inserirTodos ABB.vazia [⟨['A'], 0⟩, ⟨['B'], 1⟩]) ∧
      gerarEDLOrdenada (inserirTodos ABB.vazia [⟨['A'], 0⟩, ⟨['B'], 1⟩])
          ⟨[(Registro.completo ['A'] ['a'] [] 'F').restaurarRegistro ['Z'] ['z'] [] 'F',
            Registro.completo ['B'] ['b'] [] 'M']⟩ =
        Except.ok ⟨[Registro.completo ['Z'] ['z'] [] 'F', Registro.completo ['B'] ['b'] [] 'M']⟩ ∧
      ¬ estritamenteCrescente
        ([Registro.completo ['Z'] ['z'] [] 'F', Registro.completo ['B'] ['b'] [] 'M'].map
          Registro.getCpf) :=
  ⟨rfl, rfl, by decide⟩

/-- Claim C7, amended: for a tree built by `inserir` and `remover` calls and a store
in which every record that is referenced by an entry `(k, p)` and not flagged deleted
has the record key `k`, `gerarEDLOrdenada` succeeds and the records of the new store
are in strictly ascending order of `Registro::getCpf`. -/
theorem gerarEDLOrdenada_ordenada_por_cpf (ops : List Operacao) (abbIndices : ABB)
    (hexec : executar ABB.vazia ops = some abbIndices) (edlOriginal : EDL)
    (hp : ∀ e ∈ abbIndices.emOrdem, ehInt32 e.posicaoEDL)
    (ht : edlOriginal.tamanhoRepresentavel)
    (hcons : ∀ e ∈ abbIndices.emOrdem, 0 ≤ e.posicaoEDL →
      ∀ r, edlOriginal.dados[e.posicaoEDL.toNat]? = some r →
        r.isDeletado = false → r.getCpf = e.chave) :
    ∃ nova, gerarEDLOrdenada abbIndices edlOriginal = Except.ok nova ∧
      estritamenteCrescente (nova.dados.map Registro.getCpf) := by
  refine ⟨_, gerarEDLOrdenada_eq edlOriginal ht abbIndices hp, ?_⟩
  obtain ⟨t, h1, h2⟩ := executar_ehABB ops ABB.vazia trivial
  rw [hexec] at h1
  cases h1
  have hs := (ehABB_iff_crescente _).1 h2
  exact List.Pairwise.sublist (cpf_referencia_sublista edlOriginal _ hcons) hs

theorem gerarEDLOrdenada_ordenada_por_cpf_witness :
    ∃ nova, gerarEDLOrdenada (inserirTodos ABB.vazia [⟨['B'], 1⟩, ⟨['A'], 0⟩])
        ⟨[Registro.completo ['A'] ['a'] [] 'F', Registro.completo ['B'] ['b'] [] 'M']⟩ =
          Except.ok nova ∧
      estritamenteCrescente (nova.dados.map Registro.getCpf) :=
  gerarEDLOrdenada_ordenada_por_cpf
    [Operacao.inserir ⟨['B'], 1⟩, Operacao.inserir ⟨['A'], 0⟩]
    (inserirTodos ABB.vazia [⟨['B'], 1⟩, ⟨['A'], 0⟩]) rfl
    ⟨[Registro.completo ['A'] ['a'] [] 'F', Registro.completo ['B'] ['b'] [] 'M']⟩
    (by decide) (by decide) (by decide)

/-- Claim C8: for a store of fewer than `2^31` records and a tree whose positions are
values of `int`, the guard of `gerarEDLOrdenada` holds for a 32-bit position exactly
when `0 <= pos < size`; when it holds `EDL::buscarPorPosicao` succeeds; and
`gerarEDLOrdenada` ends without an exception. -/
theorem gerarEDLOrdenada_sem_out_of_range (abbIndices : ABB) (edlOriginal : EDL)
    (hs : edlOriginal.getTamanho < 2 ^ 31)
    (hp : ∀ e ∈ abbIndices.emOrdem, ehInt32 e.posicaoEDL) (pos : Int) (hpos : ehInt32 pos) :
    (guardaPosicao pos edlOriginal.getTamanho = true ↔
        0 ≤ pos ∧ pos < (edlOriginal.getTamanho : Int)) ∧
      (guardaPosicao pos edlOriginal.getTamanho = true →
        ∃ r, edlOriginal.buscarPorPosicao pos = Except.ok r) ∧
      ∃ nova, gerarEDLOrdenada abbIndices edlOriginal = Except.ok nova := by
  have ht : edlOriginal.tamanhoRepresentavel := by
    unfold EDL.tamanhoRepresentavel; omega
  have hg := guardaPosicao_iff pos edlOriginal.getTamanho hpos ht
  refine ⟨hg, ?_, _, gerarEDLOrdenada_eq edlOriginal ht abbIndices hp⟩
  intro h
  obtain ⟨r, _, hr, _⟩ := buscarPorPosicao_dentro edlOriginal pos hpos (hg.1 h).1 (hg.1 h).2
  exact ⟨r, hr⟩

theorem gerarEDLOrdenada_sem_out_of_range_witness :
    (guardaPosicao (-2) (EDL.getTamanho ⟨[Registro.completo ['A'] ['a'] [] 'F']⟩) = true ↔
        (0 : Int) ≤ -2 ∧
          (-2 : Int) < ((EDL.getTamanho ⟨[Registro.completo ['A'] ['a'] [] 'F']⟩ : Nat) : Int)) ∧
      (guardaPosicao (-2) (EDL.getTamanho ⟨[Registro.completo ['A'] ['a'] [] 'F']⟩) = true →
        ∃ r, EDL.buscarPorPosicao ⟨[Registro.completo ['A'] ['a'] [] 'F']⟩ (-2) = Except.ok r) ∧
      ∃ nova, gerarEDLOrdenada
        (inserirTodos ABB.vazia [⟨['B'], -2⟩, ⟨['A'], 0⟩, ⟨['C'], 1⟩, ⟨['D'], -1⟩])
        ⟨[Registro.completo ['A'] ['a'] [] 'F']⟩ = Except.ok nova :=
  gerarEDLOrdenada_sem_out_of_range
    (inserirTodos ABB.vazia [⟨['B'], -2⟩, ⟨['A'], 0⟩, ⟨['C'], 1⟩, ⟨['D'], -1⟩])
    ⟨[Registro.completo ['A'] ['a'] [] 'F']⟩ (by decide) (by decide) (-2) (by decide)

/-- Claim C9: for every store and every `int` position `i`, `EDL::buscarPorPosicao`
and `EDL::buscarPorPosicaoParaModificacao` throw `out_of_range` exactly when `i < 0`
or `i >= getTamanho()`, and otherwise both return the record stored at position `i`. -/
theorem buscarPorPosicao_limites (s : EDL) (i : Int) (hi : ehInt32 i) :
    ((∃ w, s.buscarPorPosicao i = Except.error (Excecao.out_of_range w)) ↔
        i < 0 ∨ (s.getTamanho : Int) ≤ i) ∧
      ((∃ w, s.buscarPorPosicaoParaModificacao i = Except.error (Excecao.out_of_range w)) ↔
        i < 0 ∨ (s.getTamanho : Int) ≤ i) ∧
      (0 ≤ i ∧ i < (s.getTamanho : Int) →
        ∃ r, s.dados[i.toNat]? = some r ∧ s.buscarPorPosicao i = Except.ok r ∧
          s.buscarPorPosicaoParaModificacao i = Except.ok r) := by
  have hf := foraDosLimites_iff s i hi
  refine ⟨?_, ?_, fun h => buscarPorPosicao_dentro s i hi h.1 h.2⟩
  · rw [← hf]
    by_cases h : s.foraDosLimites i
    · simp [EDL.buscarPorPosicao, h]
    · simp [EDL.buscarPorPosicao, h]
  · rw [← hf]
    by_cases h : s.foraDosLimites i
    · simp [EDL.buscarPorPosicaoParaModificacao, h]
    · simp [EDL.buscarPorPosicaoParaModificacao, h]

theorem buscarPorPosicao_limites_witness :
    ((∃ w, EDL.buscarPorPosicao ⟨[Registro.completo ['A'] ['a'] [] 'F']⟩ 1 =
          Except.error (Excecao.out_of_range w)) ↔
        (1 : Int) < 0 ∨
          ((EDL.getTamanho ⟨[Registro.completo ['A'] ['a'] [] 'F']⟩ : Nat) : Int) ≤ 1) ∧
      ((∃ w, EDL.buscarPorPosicaoParaModificacao ⟨[Registro.completo ['A'] ['a'] [] 'F']⟩ 1 =
          Except.error (Excecao.out_of_range w)) ↔
        (1 : Int) < 0 ∨
          ((EDL.getTamanho ⟨[Registro.completo ['A'] ['a'] [] 'F']⟩ : Nat) : Int) ≤ 1) ∧
      ((0 : Int) ≤ 1 ∧
          (1 : Int) < ((EDL.getTamanho ⟨[Registro.completo ['A'] ['a'] [] 'F']⟩ : Nat) : Int) →
        ∃ r, (EDL.mk [Registro.completo ['A'] ['a'] [] 'F']).dados[(1 : Int).toNat]? = some r ∧
          EDL.buscarPorPosicao ⟨[Registro.completo ['A'] ['a'] [] 'F']⟩ 1 = Except.ok r ∧
          EDL.buscarPorPosicaoParaModificacao ⟨[Registro.completo ['A'] ['a'] [] 'F']⟩ 1 =
            Except.ok r) :=
  buscarPorPosicao_limites ⟨[Registro.completo ['A'] ['a'] [] 'F']⟩ 1 (by decide)

/-- Claim C10, as stated, fails: on a store of `2^31` records `EDL::inserirRegistro`
returns `-2^31`, which is not the size before the call, and `EDL::buscarPorPosicao`
of the returned position throws. -/
theorem inserirRegistro_posicao_truncada :
    (EDL.inserirRegistro ⟨List.replicate (2 ^ 31) Registro.padrao⟩
        (Registro.completo ['A'] ['a'] [] 'F')).2 = -2 ^ 31 ∧
      ((EDL.getTamanho ⟨List.replicate (2 ^ 31) Registro.padrao⟩ : Nat) : Int) = 2 ^ 31 ∧
      ∃ w, (EDL.inserirRegistro ⟨List.replicate (2 ^ 31) Registro.padrao⟩
          (Registro.completo ['A'] ['a'] [] 'F')).1.buscarPorPosicao
        (EDL.inserirRegistro ⟨List.replicate (2 ^ 31) Registro.padrao⟩
          (Registro.completo ['A'] ['a'] [] 'F')).2 = Except.error (Excecao.out_of_range w) := by
  have h1 : (EDL.inserirRegistro ⟨List.replicate (2 ^ 31) Registro.padrao⟩
      (Registro.completo ['A'] ['a'] [] 'F')).2 = -2 ^ 31 := by
    rw [(inserirRegistro_retorno _ _).1, getTamanho_replicate]
    decide
  refine ⟨h1, ?_, ?_⟩
  · rw [getTamanho_replicate]
    norm_num
  · rw [h1]
    exact buscarPorPosicao_negativo _ _ (by decide)

/-- Claim C10, amended: for every store of fewer than `2^31` records and every record
`r`, `EDL::inserirRegistro(r)` returns the size before the call, the size afterwards is
one more, and `EDL::buscarPorPosicao` of the returned position succeeds with `r`. -/
theorem inserirRegistro_ida_e_volta (s : EDL) (r : Registro) (hs : s.getTamanho < 2 ^ 31) :
    (s.inserirRegistro r).2 = (s.getTamanho : Int) ∧
      (s.inserirRegistro r).1.getTamanho = s.getTamanho + 1 ∧
      (s.inserirRegistro r).1.buscarPorPosicao (s.inserirRegistro r).2 = Except.ok r := by
  have h1 : (s.inserirRegistro r).2 = (s.getTamanho : Int) := by
    simp only [EDL.inserirRegistro, List.length_append, List.length_singleton,
      Nat.add_sub_cancel, toInt32]
    unfold EDL.getTamanho at hs ⊢
    split_ifs <;> omega
  have h2 : (s.inserirRegistro r).1.getTamanho = s.getTamanho + 1 := by
    simp [EDL.inserirRegistro, EDL.getTamanho]
  refine ⟨h1, h2, ?_⟩
  rw [h1]
  have hi : ehInt32 (s.getTamanho : Int) := by
    unfold ehInt32; constructor <;> omega
  obtain ⟨x, hx1, hx2, _⟩ := buscarPorPosicao_dentro (s.inserirRegistro r).1 s.getTamanho hi
    (by omega) (by rw [h2]; omega)
  rw [hx2]
  simp only [EDL.inserirRegistro, Int.toNat_ofNat, EDL.getTamanho] at hx1
  rw [List.getElem?_append_right (le_refl _)] at hx1
  simp at hx1
  rw [hx1]

theorem inserirRegistro_ida_e_volta_witness :
    ((EDL.mk [Registro.padrao]).inserirRegistro (Registro.completo ['A'] ['a'] [] 'F')).2 =
        (((EDL.mk [Registro.padrao]).getTamanho : Nat) : Int) ∧
      ((EDL.mk [Registro.padrao]).inserirRegistro
          (Registro.completo ['A'] ['a'] [] 'F')).1.getTamanho =
        (EDL.mk [Registro.padrao]).getTamanho + 1 ∧
      ((EDL.mk [Registro.padrao]).inserirRegistro
          (Registro.completo ['A'] ['a'] [] 'F')).1.buscarPorPosicao
        ((EDL.mk [Registro.padrao]).inserirRegistro (Registro.completo ['A'] ['a'] [] 'F')).2 =
        Except.ok (Registro.completo ['A'] ['a'] [] 'F') :=
  inserirRegistro_ida_e_volta (EDL.mk [Registro.padrao]) (Registro.completo ['A'] ['a'] [] 'F')
    (by decide)

/-! ## Calls on the record store and on a record -/

theorem getTamanho_modificar (s s2 : EDL) (i : Int) (op : OperacaoRegistro)
    (h : s.modificar i op = Except.ok s2) : s2.getTamanho = s.getTamanho := by
  unfold EDL.modificar at h
  split at h
  · cases h
  · cases h
    simp [EDL.getTamanho]

theorem getTamanho_le_executar (ops : List OperacaoEDL) (s : EDL) :
    s.getTamanho ≤ (s.executar ops).1.getTamanho := by
  induction ops generalizing s with
  | nil => exact le_refl _
  | cons op ops ih =>
    cases op with
    | inserirRegistro r =>
      simp only [EDL.executar]
      refine le_trans ?_ (ih _)
      simp [EDL.inserirRegistro, EDL.getTamanho]
    | modificar i o =>
      simp only [EDL.executar]
      cases hm : s.modificar i o with
      | error ex => exact le_refl _
      | ok s2 =>
        simp only
        rw [← getTamanho_modificar s s2 i o hm]
        exact ih _

theorem invarianteDeletado_executar (ops : List OperacaoRegistro) (r : Registro)
    (h : r.isDeletado = true → r.camposLimpos) :
    (r.executar ops).isDeletado = true → (r.executar ops).camposLimpos := by
  induction ops generalizing r with
  | nil => exact h
  | cons op ops ih =>
    simp only [Registro.executar, List.foldl_cons]
    apply ih
    cases op with
    | marcarComoDeletado =>
      intro _
      simp [Registro.aplicar, Registro.marcarComoDeletado, Registro.camposLimpos]
    | restaurarRegistro c n d x =>
      intro hd
      simp [Registro.aplicar, Registro.restaurarRegistro, Registro.isDeletado] at hd

/-- Claim C11: `EDL::inserirRegistro` leaves the record at every position below the
old size as it was (in the vector, and as seen through `EDL::buscarPorPosicao` for a
position that is an `int`), and over every sequence of `inserirRegistro` calls and
of in-place changes through `EDL::buscarPorPosicaoParaModificacao` the size at the
end is at least the size at the start. -/
theorem edl_somente_acrescenta (s : EDL) (r : Registro) (n : Nat) (hn : n < s.getTamanho)
    (ops : List OperacaoEDL) :
    (s.inserirRegistro r).1.dados[n]? = s.dados[n]? ∧
      (ehInt32 (n : Int) →
        (s.inserirRegistro r).1.buscarPorPosicao (n : Int) = s.buscarPorPosicao (n : Int) ∧
          ∃ x, s.dados[n]? = some x ∧ s.buscarPorPosicao (n : Int) = Except.ok x) ∧
      s.getTamanho ≤ (s.executar ops).1.getTamanho := by
  have h1 : (s.inserirRegistro r).1.dados[n]? = s.dados[n]? := by
    simp only [EDL.inserirRegistro]
    exact List.getElem?_append_left hn
  refine ⟨h1, ?_, getTamanho_le_executar ops s⟩
  intro hi
  have hsz : (s.inserirRegistro r).1.getTamanho = s.getTamanho + 1 := by
    simp [EDL.inserirRegistro, EDL.getTamanho]
  obtain ⟨x, hx1, hx2, _⟩ := buscarPorPosicao_dentro s n hi (by omega) (by omega)
  obtain ⟨y, hy1, hy2, _⟩ := buscarPorPosicao_dentro (s.inserirRegistro r).1 n hi (by omega)
    (by rw [hsz]; omega)
  simp only [Int.toNat_ofNat] at hx1 hy1
  rw [h1, hx1] at hy1
  cases hy1
  exact ⟨by rw [hx2, hy2], x, hx1, hx2⟩

theorem edl_somente_acrescenta_witness :
    (EDL.inserirRegistro ⟨[Registro.completo ['A'] ['a'] [] 'F']⟩ Registro.padrao).1.dados[0]? =
        (EDL.mk [Registro.completo ['A'] ['a'] [] 'F']).dados[0]? ∧
      (ehInt32 ((0 : Nat) : Int) →
        (EDL.inserirRegistro ⟨[Registro.completo ['A'] ['a'] [] 'F']⟩
            Registro.padrao).1.buscarPorPosicao ((0 : Nat) : Int) =
          EDL.buscarPorPosicao ⟨[Registro.completo ['A'] ['a'] [] 'F']⟩ ((0 : Nat) : Int) ∧
          ∃ x, (EDL.mk [Registro.completo ['A'] ['a'] [] 'F']).dados[0]? = some x ∧
            EDL.buscarPorPosicao ⟨[Registro.completo ['A'] ['a'] [] 'F']⟩ ((0 : Nat) : Int) =
              Except.ok x) ∧
      EDL.getTamanho ⟨[Registro.completo ['A'] ['a'] [] 'F']⟩ ≤
        (EDL.executar ⟨[Registro.completo ['A'] ['a'] [] 'F']⟩
          [OperacaoEDL.modificar 0 OperacaoRegistro.marcarComoDeletado,
            OperacaoEDL.inserirRegistro Registro.padrao,
            OperacaoEDL.modificar 7 OperacaoRegistro.marcarComoDeletado]).1.getTamanho :=
  edl_somente_acrescenta ⟨[Registro.completo ['A'] ['a'] [] 'F']⟩ Registro.padrao 0
    (by decide)
    [OperacaoEDL.modificar 0 OperacaoRegistro.marcarComoDeletado,
      OperacaoEDL.inserirRegistro Registro.padrao,
      OperacaoEDL.modificar 7 OperacaoRegistro.marcarComoDeletado]

/-- Claim C12: a record built by either constructor and changed by any sequence of
`marcarComoDeletado` and `restaurarRegistro` calls that reports `isDeletado()` has an
empty `nome`, an empty `dataNascimento` and the blank `sexo`; and
`marcarComoDeletado` sets the flag and keeps `cpf`. -/
theorem registro_deletado_tem_campos_limpos (ops : List OperacaoRegistro)
    (cpf nome dataNascimento : StdString) (sexo : Char) (r : Registro) :
    ((Registro.padrao.executar ops).isDeletado = true →
        (Registro.padrao.executar ops).camposLimpos) ∧
      (((Registro.completo cpf nome dataNascimento sexo).executar ops).isDeletado = true →
        ((Registro.completo cpf nome dataNascimento sexo).executar ops).camposLimpos) ∧
      r.marcarComoDeletado.isDeletado = true ∧ r.marcarComoDeletado.getCpf = r.getCpf := by
  refine ⟨invarianteDeletado_executar ops _ (fun _ => ?_),
    invarianteDeletado_executar ops _ (fun h => ?_), rfl, rfl⟩
  · simp [Registro.padrao, Registro.camposLimpos]
  · simp [Registro.completo, Registro.isDeletado] at h

/-- Claim C13: after `restaurarRegistro(cpf, nome, data, sexo)` a record in any state
is the record the full constructor builds from the same arguments, and it does not
report `isDeletado()`. -/
theorem restaurarRegistro_eq_construtor (r : Registro) (cpf nome dataNascimento : StdString)
    (sexo : Char) :
    r.restaurarRegistro cpf nome dataNascimento sexo =
        Registro.completo cpf nome dataNascimento sexo ∧
      (r.restaurarRegistro cpf nome dataNascimento sexo).isDeletado = false :=
  ⟨rfl, rfl⟩

/-! ## Text written by insertion and removal -/

theorem inserirRecursivo_ausente_mensagens (t : NoABB) (e : EntradaIndice)
    (h : e.chave ∉ chaves t) : (inserirRecursivo t e).2 = [] := by
  induction t with
  | nulo => rfl
  | no l d r ihl ihr =>
    simp only [chaves_no, List.mem_append, List.mem_cons, not_or] at h
    obtain ⟨h1, h2, h3⟩ := h
    simp only [inserirRecursivo, EntradaIndice.lt, EntradaIndice.gt, decide_eq_true_eq]
    split_ifs with a b
    · exact ihl h1
    · exact ihr h3
    · rcases lt_trichotomy e.chave d.chave with h | h | h
      · exact absurd h a
      · exact absurd h h2
      · exact absurd h b

theorem removerRecursivo_presente_mensagens (t : NoABB) (h : ehABB t) (k : StdString)
    (hk : k ∈ chaves t) : ∃ r, removerRecursivo t k = some r ∧ r.2 = [] := by
  induction t generalizing k with
  | nulo => simp [chaves_nulo] at hk
  | no l d r ihl ihr =>
    obtain ⟨h1, h2, h3, h4⟩ := h
    simp only [chaves_no, List.mem_append, List.mem_cons] at hk
    simp only [removerRecursivo, EntradaIndice.getChave]
    split_ifs with a b c e
    · have hkl : k ∈ chaves l := by
        rcases hk with hk | hk | hk
        · exact hk
        · exact absurd a (by rw [hk]; exact lt_irrefl _)
        · exact absurd a (lt_asymm (h2 k hk))
      obtain ⟨x, hx, hx2⟩ := ihl h3 k hkl
      exact ⟨(no x.1 d r, x.2), by rw [hx], hx2⟩
    · have hkr : k ∈ chaves r := by
        rcases hk with hk | hk | hk
        · exact absurd b (lt_asymm (h1 k hk))
        · exact absurd b (by rw [hk]; exact lt_irrefl _)
        · exact hk
      obtain ⟨x, hx, hx2⟩ := ihr h4 k hkr
      exact ⟨(no l d x.1, x.2), by rw [hx], hx2⟩
    · exact ⟨_, rfl, rfl⟩
    · exact ⟨_, rfl, rfl⟩
    · obtain ⟨m, x, rest, hm1, hm2⟩ := encontrarMin_naoNulo r (by simpa using e)
      have hm : m.chave ∈ chaves r := by
        simp [chaves, hm2]
      obtain ⟨y, hy, hy2⟩ := ihr h4 m.chave hm
      exact ⟨(no l m y.1, y.2), by simp [hm1, dado?, EntradaIndice.getChave, hy], hy2⟩

/-! ## The claims on the entry order and on the text written -/

/-- Claim C14: the comparison operators of `EntradaIndice` look at the key only and
form a strict total order: exactly one of `a < b`, `a == b`, `a > b` holds; `a == b`
holds exactly when the keys are equal; `!=`, `<=`, `>=` are the negations of `==`,
`>`, `<`; and `<` is transitive. -/
theorem entradaIndice_ordem_total (a b c : EntradaIndice) (p q : Int) :
    ((a.lt b = true ∧ a.eq b = false ∧ a.gt b = false) ∨
        (a.lt b = false ∧ a.eq b = true ∧ a.gt b = false) ∨
        (a.lt b = false ∧ a.eq b = false ∧ a.gt b = true)) ∧
      (a.eq b = true ↔ a.chave = b.chave) ∧
      (EntradaIndice.eq ⟨a.chave, p⟩ ⟨a.chave, q⟩ = true) ∧
      (EntradaIndice.lt ⟨a.chave, p⟩ ⟨b.chave, q⟩ = a.lt b) ∧
      (EntradaIndice.gt ⟨a.chave, p⟩ ⟨b.chave, q⟩ = a.gt b) ∧
      (a.ne b = !a.eq b) ∧ (a.le b = !a.gt b) ∧ (a.ge b = !a.lt b) ∧
      (a.lt b = true → b.lt c = true → a.lt c = true) := by
  refine ⟨?_, ?_, ?_, rfl, rfl, ?_, ?_, ?_, ?_⟩
  · simp only [EntradaIndice.lt, EntradaIndice.eq, EntradaIndice.gt, decide_eq_true_eq,
      decide_eq_false_iff_not]
    rcases lt_trichotomy a.chave b.chave with h | h | h
    · exact Or.inl ⟨h, ne_of_lt h, lt_asymm h⟩
    · exact Or.inr (Or.inl ⟨by rw [h]; exact lt_irrefl _, h, by rw [h]; exact lt_irrefl _⟩)
    · exact Or.inr (Or.inr ⟨lt_asymm h, ne_of_gt h, h⟩)
  · simp [EntradaIndice.eq]
  · simp [EntradaIndice.eq]
  · simp [EntradaIndice.ne, EntradaIndice.eq]
  · by_cases h : a.chave > b.chave
    · simp [EntradaIndice.le, EntradaIndice.gt, h, not_le.2 h]
    · simp [EntradaIndice.le, EntradaIndice.gt, h, not_lt.1 h]
  · by_cases h : a.chave < b.chave
    · simp [EntradaIndice.ge, EntradaIndice.lt, h, not_le.2 h]
    · simp [EntradaIndice.ge, EntradaIndice.lt, h, not_lt.1 h]
  · simp only [EntradaIndice.lt, decide_eq_true_eq]
    exact fun h1 h2 => lt_trans h1 h2

/-- Claim C15: on a tree with the search-tree invariant `ABB::inserir` always
returns, and it writes the duplicate-key line exactly when the key of the entry is
already in the tree: once when it is, nothing at all when it is not. -/
theorem inserir_relata_duplicata (t : ABB) (h : ehABB t.raiz) (e : EntradaIndice) :
    (Mensagem.chaveJaExiste e.chave ∈ (t.inserir e).2 ↔ e.chave ∈ chaves t.raiz) ∧
      (e.chave ∈ chaves t.raiz → (t.inserir e).2 = [Mensagem.chaveJaExiste e.chave]) ∧
      (e.chave ∉ chaves t.raiz → (t.inserir e).2 = []) := by
  have h1 : e.chave ∈ chaves t.raiz → (t.inserir e).2 = [Mensagem.chaveJaExiste e.chave] := by
    intro he
    simp [ABB.inserir, inserirRecursivo_presente t.raiz h e he]
  have h2 : e.chave ∉ chaves t.raiz → (t.inserir e).2 = [] := by
    intro he
    simp [ABB.inserir, inserirRecursivo_ausente_mensagens t.raiz e he]
  refine ⟨?_, h1, h2⟩
  by_cases he : e.chave ∈ chaves t.raiz
  · simp [h1 he, he]
  · simp [h2 he, he]

theorem inserir_relata_duplicata_witness :
    (Mensagem.chaveJaExiste ['C'] ∈
          ((inserirTodos ABB.vazia [⟨['A'], 0⟩, ⟨['C'], 1⟩, ⟨['B'], 2⟩]).inserir ⟨['C'], 9⟩).2 ↔
        ['C'] ∈ chaves (inserirTodos ABB.vazia [⟨['A'], 0⟩, ⟨['C'], 1⟩, ⟨['B'], 2⟩]).raiz) ∧
      (['C'] ∈ chaves (inserirTodos ABB.vazia [⟨['A'], 0⟩, ⟨['C'], 1⟩, ⟨['B'], 2⟩]).raiz →
        ((inserirTodos ABB.vazia [⟨['A'], 0⟩, ⟨['C'], 1⟩, ⟨['B'], 2⟩]).inserir ⟨['C'], 9⟩).2 =
          [Mensagem.chaveJaExiste ['C']]) ∧
      (['C'] ∉ chaves (inserirTodos ABB.vazia [⟨['A'], 0⟩, ⟨['C'], 1⟩, ⟨['B'], 2⟩]).raiz →
        ((inserirTodos ABB.vazia [⟨['A'], 0⟩, ⟨['C'], 1⟩, ⟨['B'], 2⟩]).inserir ⟨['C'], 9⟩).2 =
          []) :=
  inserir_relata_duplicata (inserirTodos ABB.vazia [⟨['A'], 0⟩, ⟨['C'], 1⟩, ⟨['B'], 2⟩])
    (by decide) ⟨['C'], 9⟩

/-- Claim C16: on a tree with the search-tree invariant `ABB::remover` always
returns, and it writes the not-found line exactly when the key is not in the tree:
once when it is absent, and nothing at all when it is present, so the inner removal
of the in-order successor in the two-children case writes nothing. -/
theorem remover_relata_ausencia (t : ABB) (h : ehABB t.raiz) (k : StdString) :
    ∃ r, t.remover k = some r ∧
      ((∃ c, Mensagem.chaveNaoEncontrada c ∈ r.2) ↔ k ∉ chaves t.raiz) ∧
      (k ∉ chaves t.raiz → r.2 = [Mensagem.chaveNaoEncontrada k]) ∧
      (k ∈ chaves t.raiz → r.2 = []) := by
  by_cases hk : k ∈ chaves t.raiz
  · obtain ⟨x, hx, hx2⟩ := removerRecursivo_presente_mensagens t.raiz h k hk
    refine ⟨(⟨x.1⟩, x.2), by simp [ABB.remover, hx], ?_, ?_, ?_⟩
    · simp [hx2, hk]
    · intro hn; exact absurd hk hn
    · intro _; exact hx2
  · refine ⟨(t, [Mensagem.chaveNaoEncontrada k]),
      by simp [ABB.remover, removerRecursivo_ausente t.raiz k hk], ?_, ?_, ?_⟩
    · simp [hk]
    · intro _; rfl
    · intro hn; exact absurd hn hk

theorem remover_relata_ausencia_witness :
    ∃ r, (inserirTodos ABB.vazia [⟨['B'], 0⟩, ⟨['A'], 1⟩, ⟨['D'], 2⟩, ⟨['C'], 3⟩]).remover
        ['B'] = some r ∧
      ((∃ c, Mensagem.chaveNaoEncontrada c ∈ r.2) ↔
        ['B'] ∉ chaves (inserirTodos ABB.vazia
          [⟨['B'], 0⟩, ⟨['A'], 1⟩, ⟨['D'], 2⟩, ⟨['C'], 3⟩]).raiz) ∧
      (['B'] ∉ chaves (inserirTodos ABB.vazia
          [⟨['B'], 0⟩, ⟨['A'], 1⟩, ⟨['D'], 2⟩, ⟨['C'], 3⟩]).raiz →
        r.2 = [Mensagem.chaveNaoEncontrada ['B']]) ∧
      (['B'] ∈ chaves (inserirTodos ABB.vazia
          [⟨['B'], 0⟩, ⟨['A'], 1⟩, ⟨['D'], 2⟩, ⟨['C'], 3⟩]).raiz → r.2 = []) :=
  remover_relata_ausencia
    (inserirTodos ABB.vazia [⟨['B'], 0⟩, ⟨['A'], 1⟩, ⟨['D'], 2⟩, ⟨['C'], 3⟩]) (by decide) ['B']

/-! ## Removal of a node with two children -/

theorem semMinimo_spec (t : NoABB) (h : ehABB t) (hn : t.ehNulo = false) :
    ∃ m x, encontrarMin t = some (no nulo m x) ∧
      removerRecursivo t m.chave = some (semMinimo t, []) ∧
      removerRecursivo (no nulo m x) m.chave = some (x, []) ∧
      emOrdemRecursivo t = m :: emOrdemRecursivo (semMinimo t) ∧
      tamanho (semMinimo t) + 1 = tamanho t := by
  induction t with
  | nulo => simp [ehNulo] at hn
  | no l d r ihl _ =>
    obtain ⟨h1, h2, h3, h4⟩ := h
    cases hl : l.ehNulo
    · obtain ⟨m, x, hmin, hrem, hsp, hord, htam⟩ := ihl h3 hl
      have hm : m.chave < d.chave := by
        apply h1
        rw [mem_chaves_iff]
        exact ⟨m, by rw [hord]; exact List.mem_cons_self _ _, rfl⟩
      refine ⟨m, x, ?_, ?_, hsp, ?_, ?_⟩
      · simp [encontrarMin, hl, hmin]
      · simp [removerRecursivo, EntradaIndice.getChave, hm, hrem, semMinimo, hl]
      · simp [emOrdemRecursivo, semMinimo, hl, hord]
      · simp only [semMinimo, hl, Bool.false_eq_true, if_false, tamanho]
        omega
    · have hnil : l = nulo := by
        cases l with
        | nulo => rfl
        | no _ _ _ => simp [ehNulo] at hl
      subst hnil
      refine ⟨d, r, ?_, ?_, ?_, ?_, ?_⟩
      · simp [encontrarMin, ehNulo]
      · simp [removerRecursivo, EntradaIndice.getChave, ehNulo, semMinimo]
      · simp [removerRecursivo, EntradaIndice.getChave, ehNulo]
      · simp [emOrdemRecursivo, semMinimo, ehNulo]
      · simp [semMinimo, ehNulo, tamanho]

/-- Claim C21: for a node with the search-tree invariant, the key `k` and two
non-empty subtrees `L` and `R`, `removerRecursivo` returns the node with the entry of
the leftmost node `m` of `R` (the node `encontrarMin(R)` returns), the left subtree
`L` as it was and the right subtree `R` without the node `m`; `m` has no left child,
and removing its key from it takes the branch that returns its right child. -/
theorem remocao_com_dois_filhos (esq dir : NoABB) (dado : EntradaIndice)
    (h : ehABB (no esq dado dir)) (he : esq.ehNulo = false) (hd : dir.ehNulo = false) :
    ∃ m x, encontrarMin dir = some (no nulo m x) ∧
      removerRecursivo (no esq dado dir) dado.chave = some (no esq m (semMinimo dir), []) ∧
      removerRecursivo dir m.chave = some (semMinimo dir, []) ∧
      removerRecursivo (no nulo m x) m.chave = some (x, []) ∧
      emOrdemRecursivo dir = m :: emOrdemRecursivo (semMinimo dir) ∧
      tamanho (semMinimo dir) + 1 = tamanho dir := by
  obtain ⟨m, x, hmin, hrem, hsp, hord, htam⟩ := semMinimo_spec dir h.2.2.2 hd
  refine ⟨m, x, hmin, ?_, hrem, hsp, hord, htam⟩
  simp [removerRecursivo, EntradaIndice.getChave, he, hd, hmin, dado?, hrem]

theorem remocao_com_dois_filhos_witness :
    ∃ m x, encontrarMin (no (novo ⟨['C'], 3⟩) ⟨['D'], 2⟩ (novo ⟨['E'], 4⟩)) =
        some (no nulo m x) ∧
      removerRecursivo (no (novo ⟨['A'], 1⟩) ⟨['B'], 0⟩
          (no (novo ⟨['C'], 3⟩) ⟨['D'], 2⟩ (novo ⟨['E'], 4⟩))) ['B'] =
        some (no (novo ⟨['A'], 1⟩) m
          (semMinimo (no (novo ⟨['C'], 3⟩) ⟨['D'], 2⟩ (novo ⟨['E'], 4⟩))), []) ∧
      removerRecursivo (no (novo ⟨['C'], 3⟩) ⟨['D'], 2⟩ (novo ⟨['E'], 4⟩)) m.chave =
        some (semMinimo (no (novo ⟨['C'], 3⟩) ⟨['D'], 2⟩ (novo ⟨['E'], 4⟩)), []) ∧
      removerRecursivo (no nulo m x) m.chave = some (x, []) ∧
      emOrdemRecursivo (no (novo ⟨['C'], 3⟩) ⟨['D'], 2⟩ (novo ⟨['E'], 4⟩)) =
        m :: emOrdemRecursivo (semMinimo (no (novo ⟨['C'], 3⟩) ⟨['D'], 2⟩ (novo ⟨['E'], 4⟩))) ∧
      tamanho (semMinimo (no (novo ⟨['C'], 3⟩) ⟨['D'], 2⟩ (novo ⟨['E'], 4⟩))) + 1 =
        tamanho (no (novo ⟨['C'], 3⟩) ⟨['D'], 2⟩ (novo ⟨['E'], 4⟩)) :=
  remocao_com_dois_filhos (novo ⟨['A'], 1⟩) (no (novo ⟨['C'], 3⟩) ⟨['D'], 2⟩ (novo ⟨['E'], 4⟩))
    ⟨['B'], 0⟩ (by decide) (by decide) (by decide)

/-! ## The level-order walk -/

theorem emLarguraLaco_no (n : Nat) (l : NoABB) (d : EntradaIndice) (r : NoABB)
    (fila : List NoABB) :
    emLarguraLaco (n + 1) (no l d r :: fila) =
      (emLarguraLaco n (fila ++ filhos (no l d r))).map (fun resto => d :: resto) := by
  have hq : ((if l.ehNulo then fila else fila ++ [l]) ++ (if r.ehNulo then [] else [r])) =
      fila ++ filhos (no l d r) := by
    cases hl : l.ehNulo <;> cases hr : r.ehNulo <;> simp [filhos, hl, hr]
  rw [emLarguraLaco, hq]
  cases emLarguraLaco n (fila ++ filhos (no l d r)) <;> rfl

theorem emLarguraLaco_append (ts : List NoABB) (hts : ∀ t ∈ ts, t.ehNulo = false)
    (us : List NoABB) (n : Nat) :
    emLarguraLaco (n + ts.length) (ts ++ us) =
      (emLarguraLaco n (us ++ ts.flatMap filhos)).map (fun resto => dadosRaiz ts ++ resto) := by
  induction ts generalizing us with
  | nil => simp [dadosRaiz]
  | cons t ts ih =>
    cases t with
    | nulo => simpa [ehNulo] using hts nulo (List.mem_cons_self _ _)
    | no l d r =>
      have h1 := ih (fun x hx => hts x (List.mem_cons_of_mem _ hx)) (us ++ filhos (no l d r))
      simp only [List.length_cons, List.cons_append, ← Nat.add_assoc, emLarguraLaco_no,
        List.append_assoc, h1, List.flatMap_cons, Option.map_map]
      congr 1

theorem tamanho_pos (t : NoABB) (h : t.ehNulo = false) : 0 < tamanho t := by
  cases t with
  | nulo => simp [ehNulo] at h
  | no l d r => simp [tamanho]

theorem altura_pos (t : NoABB) (h : t.ehNulo = false) : 0 < altura t := by
  cases t with
  | nulo => simp [ehNulo] at h
  | no l d r => simp [altura]

theorem filhos_naoNulos (t : NoABB) : ∀ c ∈ filhos t, c.ehNulo = false := by
  cases t with
  | nulo => simp [filhos]
  | no l d r =>
    intro c hc
    simp only [filhos, List.mem_append] at hc
    rcases hc with hc | hc
    · cases hl : l.ehNulo
      · simp only [hl, Bool.false_eq_true, if_false, List.mem_singleton] at hc
        rw [hc]; exact hl
      · simp [hl] at hc
    · cases hr : r.ehNulo
      · simp only [hr, Bool.false_eq_true, if_false, List.mem_singleton] at hc
        rw [hc]; exact hr
      · simp [hr] at hc

theorem nivel_nulo_de_ehNulo (t : NoABB) (h : t.ehNulo = true) (d : Nat) : nivel t d = [] := by
  cases t with
  | nulo => rfl
  | no _ _ _ => simp [ehNulo] at h

theorem tamanho_nulo_de_ehNulo (t : NoABB) (h : t.ehNulo = true) : tamanho t = 0 := by
  cases t with
  | nulo => rfl
  | no _ _ _ => simp [ehNulo] at h

theorem altura_nulo_de_ehNulo (t : NoABB) (h : t.ehNulo = true) : altura t = 0 := by
  cases t with
  | nulo => rfl
  | no _ _ _ => simp [ehNulo] at h

theorem nivel_filhos (t : NoABB) (d : Nat) :
    nivelFila (filhos t) d = nivel t (d + 1) := by
  cases t with
  | nulo => rfl
  | no l e r =>
    simp only [nivelFila, filhos, nivel, List.flatMap_append]
    cases hl : l.ehNulo <;> cases hr : r.ehNulo <;>
      simp [nivel_nulo_de_ehNulo, hl, hr]

theorem tamanho_filhos (t : NoABB) (h : t.ehNulo = false) :
    tamanhoFila (filhos t) + 1 = tamanho t := by
  cases t with
  | nulo => simp [ehNulo] at h
  | no l e r =>
    simp only [tamanhoFila, filhos, tamanho]
    cases hl : l.ehNulo <;> cases hr : r.ehNulo <;>
      simp [tamanho_nulo_de_ehNulo, hl, hr]

theorem altura_filhos (t : NoABB) (D : Nat) (h : altura t ≤ D + 1) :
    ∀ c ∈ filhos t, altura c ≤ D := by
  cases t with
  | nulo => simp [filhos]
  | no l e r =>
    simp only [altura] at h
    intro c hc
    simp only [filhos, List.mem_append] at hc
    rcases hc with hc | hc
    · cases hl : l.ehNulo
      · simp only [hl, Bool.false_eq_true, if_false, List.mem_singleton] at hc
        rw [hc]; omega
      · simp [hl] at hc
    · cases hr : r.ehNulo
      · simp only [hr, Bool.false_eq_true, if_false, List.mem_singleton] at hc
        rw [hc]; omega
      · simp [hr] at hc

theorem nivelFila_zero (ts : List NoABB) (hts : ∀ t ∈ ts, t.ehNulo = false) :
    nivelFila ts 0 = dadosRaiz ts := by
  induction ts with
  | nil => rfl
  | cons t ts ih =>
    have := ih (fun x hx => hts x (List.mem_cons_of_mem _ hx))
    cases t with
    | nulo => simpa [ehNulo] using hts nulo (List.mem_cons_self _ _)
    | no l d r =>
      simp only [nivelFila, dadosRaiz] at this ⊢
      simp [nivel, dado?, this]

theorem nivelFila_succ (ts : List NoABB) (d : Nat) :
    nivelFila ts (d + 1) = nivelFila (ts.flatMap filhos) d := by
  induction ts with
  | nil => rfl
  | cons t ts ih =>
    simp only [nivelFila] at ih
    simp only [nivelFila, List.flatMap_cons, List.flatMap_append, ih]
    congr 1
    exact (nivel_filhos t d).symm

theorem tamanhoFila_filhos (ts : List NoABB) (hts : ∀ t ∈ ts, t.ehNulo = false) :
    tamanhoFila (ts.flatMap filhos) + ts.length = tamanhoFila ts := by
  induction ts with
  | nil => rfl
  | cons t ts ih =>
    have h1 := ih (fun x hx => hts x (List.mem_cons_of_mem _ hx))
    have h2 := tamanho_filhos t (hts t (List.mem_cons_self _ _))
    simp only [tamanhoFila, List.flatMap_cons, List.map_append, List.sum_append, List.map_cons,
      List.sum_cons, List.length_cons] at h1 h2 ⊢
    omega

theorem emLarguraLaco_niveis (D : Nat) (ts : List NoABB) (hts : ∀ t ∈ ts, t.ehNulo = false)
    (hD : ∀ t ∈ ts, altura t ≤ D) (n : Nat) (hn : tamanhoFila ts < n) :
    emLarguraLaco n ts = some ((List.range D).flatMap (nivelFila ts)) := by
  induction D generalizing ts n with
  | zero =>
    have hnil : ts = [] := by
      cases ts with
      | nil => rfl
      | cons t ts =>
        have h1 := altura_pos t (hts t (List.mem_cons_self _ _))
        have h2 := hD t (List.mem_cons_self _ _)
        omega
    subst hnil
    obtain ⟨m, rfl⟩ : ∃ m, n = m + 1 := ⟨n - 1, by omega⟩
    rfl
  | succ D ih =>
    have hsz := tamanhoFila_filhos ts hts
    obtain ⟨m, rfl⟩ : ∃ m, n = m + ts.length := ⟨n - ts.length, by omega⟩
    have h1 := emLarguraLaco_append ts hts [] m
    simp only [List.append_nil, List.nil_append] at h1
    have h2 := ih (ts.flatMap filhos)
      (fun c hc => by
        obtain ⟨t, _, hct⟩ := List.mem_flatMap.1 hc
        exact filhos_naoNulos t c hct)
      (fun c hc => by
        obtain ⟨t, ht, hct⟩ := List.mem_flatMap.1 hc
        exact altura_filhos t D (hD t ht) c hct)
      m (by omega)
    have h3 : nivelFila (ts.flatMap filhos) = fun d => nivelFila ts (Nat.succ d) :=
      funext (fun d => (nivelFila_succ ts d).symm)
    rw [h1, h2, List.range_succ_eq_map, h3]
    simp only [Option.map_some', List.flatMap_cons, List.flatMap_map, nivelFila_zero ts hts]

theorem emLargura_eq_referencia (t : NoABB) :
    ABB.emLargura ⟨t⟩ = some (emLarguraReferencia t) := by
  unfold ABB.emLargura emLarguraReferencia
  cases ht : t.ehNulo
  · simp only [Bool.false_eq_true, if_false]
    have h3 : nivelFila [t] = nivel t := by
      funext d
      simp [nivelFila]
    rw [emLarguraLaco_niveis (altura t) [t] (by simpa using ht) (by simp) _
      (by simp [tamanhoFila]), h3]
  · simp [altura_nulo_de_ehNulo t ht]

/-! ## The four walks list the same entries -/

theorem nivel_vazio (t : NoABB) (d : Nat) (h : altura t ≤ d) : nivel t d = [] := by
  induction t generalizing d with
  | nulo => rfl
  | no l e r ihl ihr =>
    simp only [altura] at h
    cases d with
    | zero => omega
    | succ d => simp [nivel, ihl d (by omega), ihr d (by omega)]

theorem niveis_estende (t : NoABB) (k : Nat) :
    (List.range (altura t + k)).flatMap (nivel t) =
      (List.range (altura t)).flatMap (nivel t) := by
  induction k with
  | zero => rfl
  | succ k ih =>
    rw [← Nat.add_assoc, List.range_succ, List.flatMap_append, ih]
    simp [nivel_vazio t (altura t + k) (by omega)]

theorem niveis_de_limite (t : NoABB) (H : Nat) (h : altura t ≤ H) :
    (List.range H).flatMap (nivel t) = emLarguraReferencia t := by
  obtain ⟨k, rfl⟩ : ∃ k, H = altura t + k := ⟨H - altura t, by omega⟩
  exact niveis_estende t k

theorem emLarguraReferencia_perm (t : NoABB) :
    List.Perm (emLarguraReferencia t) (emOrdemRecursivo t) := by
  induction t with
  | nulo => simp [emLarguraReferencia, altura, emOrdemRecursivo]
  | no l d r ihl ihr =>
    have h1 : emLarguraReferencia (no l d r) =
        d :: (List.range (max (altura l) (altura r))).flatMap
          (fun k => nivel l k ++ nivel r k) := by
      simp only [emLarguraReferencia, altura, List.range_succ_eq_map, List.flatMap_cons,
        List.flatMap_map, nivel]
      rfl
    rw [h1, emOrdemRecursivo]
    have h2 := List.flatMap_append_perm (List.range (max (altura l) (altura r)))
      (nivel l) (nivel r)
    rw [niveis_de_limite l _ (le_max_left _ _), niveis_de_limite r _ (le_max_right _ _)] at h2
    exact ((h2.symm.trans (List.Perm.append ihl ihr)).cons d).trans List.perm_middle.symm

theorem preOrdemRecursivo_perm (t : NoABB) :
    List.Perm (preOrdemRecursivo t) (emOrdemRecursivo t) := by
  induction t with
  | nulo => exact List.Perm.refl _
  | no l d r ihl ihr =>
    simp only [preOrdemRecursivo, emOrdemRecursivo]
    exact ((List.Perm.append ihl ihr).cons d).trans List.perm_middle.symm

theorem posOrdemRecursivo_perm (t : NoABB) :
    List.Perm (posOrdemRecursivo t) (emOrdemRecursivo t) := by
  induction t with
  | nulo => exact List.Perm.refl _
  | no l d r ihl ihr =>
    simp only [posOrdemRecursivo, emOrdemRecursivo, List.append_assoc]
    exact List.Perm.append ihl (List.perm_append_comm.trans (List.Perm.cons d ihr))

theorem length_emOrdemRecursivo (t : NoABB) : (emOrdemRecursivo t).length = tamanho t := by
  induction t with
  | nulo => rfl
  | no l d r ihl ihr => simp [emOrdemRecursivo, tamanho, ihl, ihr]; omega

/-! ## The claims on the walks -/

/-- Claim C24: the entries `ABB::emLargura` prints are those of the reference walk:
the root, then the nodes of depth 1 from left to right, then those of depth 2, and so
on, that is, the levels one after the other by growing depth; the walk is a
rearrangement of the in-order walk, so it lists every node once; and on the empty
tree it prints no entry. -/
theorem emLargura_por_niveis (t : NoABB) :
    ABB.emLargura ⟨t⟩ = some (emLarguraReferencia t) ∧
      emLarguraReferencia t = (List.range (altura t)).flatMap (nivel t) ∧
      List.Perm (emLarguraReferencia t) (emOrdemRecursivo t) ∧
      (emLarguraReferencia t).length = tamanho t ∧
      ABB.emLargura ABB.vazia = some [] :=
  ⟨emLargura_eq_referencia t, rfl, emLarguraReferencia_perm t,
    by rw [(emLarguraReferencia_perm t).length_eq, length_emOrdemRecursivo], rfl⟩

/-- Claim C25: the pre-order, post-order and level-order walks of a tree are
rearrangements of its in-order walk, so the four walks are rearrangements of one
another and have as many entries as the tree has nodes; the pre-order walk of a
non-empty tree starts with the entry of the root and the post-order walk ends with
it. -/
theorem percursos_sao_permutacoes (t esq dir : NoABB) (dado : EntradaIndice) :
    List.Perm (ABB.preOrdem ⟨t⟩) (ABB.emOrdem ⟨t⟩) ∧
      List.Perm (ABB.posOrdem ⟨t⟩) (ABB.emOrdem ⟨t⟩) ∧
      (∃ largura, ABB.emLargura ⟨t⟩ = some largura ∧ List.Perm largura (ABB.emOrdem ⟨t⟩) ∧
        largura.length = tamanho t) ∧
      (ABB.preOrdem ⟨t⟩).length = tamanho t ∧ (ABB.emOrdem ⟨t⟩).length = tamanho t ∧
      (ABB.posOrdem ⟨t⟩).length = tamanho t ∧
      (ABB.preOrdem ⟨no esq dado dir⟩).head? = some dado ∧
      (ABB.posOrdem ⟨no esq dado dir⟩).getLast? = some dado := by
  refine ⟨preOrdemRecursivo_perm t, posOrdemRecursivo_perm t,
    ⟨_, emLargura_eq_referencia t, emLarguraReferencia_perm t, ?_⟩, ?_,
    length_emOrdemRecursivo t, ?_, rfl, ?_⟩
  · rw [(emLarguraReferencia_perm t).length_eq, length_emOrdemRecursivo]
  · show (preOrdemRecursivo t).length = tamanho t
    rw [(preOrdemRecursivo_perm t).length_eq, length_emOrdemRecursivo]
  · show (posOrdemRecursivo t).length = tamanho t
    rw [(posOrdemRecursivo_perm t).length_eq, length_emOrdemRecursivo]
  · simp [ABB.posOrdem, posOrdemRecursivo]

/-! ## Spines -/

theorem inserirRecursivo_espinhaDireita (xs : List EntradaIndice) (e : EntradaIndice)
    (h : ∀ x ∈ xs, x.chave < e.chave) :
    (inserirRecursivo (espinhaDireita xs) e).1 = espinhaDireita (xs ++ [e]) := by
  induction xs with
  | nil => rfl
  | cons x xs ih =>
    have hx : x.chave < e.chave := h x (List.mem_cons_self _ _)
    have := ih (fun y hy => h y (List.mem_cons_of_mem _ hy))
    simp [espinhaDireita, inserirRecursivo, EntradaIndice.lt, EntradaIndice.gt, hx,
      lt_asymm hx, this]

theorem inserirRecursivo_espinhaEsquerda (xs : List EntradaIndice) (e : EntradaIndice)
    (h : ∀ x ∈ xs, e.chave < x.chave) :
    (inserirRecursivo (espinhaEsquerda xs) e).1 = espinhaEsquerda (xs ++ [e]) := by
  induction xs with
  | nil => rfl
  | cons x xs ih =>
    have hx : e.chave < x.chave := h x (List.mem_cons_self _ _)
    have := ih (fun y hy => h y (List.mem_cons_of_mem _ hy))
    simp [espinhaEsquerda, inserirRecursivo, EntradaIndice.lt, hx, this]

theorem inserirTodos_espinhaDireita (ys xs : List EntradaIndice)
    (h : (xs ++ ys).Pairwise (fun a b => a.chave < b.chave)) :
    inserirTodos ⟨espinhaDireita xs⟩ ys = ⟨espinhaDireita (xs ++ ys)⟩ := by
  induction ys generalizing xs with
  | nil => simp [inserirTodos]
  | cons y ys ih =>
    have h2 : ((xs ++ [y]) ++ ys).Pairwise (fun a b => a.chave < b.chave) := by
      simpa using h
    have h3 : ∀ x ∈ xs, x.chave < y.chave := by
      intro x hx
      rw [List.pairwise_append] at h
      exact h.2.2 x hx y (List.mem_cons_self _ _)
    have := ih (xs ++ [y]) h2
    simp only [inserirTodos, List.foldl_cons, ABB.inserir] at this ⊢
    rw [inserirRecursivo_espinhaDireita xs y h3, this]
    simp

theorem inserirTodos_espinhaEsquerda (ys xs : List EntradaIndice)
    (h : (xs ++ ys).Pairwise (fun a b => b.chave < a.chave)) :
    inserirTodos ⟨espinhaEsquerda xs⟩ ys = ⟨espinhaEsquerda (xs ++ ys)⟩ := by
  induction ys generalizing xs with
  | nil => simp [inserirTodos]
  | cons y ys ih =>
    have h2 : ((xs ++ [y]) ++ ys).Pairwise (fun a b => b.chave < a.chave) := by
      simpa using h
    have h3 : ∀ x ∈ xs, y.chave < x.chave := by
      intro x hx
      rw [List.pairwise_append] at h
      exact h.2.2 x hx y (List.mem_cons_self _ _)
    have := ih (xs ++ [y]) h2
    simp only [inserirTodos, List.foldl_cons, ABB.inserir] at this ⊢
    rw [inserirRecursivo_espinhaEsquerda xs y h3, this]
    simp

theorem espinhaDireita_forma (xs : List EntradaIndice) :
    semEsquerda (espinhaDireita xs) = true ∧ altura (espinhaDireita xs) = xs.length := by
  induction xs with
  | nil => exact ⟨rfl, rfl⟩
  | cons x xs ih => simp [espinhaDireita, semEsquerda, ehNulo, altura, ih.1, ih.2]

theorem espinhaEsquerda_forma (xs : List EntradaIndice) :
    semDireita (espinhaEsquerda xs) = true ∧ altura (espinhaEsquerda xs) = xs.length := by
  induction xs with
  | nil => exact ⟨rfl, rfl⟩
  | cons x xs ih => simp [espinhaEsquerda, semDireita, ehNulo, altura, ih.1, ih.2]

/-- Claim C23: entries with strictly ascending keys inserted into the empty tree give
the right spine of the entries: no node has a left child and the height is the number
of entries; entries with strictly descending keys give the left spine, of the same
height. -/
theorem insercao_ordenada_degenera (cresc decr : List EntradaIndice)
    (hc : cresc.Pairwise (fun a b => a.chave < b.chave))
    (hd : decr.Pairwise (fun a b => b.chave < a.chave)) :
    ((inserirTodos ABB.vazia cresc).raiz = espinhaDireita cresc ∧
        semEsquerda (inserirTodos ABB.vazia cresc).raiz = true ∧
        altura (inserirTodos ABB.vazia cresc).raiz = cresc.length) ∧
      ((inserirTodos ABB.vazia decr).raiz = espinhaEsquerda decr ∧
        semDireita (inserirTodos ABB.vazia decr).raiz = true ∧
        altura (inserirTodos ABB.vazia decr).raiz = decr.length) := by
  have h1 : inserirTodos ABB.vazia cresc = ⟨espinhaDireita cresc⟩ := by
    have := inserirTodos_espinhaDireita cresc [] (by simpa using hc)
    simpa [espinhaDireita, ABB.vazia] using this
  have h2 : inserirTodos ABB.vazia decr = ⟨espinhaEsquerda decr⟩ := by
    have := inserirTodos_espinhaEsquerda decr [] (by simpa using hd)
    simpa [espinhaEsquerda, ABB.vazia] using this
  rw [h1, h2]
  exact ⟨⟨rfl, espinhaDireita_forma cresc⟩, ⟨rfl, espinhaEsquerda_forma decr⟩⟩

theorem insercao_ordenada_degenera_witness :
    ((inserirTodos ABB.vazia [⟨['A'], 0⟩, ⟨['B'], 1⟩, ⟨['C'], 2⟩]).raiz =
          espinhaDireita [⟨['A'], 0⟩, ⟨['B'], 1⟩, ⟨['C'], 2⟩] ∧
        semEsquerda (inserirTodos ABB.vazia [⟨['A'], 0⟩, ⟨['B'], 1⟩, ⟨['C'], 2⟩]).raiz = true ∧
        altura (inserirTodos ABB.vazia [⟨['A'], 0⟩, ⟨['B'], 1⟩, ⟨['C'], 2⟩]).raiz =
          [(⟨['A'], 0⟩ : EntradaIndice), ⟨['B'], 1⟩, ⟨['C'], 2⟩].length) ∧
      ((inserirTodos ABB.vazia [⟨['C'], 0⟩, ⟨['B'], 1⟩, ⟨['A'], 2⟩]).raiz =
          espinhaEsquerda [⟨['C'], 0⟩, ⟨['B'], 1⟩, ⟨['A'], 2⟩] ∧
        semDireita (inserirTodos ABB.vazia [⟨['C'], 0⟩, ⟨['B'], 1⟩, ⟨['A'], 2⟩]).raiz = true ∧
        altura (inserirTodos ABB.vazia [⟨['C'], 0⟩, ⟨['B'], 1⟩, ⟨['A'], 2⟩]).raiz =
          [(⟨['C'], 0⟩ : EntradaIndice), ⟨['B'], 1⟩, ⟨['A'], 2⟩].length) :=
  insercao_ordenada_degenera [⟨['A'], 0⟩, ⟨['B'], 1⟩, ⟨['C'], 2⟩]
    [⟨['C'], 0⟩, ⟨['B'], 1⟩, ⟨['A'], 2⟩] (by decide) (by decide)

/-! ## Frame and counting lemmas for insertion and removal -/

theorem ehABB_removerRecursivo (t : NoABB) (h : ehABB t) (k : StdString) :
    ∃ r, removerRecursivo t k = some r ∧
      emOrdemRecursivo r.1 = (emOrdemRecursivo t).filter (fun e => decide (e.chave ≠ k)) ∧
      ehABB r.1 := by
  obtain ⟨r, hr, hf⟩ := emOrdem_removerRecursivo t h k
  refine ⟨r, hr, hf, ?_⟩
  rw [ehABB_iff_crescente] at h ⊢
  simp only [estritamenteCrescente, chaves] at h ⊢
  rw [hf]
  exact h.sublist ((List.filter_sublist _).map _)

theorem buscarPosicaoLaco_de_emOrdem (t r : NoABB) (ht : ehABB t) (hr : ehABB r)
    (k : StdString)
    (h1 : ∀ e ∈ emOrdemRecursivo t, e.chave = k → e ∈ emOrdemRecursivo r)
    (h2 : ∀ e ∈ emOrdemRecursivo r, e.chave = k → e ∈ emOrdemRecursivo t) :
    buscarPosicaoLaco r k = buscarPosicaoLaco t k := by
  by_cases hk : k ∈ chaves t
  · obtain ⟨e, he, rfl⟩ := (mem_chaves_iff _ _).1 hk
    rw [buscarPosicaoLaco_presente t ht e he,
      buscarPosicaoLaco_presente r hr e (h1 e he rfl)]
  · have hk2 : k ∉ chaves r := by
      intro hc
      obtain ⟨e, he, hek⟩ := (mem_chaves_iff _ _).1 hc
      exact hk ((mem_chaves_iff _ _).2 ⟨e, h2 e he hek, hek⟩)
    rw [buscarPosicaoLaco_ausente t k hk, buscarPosicaoLaco_ausente r k hk2]

theorem deListaLaco_eq (lista : List EntradaIndice) (a : ABB) :
    (ABB.deListaLaco a lista).1 = inserirTodos a lista := by
  induction lista generalizing a with
  | nil => rfl
  | cons e es ih => simp only [ABB.deListaLaco, inserirTodos, List.foldl_cons]; exact ih _

theorem mem_chaves_inserirTodos (es : List EntradaIndice) (t : ABB) (k : StdString) :
    k ∈ chaves (inserirTodos t es).raiz ↔ k ∈ chaves t.raiz ∨ k ∈ es.map EntradaIndice.chave := by
  induction es generalizing t with
  | nil => simp [inserirTodos]
  | cons e es ih =>
    simp only [inserirTodos, List.foldl_cons] at ih ⊢
    rw [ih]
    simp only [ABB.inserir, List.map_cons, List.mem_cons]
    constructor
    · rintro (h | h)
      · rcases mem_chaves_inserir t.raiz e k h with h | h
        · exact Or.inl h
        · exact Or.inr (Or.inl h)
      · exact Or.inr (Or.inr h)
    · rintro (h | h | h)
      · obtain ⟨x, hx, rfl⟩ := (mem_chaves_iff _ _).1 h
        exact Or.inl ((mem_chaves_iff _ _).2 ⟨x, emOrdem_sub_inserir t.raiz e x hx, rfl⟩)
      · by_cases hp : e.chave ∈ chaves t.raiz
        · obtain ⟨x, hx, hxe⟩ := (mem_chaves_iff _ _).1 hp
          exact Or.inl ((mem_chaves_iff _ _).2
            ⟨x, emOrdem_sub_inserir t.raiz e x hx, by rw [hxe, h]⟩)
        · exact Or.inl ((mem_chaves_iff _ _).2
            ⟨e, mem_emOrdem_inserir_ausente t.raiz e hp, h.symm⟩)
      · exact Or.inr h

theorem buscarPosicao_inserirTodos (es : List EntradaIndice) (t : ABB) (h : ehABB t.raiz)
    (k : StdString) :
    (inserirTodos t es).buscarPosicao k =
      if k ∈ chaves t.raiz then t.buscarPosicao k
      else match es.find? (fun e => decide (e.chave = k)) with
        | some e => e.posicaoEDL
        | none => -1 := by
  induction es generalizing t with
  | nil =>
    simp only [inserirTodos, List.foldl_nil, List.find?_nil]
    split_ifs with hk
    · rfl
    · exact buscarPosicaoLaco_ausente t.raiz k hk
  | cons e es ih =>
    have hB := ehABB_inserir t.raiz e h
    have ih2 := ih (t.inserir e).1 hB
    simp only [inserirTodos, List.foldl_cons] at ih2 ⊢
    rw [ih2]
    by_cases hk : k ∈ chaves t.raiz
    · obtain ⟨x, hx, rfl⟩ := (mem_chaves_iff _ _).1 hk
      have hx2 := emOrdem_sub_inserir t.raiz e x hx
      have hk2 : x.chave ∈ chaves (t.inserir e).1.raiz := (mem_chaves_iff _ _).2 ⟨x, hx2, rfl⟩
      rw [if_pos hk2, if_pos hk]
      simp only [ABB.buscarPosicao, ABB.inserir]
      rw [buscarPosicaoLaco_presente _ hB x hx2, buscarPosicaoLaco_presente _ h x hx]
    · rw [if_neg hk]
      by_cases hek : e.chave = k
      · have hp : e.chave ∉ chaves t.raiz := by rw [hek]; exact hk
        have he2 := mem_emOrdem_inserir_ausente t.raiz e hp
        have hk2 : k ∈ chaves (t.inserir e).1.raiz := (mem_chaves_iff _ _).2 ⟨e, he2, hek⟩
        rw [if_pos hk2, List.find?_cons_of_pos _ (by simp [hek])]
        simp only [ABB.buscarPosicao, ABB.inserir]
        rw [← hek]
        exact buscarPosicaoLaco_presente _ hB e he2
      · have hk2 : k ∉ chaves (t.inserir e).1.raiz := by
          intro hc
          rcases mem_chaves_inserir t.raiz e k hc with hc | hc
          · exact hk hc
          · exact hek hc.symm
        rw [if_neg hk2, List.find?_cons_of_neg _ (by simp [hek])]

theorem filter_chave_eq_erase (xs : List EntradaIndice) (e : EntradaIndice)
    (h : (xs.map EntradaIndice.chave).Pairwise (fun a b => a < b)) (he : e ∈ xs) :
    xs.filter (fun x => decide (x.chave ≠ e.chave)) = xs.erase e := by
  induction xs with
  | nil => simp at he
  | cons x xs ih =>
    simp only [List.map_cons, List.pairwise_cons] at h
    obtain ⟨hx, hxs⟩ := h
    by_cases hxe : x = e
    · subst hxe
      have hall : ∀ y ∈ xs, y.chave ≠ x.chave := fun y hy =>
        ne_of_gt (hx y.chave (List.mem_map_of_mem _ hy))
      rw [List.filter_cons_of_neg (by simp), filter_chave_ne_eq_self xs x.chave hall]
      simp
    · have he2 : e ∈ xs := by
        rcases List.mem_cons.1 he with h1 | h1
        · exact absurd h1.symm hxe
        · exact h1
      have hlt := hx e.chave (List.mem_map_of_mem _ he2)
      rw [List.filter_cons_of_pos (by simpa using ne_of_lt hlt), ih hxs he2,
        List.erase_cons_tail (by simpa using hxe)]

/-! ## The claims on the effect of insertion and removal -/

/-- Claim C26: on a tree with the search-tree invariant `ABB::remover` returns, the
in-order sequence afterwards is the one before without the entries of key `k`, which
is the sequence before with the entry of key `k` erased when there is one, and
`ABB::buscarPosicao` of any other key returns what it returned before. -/
theorem remocao_so_afeta_a_chave (t : ABB) (h : ehABB t.raiz) (k k2 : StdString)
    (hne : k2 ≠ k) :
    ∃ r, t.remover k = some r ∧
      r.1.emOrdem = t.emOrdem.filter (fun e => decide (e.chave ≠ k)) ∧
      (∀ e ∈ t.emOrdem, e.chave = k → r.1.emOrdem = t.emOrdem.erase e) ∧
      r.1.buscarPosicao k2 = t.buscarPosicao k2 := by
  obtain ⟨r, hr, hf, hB⟩ := ehABB_removerRecursivo t.raiz h k
  refine ⟨(⟨r.1⟩, r.2), by simp [ABB.remover, hr], hf, ?_, ?_⟩
  · intro e he hek
    subst hek
    have hs := (ehABB_iff_crescente _).1 h
    exact hf.trans (filter_chave_eq_erase _ e hs he)
  · refine buscarPosicaoLaco_de_emOrdem t.raiz r.1 h hB k2 ?_ ?_
    · intro e he hek
      rw [hf, List.mem_filter]
      exact ⟨he, by simpa [hek] using hne⟩
    · intro e he _
      rw [hf] at he
      exact (List.mem_filter.1 he).1

theorem remocao_so_afeta_a_chave_witness :
    ∃ r, (inserirTodos ABB.vazia [⟨['B'], 0⟩, ⟨['A'], 1⟩, ⟨['D'], 2⟩, ⟨['C'], 3⟩]).remover
          ['B'] = some r ∧
      r.1.emOrdem =
        (inserirTodos ABB.vazia [⟨['B'], 0⟩, ⟨['A'], 1⟩, ⟨['D'], 2⟩, ⟨['C'], 3⟩]).emOrdem.filter
          (fun e => decide (e.chave ≠ ['B'])) ∧
      (∀ e ∈ (inserirTodos ABB.vazia
            [⟨['B'], 0⟩, ⟨['A'], 1⟩, ⟨['D'], 2⟩, ⟨['C'], 3⟩]).emOrdem, e.chave = ['B'] →
        r.1.emOrdem = (inserirTodos ABB.vazia
            [⟨['B'], 0⟩, ⟨['A'], 1⟩, ⟨['D'], 2⟩, ⟨['C'], 3⟩]).emOrdem.erase e) ∧
      r.1.buscarPosicao ['C'] =
        (inserirTodos ABB.vazia
          [⟨['B'], 0⟩, ⟨['A'], 1⟩, ⟨['D'], 2⟩, ⟨['C'], 3⟩]).buscarPosicao ['C'] :=
  remocao_so_afeta_a_chave
    (inserirTodos ABB.vazia [⟨['B'], 0⟩, ⟨['A'], 1⟩, ⟨['D'], 2⟩, ⟨['C'], 3⟩])
    (by decide) ['B'] ['C'] (by decide)

/-- Claim C28: on a tree with the search-tree invariant whose stored positions are all
non-negative, `ABB::buscarPosicao` returns `-1` exactly for the keys that are not in
the tree; the tree holding the one entry built by the search constructor
`EntradaIndice(chave)` has the invariant, contains the key, and returns `-1` for it. -/
theorem sentinela_de_busca (t : ABB) (h : ehABB t.raiz)
    (hpos : ∀ e ∈ t.emOrdem, 0 ≤ e.posicaoEDL) (k : StdString) :
    (t.buscarPosicao k = -1 ↔ k ∉ chaves t.raiz) ∧
      k ∈ chaves (ABB.vazia.inserir (EntradaIndice.paraBusca k)).1.raiz ∧
      ehABB (ABB.vazia.inserir (EntradaIndice.paraBusca k)).1.raiz ∧
      (ABB.vazia.inserir (EntradaIndice.paraBusca k)).1.buscarPosicao k = -1 := by
  refine ⟨⟨?_, buscarPosicaoLaco_ausente t.raiz k⟩, ?_, ?_, ?_⟩
  · intro hb hk
    obtain ⟨e, he, rfl⟩ := (mem_chaves_iff _ _).1 hk
    have h1 : t.buscarPosicao e.chave = e.posicaoEDL := buscarPosicaoLaco_presente t.raiz h e he
    have h2 := hpos e he
    omega
  · simp [ABB.vazia, ABB.inserir, inserirRecursivo, novo, EntradaIndice.paraBusca, chaves,
      emOrdemRecursivo]
  · simp [ABB.vazia, ABB.inserir, inserirRecursivo, novo, ehABB, chaves_nulo]
  · simp [ABB.vazia, ABB.inserir, inserirRecursivo, novo, EntradaIndice.paraBusca,
      ABB.buscarPosicao, buscarPosicaoLaco, EntradaIndice.getChave,
      EntradaIndice.getPosicaoEDL]

theorem sentinela_de_busca_witness :
    ((inserirTodos ABB.vazia [⟨['B'], 0⟩, ⟨['A'], 1⟩, ⟨['C'], 2⟩]).buscarPosicao ['D'] = -1 ↔
        ['D'] ∉ chaves (inserirTodos ABB.vazia [⟨['B'], 0⟩, ⟨['A'], 1⟩, ⟨['C'], 2⟩]).raiz) ∧
      ['D'] ∈ chaves (ABB.vazia.inserir (EntradaIndice.paraBusca ['D'])).1.raiz ∧
      ehABB (ABB.vazia.inserir (EntradaIndice.paraBusca ['D'])).1.raiz ∧
      (ABB.vazia.inserir (EntradaIndice.paraBusca ['D'])).1.buscarPosicao ['D'] = -1 :=
  sentinela_de_busca (inserirTodos ABB.vazia [⟨['B'], 0⟩, ⟨['A'], 1⟩, ⟨['C'], 2⟩])
    (by decide) (by decide) ['D']

/-- Claim C30: the tree built by the constructor `ABB(std::initializer_list)` is the
tree obtained by inserting the elements in list order into the empty tree; it has the
search-tree invariant, its keys are without repetition and are the keys of the list, and
`ABB::buscarPosicao` returns the position of the first element of the list with the
key searched, or `-1` when the list has none. -/
theorem construcao_por_lista (lista : List EntradaIndice) (k : StdString) :
    (ABB.deLista lista).1 = inserirTodos ABB.vazia lista ∧
      ehABB (ABB.deLista lista).1.raiz ∧
      (chaves (ABB.deLista lista).1.raiz).Nodup ∧
      (k ∈ chaves (ABB.deLista lista).1.raiz ↔ k ∈ lista.map EntradaIndice.chave) ∧
      (ABB.deLista lista).1.buscarPosicao k =
        (match lista.find? (fun e => decide (e.chave = k)) with
          | some e => e.posicaoEDL
          | none => -1) := by
  have h0 : ehABB ABB.vazia.raiz := by simp [ABB.vazia, ehABB]
  have hB := ehABB_inserirTodos lista ABB.vazia h0
  have hn : k ∉ chaves ABB.vazia.raiz := by simp [ABB.vazia, chaves_nulo]
  rw [ABB.deLista, deListaLaco_eq]
  refine ⟨rfl, hB, ?_, ?_, ?_⟩
  · exact ((ehABB_iff_crescente _).1 hB).imp (fun hab => ne_of_lt hab)
  · rw [mem_chaves_inserirTodos]
    simp [hn]
  · rw [buscarPosicao_inserirTodos lista ABB.vazia h0 k, if_neg hn]

/-! ## The driver keeps the index and the store consistent -/

theorem toInt32_pequeno (n : Nat) (h : n < 2 ^ 31) : toInt32 n = (n : Int) := by
  unfold toInt32
  split_ifs <;> omega

theorem getTamanho_adicionar (s : Estado) (r : Registro) :
    (s.adicionar r).arquivoRegistros.getTamanho = s.arquivoRegistros.getTamanho + 1 := by
  simp [Estado.adicionar, EDL.inserirRegistro, EDL.getTamanho]

theorem ehABB_adicionar (s : Estado) (r : Registro) (h : ehABB s.arquivoIndices.raiz) :
    ehABB (s.adicionar r).arquivoIndices.raiz :=
  ehABB_inserir _ _ h

theorem consistente_adicionar (s : Estado) (r : Registro) (hc : consistente s)
    (hr : r.isDeletado = false) (hsz : s.arquivoRegistros.getTamanho < 2 ^ 31) :
    consistente (s.adicionar r) := by
  intro e he
  have hpos : (s.arquivoRegistros.inserirRegistro r).2 = (s.arquivoRegistros.getTamanho : Int) := by
    rw [(inserirRegistro_retorno _ _).1, toInt32_pequeno _ hsz]
  have hd : (s.adicionar r).arquivoRegistros.dados = s.arquivoRegistros.dados ++ [r] := rfl
  rw [getTamanho_adicionar, hd]
  simp only [Estado.adicionar, ABB.emOrdem, ABB.inserir] at he
  rcases mem_emOrdem_inserir _ _ _ he with h | h
  · obtain ⟨h0, h1, r0, hr0, hr1, hr2⟩ := hc e h
    refine ⟨h0, by omega, r0, ?_, hr1, hr2⟩
    have hlt : e.posicaoEDL.toNat < s.arquivoRegistros.dados.length := by
      unfold EDL.getTamanho at h1; omega
    rw [List.getElem?_append_left hlt]
    exact hr0
  · rw [h]
    simp only [hpos]
    refine ⟨by omega, by push_cast; omega, r, ?_, hr, rfl⟩
    simp [EDL.getTamanho]

theorem apagar_consistente (s : Estado) (k : StdString) (hc : consistente s)
    (hB : ehABB s.arquivoIndices.raiz) (hsz : s.arquivoRegistros.getTamanho ≤ 2 ^ 31) :
    ∃ s2, s.apagar k = Except.ok s2 ∧ consistente s2 ∧ ehABB s2.arquivoIndices.raiz ∧
      s2.arquivoRegistros.getTamanho = s.arquivoRegistros.getTamanho := by
  by_cases hb : s.arquivoIndices.buscarPosicao k ≠ -1
  · have hk : k ∈ chaves s.arquivoIndices.raiz := by
      by_contra hn
      exact hb (buscarPosicaoLaco_ausente _ _ hn)
    obtain ⟨e, he, rfl⟩ := (mem_chaves_iff _ _).1 hk
    have hbe : s.arquivoIndices.buscarPosicao e.chave = e.posicaoEDL :=
      buscarPosicaoLaco_presente _ hB e he
    obtain ⟨h0, h1, r0, hr0, -, hr2⟩ := hc e he
    have h32 : ehInt32 e.posicaoEDL := by
      unfold ehInt32; constructor <;> omega
    obtain ⟨r1, hr1, -, hm⟩ := buscarPorPosicao_dentro s.arquivoRegistros e.posicaoEDL h32 h0 h1
    obtain ⟨r, hr, hf, hBr⟩ := ehABB_removerRecursivo s.arquivoIndices.raiz hB e.chave
    refine ⟨⟨⟨s.arquivoRegistros.dados.set (toSizeT e.posicaoEDL)
      (r1.aplicar OperacaoRegistro.marcarComoDeletado)⟩, ⟨r.1⟩⟩, ?_, ?_, hBr, ?_⟩
    · have hb2 : e.posicaoEDL ≠ -1 := by rw [← hbe]; exact hb
      simp [Estado.apagar, hbe, hb2, EDL.modificar, hm, ABB.remover, hr]
    · intro x hx
      simp only [ABB.emOrdem] at hx
      rw [hf, List.mem_filter] at hx
      obtain ⟨hx1, hx2⟩ := hx
      have hxk : x.chave ≠ e.chave := by simpa using hx2
      obtain ⟨x0, x1, rx, hrx0, hrx1, hrx2⟩ := hc x hx1
      refine ⟨x0, by simpa [EDL.getTamanho] using x1, rx, ?_, hrx1, hrx2⟩
      have hne : toSizeT e.posicaoEDL ≠ x.posicaoEDL.toNat := by
        rw [toSizeT_naoNegativo _ h0 h32]
        intro heq
        rw [← heq, hr0] at hrx0
        cases hrx0
        exact hxk (hrx2.symm.trans hr2)
      simp only [List.getElem?_set_ne hne]
      exact hrx0
    · simp [EDL.getTamanho]
  · refine ⟨s, ?_, hc, hB, rfl⟩
    simp [Estado.apagar, hb]

theorem executarPassos_consistente (ps : List Passo) (s : Estado) (hc : consistente s)
    (hB : ehABB s.arquivoIndices.raiz)
    (hr : ∀ r, Passo.adicionar r ∈ ps → r.isDeletado = false)
    (hn : s.arquivoRegistros.getTamanho + adicoes ps ≤ 2 ^ 31) :
    ∃ s2, executarPassos s ps = Except.ok s2 ∧ consistente s2 ∧
      ehABB s2.arquivoIndices.raiz ∧ s2.arquivoRegistros.getTamanho ≤ 2 ^ 31 := by
  induction ps generalizing s with
  | nil => exact ⟨s, rfl, hc, hB, by simpa [adicoes] using hn⟩
  | cons p ps ih =>
    cases p with
    | adicionar r =>
      simp only [adicoes] at hn
      simp only [executarPassos]
      refine ih _ (consistente_adicionar s r hc (hr r (List.mem_cons_self _ _)) (by omega))
        (ehABB_adicionar s r hB) (fun x hx => hr x (List.mem_cons_of_mem _ hx)) ?_
      rw [getTamanho_adicionar]; omega
    | apagar k =>
      simp only [adicoes] at hn
      obtain ⟨s2, h1, h2, h3, h4⟩ := apagar_consistente s k hc hB (by omega)
      simp only [executarPassos, h1]
      exact ih s2 h2 h3 (fun x hx => hr x (List.mem_cons_of_mem _ hx)) (by rw [h4]; omega)

theorem referencia_de_consistente (s : Estado) (hc : consistente s) :
    (edlOrdenadaReferencia s.arquivoIndices s.arquivoRegistros).map Registro.getCpf =
      chaves s.arquivoIndices.raiz := by
  unfold consistente at hc
  unfold edlOrdenadaReferencia chaves
  simp only [ABB.emOrdem] at hc ⊢
  generalize emOrdemRecursivo s.arquivoIndices.raiz = es at hc
  induction es with
  | nil => rfl
  | cons e es ih =>
    obtain ⟨h0, h1, r, hr0, hr1, hr2⟩ := hc e (List.mem_cons_self _ _)
    have ih2 := ih (fun x hx => hc x (List.mem_cons_of_mem _ hx))
    simp only [List.filterMap_cons, h0, h1, and_self, if_true, hr0, hr1, Bool.false_eq_true,
      if_false, List.map_cons, hr2, ih2]

theorem executarPassos_append (ps qs : List Passo) (s : Estado) :
    executarPassos s (ps ++ qs) =
      match executarPassos s ps with
      | Except.error f => Except.error f
      | Except.ok s2 => executarPassos s2 qs := by
  induction ps generalizing s with
  | nil => rfl
  | cons p ps ih =>
    cases p with
    | adicionar r => simp only [List.cons_append, executarPassos]; exact ih _
    | apagar k =>
      simp only [List.cons_append, executarPassos]
      cases s.apagar k with
      | error f => rfl
      | ok s2 => exact ih s2

theorem executarPassos_repetido (r : Registro) (n m : Nat) :
    executarPassos ⟨⟨List.replicate (m + 1) r⟩, ⟨novo ⟨r.getCpf, 0⟩⟩⟩
        (List.replicate n (Passo.adicionar r)) =
      Except.ok ⟨⟨List.replicate (m + 1 + n) r⟩, ⟨novo ⟨r.getCpf, 0⟩⟩⟩ := by
  induction n generalizing m with
  | zero => rfl
  | succ n ih =>
    have hs : Estado.adicionar ⟨⟨List.replicate (m + 1) r⟩, ⟨novo ⟨r.getCpf, 0⟩⟩⟩ r =
        ⟨⟨List.replicate (m + 1 + 1) r⟩, ⟨novo ⟨r.getCpf, 0⟩⟩⟩ := by
      simp [Estado.adicionar, EDL.inserirRegistro, ABB.inserir, inserirRecursivo, novo,
        EntradaIndice.lt, EntradaIndice.gt, List.replicate_succ' (m + 1)]
    have ha : m + 1 + (n + 1) = m + 1 + 1 + n := by omega
    have hrep : List.replicate (n + 1) (Passo.adicionar r) =
        Passo.adicionar r :: List.replicate n (Passo.adicionar r) := rfl
    rw [hrep, ha]
    show executarPassos (Estado.adicionar _ r) _ = _
    rw [hs, ih (m + 1)]

theorem executarPassos_ate_truncar (ra rb : Registro) (n : Nat) (h : ra.getCpf < rb.getCpf) :
    executarPassos Estado.inicial
        (List.replicate (n + 1) (Passo.adicionar ra) ++ [Passo.adicionar rb]) =
      Except.ok ⟨⟨List.replicate (n + 1) ra ++ [rb]⟩,
        ⟨no nulo ⟨ra.getCpf, 0⟩ (novo ⟨rb.getCpf, toInt32 (n + 1)⟩)⟩⟩ := by
  have h0 : Estado.inicial.adicionar ra = ⟨⟨List.replicate (0 + 1) ra⟩, ⟨novo ⟨ra.getCpf, 0⟩⟩⟩ := by
    simp [Estado.inicial, Estado.adicionar, EDL.inserirRegistro, EDL.vazia, ABB.vazia,
      ABB.inserir, inserirRecursivo, toInt32]
  have hrep : List.replicate (n + 1) (Passo.adicionar ra) =
      Passo.adicionar ra :: List.replicate n (Passo.adicionar ra) := rfl
  have h1 : executarPassos Estado.inicial (List.replicate (n + 1) (Passo.adicionar ra)) =
      Except.ok ⟨⟨List.replicate (0 + 1 + n) ra⟩, ⟨novo ⟨ra.getCpf, 0⟩⟩⟩ := by
    rw [hrep]
    show executarPassos (Estado.adicionar _ ra) _ = _
    rw [h0, executarPassos_repetido ra n 0]
  rw [executarPassos_append, h1]
  have hn : 0 + 1 + n = n + 1 := by omega
  simp only [executarPassos, hn, Estado.adicionar, (inserirRegistro_retorno _ _).1,
    (inserirRegistro_retorno _ _).2, getTamanho_replicate, ABB.inserir, inserirRecursivo, novo,
    EntradaIndice.lt, EntradaIndice.gt, decide_eq_true_eq, not_lt_of_gt h, h, gt_iff_lt,
    if_true, if_false]

/-! ## The claims on the driver -/

/-- Claim C27, as stated, fails: a step that adds the record of the default constructor,
which is flagged deleted, leaves the entry `("", 0)` in the tree while the record at
position `0` is flagged deleted; and after `2^31` insertions of a record that is not
flagged deleted, the insertion of a record with a new key leaves an entry with the
position `-2^31` in the tree. -/
theorem protocolo_quebra_consistencia :
    (∃ s, executarPassos Estado.inicial [Passo.adicionar Registro.padrao] = Except.ok s ∧
        s.arquivoIndices.emOrdem = [⟨[], 0⟩] ∧
        s.arquivoRegistros.dados[0]? = some Registro.padrao ∧
        Registro.padrao.isDeletado = true ∧ ¬ consistente s) ∧
      ∃ s, executarPassos Estado.inicial
          (List.replicate (2 ^ 31) (Passo.adicionar (Registro.completo ['A'] ['a'] [] 'F')) ++
            [Passo.adicionar (Registro.completo ['B'] ['b'] [] 'M')]) = Except.ok s ∧
        (⟨['B'], -2 ^ 31⟩ : EntradaIndice) ∈ s.arquivoIndices.emOrdem ∧ ¬ consistente s := by
  constructor
  · refine ⟨⟨⟨[Registro.padrao]⟩, ⟨novo ⟨[], 0⟩⟩⟩, rfl, rfl, rfl, rfl, ?_⟩
    intro hc
    obtain ⟨-, -, r, h1, h2, -⟩ := hc ⟨[], 0⟩ (by simp [ABB.emOrdem, novo, emOrdemRecursivo])
    simp only [Int.toNat_zero, List.getElem?_cons_zero, Option.some.injEq] at h1
    rw [← h1] at h2
    exact absurd h2 (by decide)
  · have e : (2 : Nat) ^ 31 = 2147483647 + 1 := by norm_num
    have ht : toInt32 (2147483647 + 1) = -2 ^ 31 := by decide
    have hm : (⟨['B'], -2 ^ 31⟩ : EntradaIndice) ∈ emOrdemRecursivo
        (no nulo ⟨['A'], 0⟩ (novo ⟨['B'], -2 ^ 31⟩)) := by
      simp [novo, emOrdemRecursivo]
    have hm2 : (⟨['B'], -2 ^ 31⟩ : EntradaIndice) ∈ emOrdemRecursivo
        (no nulo ⟨['A'], 0⟩ (novo ⟨['B'], toInt32 (2147483647 + 1)⟩)) := by
      rw [ht]; exact hm
    refine ⟨⟨⟨List.replicate (2147483647 + 1) (Registro.completo ['A'] ['a'] [] 'F') ++
        [Registro.completo ['B'] ['b'] [] 'M']⟩,
      ⟨no nulo ⟨['A'], 0⟩ (novo ⟨['B'], toInt32 (2147483647 + 1)⟩)⟩⟩, ?_, hm2, ?_⟩
    · rw [e]
      exact executarPassos_ate_truncar _ _ 2147483647 (by decide)
    · intro hc
      have h0 := (hc ⟨['B'], -2 ^ 31⟩ hm2).1
      exact absurd h0 (by decide)

/-- Claim C27, amended: when every record added is not flagged deleted and at most
`2^31` records are added, the steps of the driver run from the empty store and the
empty tree end without a failure, and then every entry `(k, p)` of the tree has
`0 <= p < size` with the record at `p` not flagged deleted and of key `k`;
`EDL::buscarPorPosicao` of a search result other than `-1` succeeds with the record
of the key searched; and `gerarEDLOrdenada` gives one record per entry of the tree,
its keys being the keys of the tree in strictly ascending order. -/
theorem protocolo_mantem_consistencia (ps : List Passo)
    (hr : ∀ r, Passo.adicionar r ∈ ps → r.isDeletado = false)
    (hn : adicoes ps ≤ 2 ^ 31) :
    ∃ s, executarPassos Estado.inicial ps = Except.ok s ∧ consistente s ∧
      (∀ k, s.arquivoIndices.buscarPosicao k ≠ -1 →
        ∃ r, s.arquivoRegistros.buscarPorPosicao (s.arquivoIndices.buscarPosicao k) =
            Except.ok r ∧ r.getCpf = k ∧ r.isDeletado = false) ∧
      ∃ nova, gerarEDLOrdenada s.arquivoIndices s.arquivoRegistros = Except.ok nova ∧
        nova.dados.map Registro.getCpf = chaves s.arquivoIndices.raiz ∧
        estritamenteCrescente (nova.dados.map Registro.getCpf) := by
  have hc0 : consistente Estado.inicial := by
    intro e he
    simp [Estado.inicial, ABB.vazia, ABB.emOrdem, emOrdemRecursivo] at he
  have hB0 : ehABB Estado.inicial.arquivoIndices.raiz := by
    simp [Estado.inicial, ABB.vazia, ehABB]
  obtain ⟨s, hs, hc, hB, hsz⟩ := executarPassos_consistente ps Estado.inicial hc0 hB0 hr
    (by simpa [Estado.inicial, EDL.vazia, EDL.getTamanho] using hn)
  have h32 : ∀ e ∈ s.arquivoIndices.emOrdem, ehInt32 e.posicaoEDL := by
    intro e he
    obtain ⟨h0, h1, -⟩ := hc e he
    unfold ehInt32; constructor <;> omega
  refine ⟨s, hs, hc, ?_, ?_⟩
  · intro k hk
    have hmem : k ∈ chaves s.arquivoIndices.raiz := by
      by_contra hnot
      exact hk (buscarPosicaoLaco_ausente _ _ hnot)
    obtain ⟨e, he, rfl⟩ := (mem_chaves_iff _ _).1 hmem
    have hbe : s.arquivoIndices.buscarPosicao e.chave = e.posicaoEDL :=
      buscarPosicaoLaco_presente _ hB e he
    obtain ⟨h0, h1, r0, hr0, hr1, hr2⟩ := hc e he
    obtain ⟨r1, hr3, hr4, -⟩ :=
      buscarPorPosicao_dentro s.arquivoRegistros e.posicaoEDL (h32 e he) h0 h1
    rw [hr0] at hr3
    cases hr3
    exact ⟨r0, by rw [hbe]; exact hr4, hr2, hr1⟩
  · have ht : s.arquivoRegistros.tamanhoRepresentavel := by
      unfold EDL.tamanhoRepresentavel; omega
    refine ⟨_, gerarEDLOrdenada_eq s.arquivoRegistros ht s.arquivoIndices h32, ?_, ?_⟩
    · exact referencia_de_consistente s hc
    · show estritamenteCrescente
        ((edlOrdenadaReferencia s.arquivoIndices s.arquivoRegistros).map Registro.getCpf)
      rw [referencia_de_consistente s hc]
      exact (ehABB_iff_crescente _).1 hB

theorem protocolo_mantem_consistencia_witness :
    ∃ s, executarPassos Estado.inicial
        [Passo.adicionar (Registro.completo ['B'] ['b'] [] 'M'),
          Passo.adicionar (Registro.completo ['A'] ['a'] [] 'F'),
          Passo.apagar ['B'],
          Passo.adicionar (Registro.completo ['C'] ['c'] [] 'F')] = Except.ok s ∧
      consistente s ∧
      (∀ k, s.arquivoIndices.buscarPosicao k ≠ -1 →
        ∃ r, s.arquivoRegistros.buscarPorPosicao (s.arquivoIndices.buscarPosicao k) =
            Except.ok r ∧ r.getCpf = k ∧ r.isDeletado = false) ∧
      ∃ nova, gerarEDLOrdenada s.arquivoIndices s.arquivoRegistros = Except.ok nova ∧
        nova.dados.map Registro.getCpf = chaves s.arquivoIndices.raiz ∧
        estritamenteCrescente (nova.dados.map Registro.getCpf) :=
  protocolo_mantem_consistencia
    [Passo.adicionar (Registro.completo ['B'] ['b'] [] 'M'),
      Passo.adicionar (Registro.completo ['A'] ['a'] [] 'F'),
      Passo.apagar ['B'],
      Passo.adicionar (Registro.completo ['C'] ['c'] [] 'F')]
    (by
      intro r h
      simp only [List.mem_cons, Passo.adicionar.injEq, List.mem_singleton, reduceCtorEq,
        false_or, List.not_mem_nil, or_false] at h
      rcases h with rfl | rfl | rfl <;> rfl)
    (by decide)

/-! ## The tree on the heap -/

namespace Memoria

/-! ## Reading and writing the heap -/

theorem ler_lt (h : Heap) (a : Nat) (c : Celula) (hl : ler h a = some c) : a < h.length := by
  by_contra hge
  have : h[a]? = none := List.getElem?_eq_none (Nat.le_of_not_lt hge)
  simp [ler, this] at hl

theorem ler_set_self (h : Heap) (a : Nat) (x : Celula) (hlt : a < h.length) :
    ler (h.set a (some x)) a = some x := by
  simp [ler, List.getElem?_set, hlt]

theorem ler_set_ne (h : Heap) (a b : Nat) (x : Option Celula) (hne : a ≠ b) :
    ler (h.set a x) b = ler h b := by
  simp [ler, List.getElem?_set, hne]

theorem ler_append (h l : Heap) (a : Nat) (hlt : a < h.length) : ler (h ++ l) a = ler h a := by
  simp [ler, List.getElem?_append_left hlt]

theorem ler_alocar_novo (h : Heap) (e : EntradaIndice) :
    ler (alocar h e).1 (alocar h e).2 = some ⟨e, none, none⟩ := by
  simp [ler, alocar]

theorem ler_alocar_antigo (h : Heap) (e : EntradaIndice) (a : Nat) (hlt : a < h.length) :
    ler (alocar h e).1 a = ler h a := ler_append h _ a hlt

theorem length_alocar (h : Heap) (e : EntradaIndice) : (alocar h e).1.length = h.length + 1 := by
  simp [alocar]
theorem representa_moldura (t : NoABB) (h h2 : Heap) (p : Option Nat) (fp : List Nat)
    (hr : Representa h p t fp) (hm : ∀ a ∈ fp, ler h2 a = ler h a) : Representa h2 p t fp := by
  induction t generalizing p fp with
  | nulo => exact hr
  | no l d r ihl ihr =>
    obtain ⟨a, c, fl, fr, hp, hc, hd, hfp, hna, hdis, hl, hr2⟩ := hr
    subst hfp
    refine ⟨a, c, fl, fr, hp, ?_, hd, rfl, hna, hdis, ?_, ?_⟩
    · rw [hm a (List.mem_cons_self _ _)]; exact hc
    · exact ihl _ _ hl (fun x hx => hm x (List.mem_cons_of_mem _ (List.mem_append_left _ hx)))
    · exact ihr _ _ hr2 (fun x hx => hm x (List.mem_cons_of_mem _ (List.mem_append_right _ hx)))

theorem representa_vivo (t : NoABB) (h : Heap) (p : Option Nat) (fp : List Nat)
    (hr : Representa h p t fp) : ∀ a ∈ fp, a < h.length := by
  induction t generalizing p fp with
  | nulo => obtain ⟨_, rfl⟩ := hr; simp
  | no l d r ihl ihr =>
    obtain ⟨a, c, fl, fr, hp, hc, hd, hfp, hna, hdis, hl, hr2⟩ := hr
    subst hfp
    intro x hx
    rcases List.mem_cons.1 hx with rfl | hx
    · exact ler_lt h _ c hc
    · rcases List.mem_append.1 hx with hx | hx
      · exact ihl _ _ hl x hx
      · exact ihr _ _ hr2 x hx

/-! ## The writes -/

theorem escreverEsq_eq (h : Heap) (a : Nat) (c : Celula) (q : Option Nat)
    (hc : ler h a = some c) : escreverEsq h a q = some (h.set a (some { c with esq := q })) := by
  simp [escreverEsq, hc]

theorem escreverDir_eq (h : Heap) (a : Nat) (c : Celula) (q : Option Nat)
    (hc : ler h a = some c) : escreverDir h a q = some (h.set a (some { c with dir := q })) := by
  simp [escreverDir, hc]

theorem escreverDado_eq (h : Heap) (a : Nat) (c : Celula) (d : EntradaIndice)
    (hc : ler h a = some c) :
    escreverDado h a d = some (h.set a (some { c with dado := d })) := by
  simp [escreverDado, hc]

theorem liberar_eq (h : Heap) (a : Nat) (c : Celula) (hc : ler h a = some c) :
    liberar h a = some (h.set a none) := by
  simp [liberar, hc]

theorem representa_nodup (t : NoABB) (h : Heap) (p : Option Nat) (fp : List Nat)
    (hr : Representa h p t fp) : fp.Nodup := by
  induction t generalizing p fp with
  | nulo => obtain ⟨_, rfl⟩ := hr; simp
  | no l d r ihl ihr =>
    obtain ⟨a, c, fl, fr, hp, hc, hd, hfp, hna, hdis, hl, hr2⟩ := hr
    subst hfp
    rw [List.nodup_cons]
    exact ⟨hna, List.Nodup.append (ihl _ _ hl) (ihr _ _ hr2) hdis⟩

theorem representa_altura (t : NoABB) (h : Heap) (p : Option Nat) (fp : List Nat)
    (hr : Representa h p t fp) : altura t ≤ fp.length := by
  induction t generalizing p fp with
  | nulo => simp [altura]
  | no l d r ihl ihr =>
    obtain ⟨a, c, fl, fr, hp, hc, hd, hfp, hna, hdis, hl, hr2⟩ := hr
    subst hfp
    have h1 := ihl _ _ hl
    have h2 := ihr _ _ hr2
    simp only [altura, List.length_cons, List.length_append]
    omega

theorem representa_limite (t : NoABB) (h : Heap) (p : Option Nat) (fp : List Nat)
    (hr : Representa h p t fp) : altura t < limiteDe h := by
  have h1 := representa_altura t h p fp hr
  have h2 : fp.length ≤ (List.range h.length).length :=
    (List.subperm_of_subset (representa_nodup t h p fp hr)
      (fun a ha => List.mem_range.2 (representa_vivo t h p fp hr a ha))).length_le
  simp only [List.length_range] at h2
  unfold limiteDe
  omega

/-! ## Reading a tree -/

theorem buscarPosicaoLaco_representa (t : NoABB) (h : Heap) (p : Option Nat) (fp : List Nat)
    (hr : Representa h p t fp) (n : Nat) (hn : altura t < n) (k : StdString) :
    buscarPosicaoLaco n h p k = some (ArvoreBinaria.buscarPosicaoLaco t k) := by
  induction t generalizing p fp n with
  | nulo =>
    obtain ⟨rfl, _⟩ := hr
    obtain ⟨m, rfl⟩ : ∃ m, n = m + 1 := ⟨n - 1, by omega⟩
    rfl
  | no l d r ihl ihr =>
    obtain ⟨a, c, fl, fr, rfl, hc, rfl, hfp, hna, hdis, hl, hr2⟩ := hr
    obtain ⟨m, rfl⟩ : ∃ m, n = m + 1 := ⟨n - 1, by omega⟩
    simp only [altura] at hn
    have h1 := ihl _ _ hl m (by omega)
    have h2 := ihr _ _ hr2 m (by omega)
    simp only [buscarPosicaoLaco, ArvoreBinaria.buscarPosicaoLaco, hc, Option.bind_eq_bind,
      Option.some_bind, h1, h2]
    split_ifs <;> rfl

theorem emOrdemRecursivo_representa (t : NoABB) (h : Heap) (p : Option Nat) (fp : List Nat)
    (hr : Representa h p t fp) (n : Nat) (hn : altura t < n) :
    emOrdemRecursivo n h p = some (ArvoreBinaria.emOrdemRecursivo t) := by
  induction t generalizing p fp n with
  | nulo =>
    obtain ⟨rfl, _⟩ := hr
    obtain ⟨m, rfl⟩ : ∃ m, n = m + 1 := ⟨n - 1, by omega⟩
    rfl
  | no l d r ihl ihr =>
    obtain ⟨a, c, fl, fr, rfl, hc, rfl, hfp, hna, hdis, hl, hr2⟩ := hr
    obtain ⟨m, rfl⟩ : ∃ m, n = m + 1 := ⟨n - 1, by omega⟩
    simp only [altura] at hn
    have h1 := ihl _ _ hl m (by omega)
    have h2 := ihr _ _ hr2 m (by omega)
    simp only [emOrdemRecursivo, ArvoreBinaria.emOrdemRecursivo, hc, Option.bind_eq_bind,
      Option.some_bind, h1, h2]
    rfl

/-! ## Deep copy -/

theorem copiarRecursivo_representa (t : NoABB) (h : Heap) (p : Option Nat) (fp : List Nat)
    (hr : Representa h p t fp) (n : Nat) (hn : altura t < n) :
    ∃ h2 q fq, copiarRecursivo n h p = some (h2, q) ∧ Representa h2 q t fq ∧
      (∀ a ∈ fq, h.length ≤ a) ∧ h.length ≤ h2.length ∧
      ∀ a, a < h.length → ler h2 a = ler h a := by
  induction t generalizing h p fp n with
  | nulo =>
    obtain ⟨rfl, _⟩ := hr
    obtain ⟨m, rfl⟩ : ∃ m, n = m + 1 := ⟨n - 1, by omega⟩
    exact ⟨h, none, [], rfl, ⟨rfl, rfl⟩, by simp, le_refl _, fun _ _ => rfl⟩
  | no l d r ihl ihr =>
    obtain ⟨a, c, fl, fr, rfl, hc, rfl, hfp, hna, hdis, hl, hr2⟩ := hr
    obtain ⟨m, rfl⟩ : ∃ m, n = m + 1 := ⟨n - 1, by omega⟩
    simp only [altura] at hn
    have ha : a < h.length := ler_lt h a c hc
    -- the new node
    have hc1 : ler (alocar h c.dado).1 a = some c := by rw [ler_alocar_antigo h _ a ha]; exact hc
    have hlen1 := length_alocar h c.dado
    -- the copy of the left subtree
    have hl1 : Representa (alocar h c.dado).1 c.esq l fl :=
      representa_moldura l h _ _ _ hl
        (fun x hx => ler_alocar_antigo h _ x (representa_vivo l h _ _ hl x hx))
    obtain ⟨h2, e, fe, he, hre, hfe, hlen2, hm2⟩ := ihl _ _ _ hl1 m (by omega)
    have hnovo2 : ler h2 h.length = some ⟨c.dado, none, none⟩ := by
      rw [hm2 h.length (by omega)]; exact ler_alocar_novo h c.dado
    have hw1 : escreverEsq h2 h.length e = some (h2.set h.length (some ⟨c.dado, e, none⟩)) :=
      escreverEsq_eq h2 h.length _ e hnovo2
    have hc3 : ler (h2.set h.length (some ⟨c.dado, e, none⟩)) a = some c := by
      rw [ler_set_ne _ _ _ _ (by omega), hm2 a (by omega)]; exact hc1
    -- the copy of the right subtree
    have hr3 : Representa (h2.set h.length (some ⟨c.dado, e, none⟩)) c.dir r fr := by
      apply representa_moldura r h _ _ _ hr2
      intro x hx
      have hxl := representa_vivo r h _ _ hr2 x hx
      rw [ler_set_ne _ _ _ _ (by omega), hm2 x (by omega)]
      exact ler_alocar_antigo h _ x hxl
    obtain ⟨h4, d2, fd, hd, hrd, hfd, hlen4, hm4⟩ := ihr _ _ _ hr3 m (by omega)
    simp only [List.length_set] at hfd hlen4 hm4
    have hnovo4 : ler h4 h.length = some ⟨c.dado, e, none⟩ := by
      rw [hm4 h.length (by omega)]
      exact ler_set_self h2 _ _ (by omega)
    have hw2 : escreverDir h4 h.length d2 = some (h4.set h.length (some ⟨c.dado, e, d2⟩)) :=
      escreverDir_eq h4 h.length _ d2 hnovo4
    refine ⟨h4.set h.length (some ⟨c.dado, e, d2⟩), some h.length, h.length :: (fe ++ fd),
      ?_, ?_, ?_, ?_, ?_⟩
    · have hnovo : (alocar h c.dado).2 = h.length := rfl
      simp only [copiarRecursivo, hc, Option.bind_eq_bind, Option.some_bind, hc1, he, hnovo,
        hw1, hc3, hd, hw2]
      rfl
    · have hfe2 : ∀ x ∈ fe, x < h2.length := representa_vivo l h2 _ _ hre
      refine ⟨h.length, ⟨c.dado, e, d2⟩, fe, fd, rfl, ler_set_self h4 _ _ (by omega), rfl, rfl,
        ?_, ?_, ?_, ?_⟩
      · intro hmem
        rcases List.mem_append.1 hmem with hx | hx
        · have := hfe _ hx; omega
        · have := hfd _ hx; omega
      · intro x hx1 hx2
        have := hfe2 x hx1
        have := hfd x hx2
        omega
      · apply representa_moldura l h2 _ _ _ hre
        intro x hx
        have := hfe x hx
        have := hfe2 x hx
        rw [ler_set_ne _ _ _ _ (by omega), hm4 x (by omega), ler_set_ne _ _ _ _ (by omega)]
      · apply representa_moldura r h4 _ _ _ hrd
        intro x hx
        have := hfd x hx
        rw [ler_set_ne _ _ _ _ (by omega)]
    · intro x hx
      rcases List.mem_cons.1 hx with rfl | hx
      · exact le_refl _
      · rcases List.mem_append.1 hx with hx | hx
        · have := hfe _ hx; omega
        · have := hfd _ hx; omega
    · simp only [List.length_set]; omega
    · intro x hx
      rw [ler_set_ne _ _ _ _ (by omega), hm4 x (by omega), ler_set_ne _ _ _ _ (by omega),
        hm2 x (by omega)]
      exact ler_alocar_antigo h _ x hx

/-! ## Insertion -/

theorem inserirRecursivo_representa (t : NoABB) (h : Heap) (p : Option Nat) (fp : List Nat)
    (hr : Representa h p t fp) (n : Nat) (hn : altura t < n) (e : EntradaIndice) :
    ∃ h2 q fq, inserirRecursivo n h p e = some (h2, q, (ArvoreBinaria.inserirRecursivo t e).2) ∧
      Representa h2 q (ArvoreBinaria.inserirRecursivo t e).1 fq ∧
      (∀ a ∈ fq, a ∈ fp ∨ h.length ≤ a) ∧ h.length ≤ h2.length ∧
      ∀ a, a < h.length → a ∉ fp → ler h2 a = ler h a := by
  induction t generalizing h p fp n with
  | nulo =>
    obtain ⟨rfl, rfl⟩ := hr
    obtain ⟨m, rfl⟩ : ∃ m, n = m + 1 := ⟨n - 1, by omega⟩
    refine ⟨(alocar h e).1, some h.length, [h.length], rfl, ?_, ?_, ?_, ?_⟩
    · exact ⟨h.length, ⟨e, none, none⟩, [], [], rfl, ler_alocar_novo h e, rfl, rfl, by simp,
        by simp, ⟨rfl, rfl⟩, ⟨rfl, rfl⟩⟩
    · simp
    · rw [length_alocar]; omega
    · intro a ha _; exact ler_alocar_antigo h e a ha
  | no l d r ihl ihr =>
    obtain ⟨a, c, fl, fr, rfl, hc, rfl, rfl, hna, hdis, hl, hr2⟩ := hr
    obtain ⟨m, rfl⟩ : ∃ m, n = m + 1 := ⟨n - 1, by omega⟩
    simp only [altura] at hn
    have ha : a < h.length := ler_lt h a c hc
    have hvl := representa_vivo l h _ _ hl
    have hvr := representa_vivo r h _ _ hr2
    have hnal : a ∉ fl := fun hx => hna (List.mem_append_left _ hx)
    have hnar : a ∉ fr := fun hx => hna (List.mem_append_right _ hx)
    by_cases hlt : e.lt c.dado = true
    · obtain ⟨h1, q1, fq1, hi, hri, hfq, hlen, hm⟩ := ihl _ _ _ hl m (by omega)
      have hc1 : ler h1 a = some c := by rw [hm a ha hnal]; exact hc
      have hw : escreverEsq h1 a q1 = some (h1.set a (some ⟨c.dado, q1, c.dir⟩)) :=
        escreverEsq_eq h1 a c q1 hc1
      have hnaq : a ∉ fq1 := by
        intro hx
        rcases hfq a hx with h3 | h3
        · exact hnal h3
        · omega
      refine ⟨h1.set a (some ⟨c.dado, q1, c.dir⟩), some a, a :: (fq1 ++ fr), ?_, ?_, ?_, ?_, ?_⟩
      · simp only [inserirRecursivo, ArvoreBinaria.inserirRecursivo, hc, Option.bind_eq_bind,
          Option.some_bind, hlt, if_true, hi, hw]
        rfl
      · simp only [ArvoreBinaria.inserirRecursivo, hlt, if_true]
        refine ⟨a, ⟨c.dado, q1, c.dir⟩, fq1, fr, rfl, ler_set_self h1 _ _ (by omega), rfl, rfl,
          ?_, ?_, ?_, ?_⟩
        · intro hx
          rcases List.mem_append.1 hx with hx | hx
          · exact hnaq hx
          · exact hnar hx
        · intro x hx1 hx2
          rcases hfq x hx1 with h3 | h3
          · exact hdis h3 hx2
          · have := hvr x hx2; omega
        · apply representa_moldura _ h1 _ _ _ hri
          intro x hx
          rw [ler_set_ne _ _ _ _ (ne_of_mem_of_not_mem hx hnaq).symm]
        · apply representa_moldura _ h _ _ _ hr2
          intro x hx
          rw [ler_set_ne _ _ _ _ (ne_of_mem_of_not_mem hx hnar).symm]
          exact hm x (hvr x hx) (fun h3 => hdis h3 hx)
      · intro x hx
        rcases List.mem_cons.1 hx with rfl | hx
        · exact Or.inl (List.mem_cons_self _ _)
        · rcases List.mem_append.1 hx with hx | hx
          · rcases hfq x hx with h3 | h3
            · exact Or.inl (List.mem_cons_of_mem _ (List.mem_append_left _ h3))
            · exact Or.inr h3
          · exact Or.inl (List.mem_cons_of_mem _ (List.mem_append_right _ hx))
      · simp only [List.length_set]; exact hlen
      · intro x hx hnx
        simp only [List.mem_cons, List.mem_append, not_or] at hnx
        rw [ler_set_ne _ _ _ _ (fun h3 => hnx.1 h3.symm)]
        exact hm x hx hnx.2.1
    · by_cases hgt : e.gt c.dado = true
      · obtain ⟨h1, q1, fq1, hi, hri, hfq, hlen, hm⟩ := ihr _ _ _ hr2 m (by omega)
        have hc1 : ler h1 a = some c := by rw [hm a ha hnar]; exact hc
        have hw : escreverDir h1 a q1 = some (h1.set a (some ⟨c.dado, c.esq, q1⟩)) :=
          escreverDir_eq h1 a c q1 hc1
        have hnaq : a ∉ fq1 := by
          intro hx
          rcases hfq a hx with h3 | h3
          · exact hnar h3
          · omega
        refine ⟨h1.set a (some ⟨c.dado, c.esq, q1⟩), some a, a :: (fl ++ fq1), ?_, ?_, ?_, ?_, ?_⟩
        · simp only [inserirRecursivo, ArvoreBinaria.inserirRecursivo, hc, Option.bind_eq_bind,
            Option.some_bind, hlt, hgt, if_true, if_false, hi, hw]
          rfl
        · simp only [ArvoreBinaria.inserirRecursivo, hlt, hgt, if_true, if_false]
          refine ⟨a, ⟨c.dado, c.esq, q1⟩, fl, fq1, rfl, ler_set_self h1 _ _ (by omega), rfl, rfl,
            ?_, ?_, ?_, ?_⟩
          · intro hx
            rcases List.mem_append.1 hx with hx | hx
            · exact hnal hx
            · exact hnaq hx
          · intro x hx1 hx2
            rcases hfq x hx2 with h3 | h3
            · exact hdis hx1 h3
            · have := hvl x hx1; omega
          · apply representa_moldura _ h _ _ _ hl
            intro x hx
            rw [ler_set_ne _ _ _ _ (ne_of_mem_of_not_mem hx hnal).symm]
            exact hm x (hvl x hx) (fun h3 => hdis hx h3)
          · apply representa_moldura _ h1 _ _ _ hri
            intro x hx
            rw [ler_set_ne _ _ _ _ (ne_of_mem_of_not_mem hx hnaq).symm]
        · intro x hx
          rcases List.mem_cons.1 hx with rfl | hx
          · exact Or.inl (List.mem_cons_self _ _)
          · rcases List.mem_append.1 hx with hx | hx
            · exact Or.inl (List.mem_cons_of_mem _ (List.mem_append_left _ hx))
            · rcases hfq x hx with h3 | h3
              · exact Or.inl (List.mem_cons_of_mem _ (List.mem_append_right _ h3))
              · exact Or.inr h3
        · simp only [List.length_set]; exact hlen
        · intro x hx hnx
          simp only [List.mem_cons, List.mem_append, not_or] at hnx
          rw [ler_set_ne _ _ _ _ (fun h3 => hnx.1 h3.symm)]
          exact hm x hx hnx.2.2
      · refine ⟨h, some a, a :: (fl ++ fr), ?_, ?_, fun x hx => Or.inl hx, le_refl _,
          fun _ _ _ => rfl⟩
        · simp only [inserirRecursivo, ArvoreBinaria.inserirRecursivo, hc, Option.bind_eq_bind,
            Option.some_bind, hlt, hgt, if_false]
          rfl
        · simp only [ArvoreBinaria.inserirRecursivo, hlt, hgt, if_false]
          exact ⟨a, c, fl, fr, rfl, hc, rfl, rfl, hna, hdis, hl, hr2⟩

/-! ## Destruction and removal -/

theorem representa_isNone (t : NoABB) (h : Heap) (p : Option Nat) (fp : List Nat)
    (hr : Representa h p t fp) : p.isNone = t.ehNulo := by
  cases t with
  | nulo => obtain ⟨rfl, _⟩ := hr; rfl
  | no l d r => obtain ⟨a, c, fl, fr, rfl, _⟩ := hr; rfl

theorem destruirRecursivo_representa (t : NoABB) (h : Heap) (p : Option Nat) (fp : List Nat)
    (hr : Representa h p t fp) (n : Nat) (hn : altura t < n) :
    ∃ h2, destruirRecursivo n h p = some h2 ∧ h2.length = h.length ∧
      ∀ a, a ∉ fp → ler h2 a = ler h a := by
  induction t generalizing h p fp n with
  | nulo =>
    obtain ⟨rfl, rfl⟩ := hr
    obtain ⟨m, rfl⟩ : ∃ m, n = m + 1 := ⟨n - 1, by omega⟩
    exact ⟨h, rfl, rfl, fun _ _ => rfl⟩
  | no l d r ihl ihr =>
    obtain ⟨a, c, fl, fr, rfl, hc, rfl, rfl, hna, hdis, hl, hr2⟩ := hr
    obtain ⟨m, rfl⟩ : ∃ m, n = m + 1 := ⟨n - 1, by omega⟩
    simp only [altura] at hn
    have hnal : a ∉ fl := fun hx => hna (List.mem_append_left _ hx)
    have hnar : a ∉ fr := fun hx => hna (List.mem_append_right _ hx)
    obtain ⟨h1, hd1, hlen1, hm1⟩ := ihl _ _ _ hl m (by omega)
    have hc1 : ler h1 a = some c := by rw [hm1 a hnal]; exact hc
    have hr1 : Representa h1 c.dir r fr :=
      representa_moldura r h _ _ _ hr2 (fun x hx => hm1 x (fun h3 => hdis h3 hx))
    obtain ⟨h2, hd2, hlen2, hm2⟩ := ihr _ _ _ hr1 m (by omega)
    have hc2 : ler h2 a = some c := by rw [hm2 a hnar]; exact hc1
    refine ⟨h2.set a none, ?_, ?_, ?_⟩
    · simp only [destruirRecursivo, hc, Option.bind_eq_bind, Option.some_bind, hd1, hc1, hd2,
        liberar_eq h2 a c hc2]
    · simp only [List.length_set]; omega
    · intro x hnx
      simp only [List.mem_cons, List.mem_append, not_or] at hnx
      rw [ler_set_ne _ _ _ _ (fun h3 => hnx.1 h3.symm), hm2 x hnx.2.2, hm1 x hnx.2.1]

theorem encontrarMin_representa (t : NoABB) (h : Heap) (p : Option Nat) (fp : List Nat)
    (hr : Representa h p t fp) (hnn : t.ehNulo = false) (n : Nat) (hn : altura t < n) :
    ∃ m cm tm, encontrarMin n h p = some m ∧ m ∈ fp ∧ ler h m = some cm ∧
      ArvoreBinaria.encontrarMin t = some tm ∧ tm.dado? = some cm.dado := by
  induction t generalizing p fp n with
  | nulo => simp [ehNulo] at hnn
  | no l d r ihl _ =>
    obtain ⟨a, c, fl, fr, rfl, hc, rfl, rfl, hna, hdis, hl, hr2⟩ := hr
    obtain ⟨m, rfl⟩ : ∃ m, n = m + 1 := ⟨n - 1, by omega⟩
    simp only [altura] at hn
    cases hln : l.ehNulo
    · have hnone : c.esq.isNone = false := by rw [representa_isNone l h _ _ hl]; exact hln
      obtain ⟨e, he⟩ : ∃ e, c.esq = some e := by
        cases hce : c.esq with
        | none => simp [hce] at hnone
        | some e => exact ⟨e, rfl⟩
      obtain ⟨x, cx, tx, h1, h2, h3, h4, h5⟩ := ihl _ _ hl hln m (by omega)
      refine ⟨x, cx, tx, ?_, List.mem_cons_of_mem _ (List.mem_append_left _ h2), h3, ?_, h5⟩
      · rw [he] at h1
        simp only [encontrarMin, hc, Option.bind_eq_bind, Option.some_bind, he]
        exact h1
      · simp only [ArvoreBinaria.encontrarMin, hln]
        exact h4
    · have hnone : c.esq.isNone = true := by rw [representa_isNone l h _ _ hl]; exact hln
      have he : c.esq = none := by
        cases hce : c.esq with
        | none => rfl
        | some e => simp [hce] at hnone
      refine ⟨a, c, no l c.dado r, ?_, List.mem_cons_self _ _, hc, ?_, rfl⟩
      · simp only [encontrarMin, hc, Option.bind_eq_bind, Option.some_bind, he]
        rfl
      · simp [ArvoreBinaria.encontrarMin, hln]

theorem removerRecursivo_representa (t : NoABB) (h : Heap) (p : Option Nat) (fp : List Nat)
    (hr : Representa h p t fp) (n : Nat) (hn : altura t < n) (k : StdString) :
    ∃ h2 q fq res, ArvoreBinaria.removerRecursivo t k = some res ∧
      removerRecursivo n h p k = some (h2, q, res.2) ∧ Representa h2 q res.1 fq ∧
      (∀ a ∈ fq, a ∈ fp) ∧ h2.length = h.length ∧ ∀ a, a ∉ fp → ler h2 a = ler h a := by
  induction t generalizing h p fp n k with
  | nulo =>
    obtain ⟨rfl, rfl⟩ := hr
    obtain ⟨m, rfl⟩ : ∃ m, n = m + 1 := ⟨n - 1, by omega⟩
    exact ⟨h, none, [], _, rfl, rfl, ⟨rfl, rfl⟩, fun _ hx => hx, rfl, fun _ _ => rfl⟩
  | no l d r ihl ihr =>
    obtain ⟨a, c, fl, fr, rfl, hc, rfl, rfl, hna, hdis, hl, hr2⟩ := hr
    obtain ⟨m, rfl⟩ : ∃ m, n = m + 1 := ⟨n - 1, by omega⟩
    simp only [altura] at hn
    have ha : a < h.length := ler_lt h a c hc
    have hnal : a ∉ fl := fun hx => hna (List.mem_append_left _ hx)
    have hnar : a ∉ fr := fun hx => hna (List.mem_append_right _ hx)
    by_cases hlt : k < c.dado.getChave
    · obtain ⟨h1, q1, fq1, r1, hv, hi, hri, hfq, hlen, hm⟩ := ihl _ _ _ hl m (by omega) k
      have hc1 : ler h1 a = some c := by rw [hm a hnal]; exact hc
      have hw : escreverEsq h1 a q1 = some (h1.set a (some ⟨c.dado, q1, c.dir⟩)) :=
        escreverEsq_eq h1 a c q1 hc1
      have hnaq : a ∉ fq1 := fun hx => hnal (hfq a hx)
      refine ⟨h1.set a (some ⟨c.dado, q1, c.dir⟩), some a, a :: (fq1 ++ fr),
        (no r1.1 c.dado r, r1.2), ?_, ?_, ?_, ?_, ?_, ?_⟩
      · simp only [ArvoreBinaria.removerRecursivo, hlt, if_true, hv]
      · simp only [removerRecursivo, hc, Option.bind_eq_bind, Option.some_bind, hlt, if_true,
          hi, hw]
        rfl
      · refine ⟨a, ⟨c.dado, q1, c.dir⟩, fq1, fr, rfl, ler_set_self h1 _ _ (by omega), rfl, rfl,
          ?_, ?_, ?_, ?_⟩
        · intro hx
          rcases List.mem_append.1 hx with hx | hx
          · exact hnaq hx
          · exact hnar hx
        · intro x hx1 hx2
          exact hdis (hfq x hx1) hx2
        · apply representa_moldura _ h1 _ _ _ hri
          intro x hx
          rw [ler_set_ne _ _ _ _ (ne_of_mem_of_not_mem hx hnaq).symm]
        · apply representa_moldura _ h _ _ _ hr2
          intro x hx
          rw [ler_set_ne _ _ _ _ (ne_of_mem_of_not_mem hx hnar).symm]
          exact hm x (fun h3 => hdis h3 hx)
      · intro x hx
        rcases List.mem_cons.1 hx with rfl | hx
        · exact List.mem_cons_self _ _
        · rcases List.mem_append.1 hx with hx | hx
          · exact List.mem_cons_of_mem _ (List.mem_append_left _ (hfq x hx))
          · exact List.mem_cons_of_mem _ (List.mem_append_right _ hx)
      · simp only [List.length_set]; exact hlen
      · intro x hnx
        simp only [List.mem_cons, List.mem_append, not_or] at hnx
        rw [ler_set_ne _ _ _ _ (fun h3 => hnx.1 h3.symm)]
        exact hm x hnx.2.1
    · by_cases hgt : k > c.dado.getChave
      · obtain ⟨h1, q1, fq1, r1, hv, hi, hri, hfq, hlen, hm⟩ := ihr _ _ _ hr2 m (by omega) k
        have hc1 : ler h1 a = some c := by rw [hm a hnar]; exact hc
        have hw : escreverDir h1 a q1 = some (h1.set a (some ⟨c.dado, c.esq, q1⟩)) :=
          escreverDir_eq h1 a c q1 hc1
        have hnaq : a ∉ fq1 := fun hx => hnar (hfq a hx)
        refine ⟨h1.set a (some ⟨c.dado, c.esq, q1⟩), some a, a :: (fl ++ fq1),
          (no l c.dado r1.1, r1.2), ?_, ?_, ?_, ?_, ?_, ?_⟩
        · simp only [ArvoreBinaria.removerRecursivo, hlt, hgt, if_true, if_false, hv]
        · simp only [removerRecursivo, hc, Option.bind_eq_bind, Option.some_bind, hlt, hgt,
            if_true, if_false, hi, hw]
          rfl
        · refine ⟨a, ⟨c.dado, c.esq, q1⟩, fl, fq1, rfl, ler_set_self h1 _ _ (by omega), rfl,
            rfl, ?_, ?_, ?_, ?_⟩
          · intro hx
            rcases List.mem_append.1 hx with hx | hx
            · exact hnal hx
            · exact hnaq hx
          · intro x hx1 hx2
            exact hdis hx1 (hfq x hx2)
          · apply representa_moldura _ h _ _ _ hl
            intro x hx
            rw [ler_set_ne _ _ _ _ (ne_of_mem_of_not_mem hx hnal).symm]
            exact hm x (fun h3 => hdis hx h3)
          · apply representa_moldura _ h1 _ _ _ hri
            intro x hx
            rw [ler_set_ne _ _ _ _ (ne_of_mem_of_not_mem hx hnaq).symm]
        · intro x hx
          rcases List.mem_cons.1 hx with rfl | hx
          · exact List.mem_cons_self _ _
          · rcases List.mem_append.1 hx with hx | hx
            · exact List.mem_cons_of_mem _ (List.mem_append_left _ hx)
            · exact List.mem_cons_of_mem _ (List.mem_append_right _ (hfq x hx))
        · simp only [List.length_set]; exact hlen
        · intro x hnx
          simp only [List.mem_cons, List.mem_append, not_or] at hnx
          rw [ler_set_ne _ _ _ _ (fun h3 => hnx.1 h3.symm)]
          exact hm x hnx.2.2
      · have hel := representa_isNone l h _ _ hl
        have her := representa_isNone r h _ _ hr2
        by_cases hle : l.ehNulo = true
        · -- no left child: the node is deleted and its right child returned
          refine ⟨h.set a none, c.dir, fr, (r, []), ?_, ?_, ?_, ?_, ?_, ?_⟩
          · simp only [ArvoreBinaria.removerRecursivo, hlt, hgt, if_false, hle, if_true]
          · simp only [removerRecursivo, hc, Option.bind_eq_bind, Option.some_bind, hlt, hgt,
              if_false, hel, hle, if_true, liberar_eq h a c hc]
            rfl
          · apply representa_moldura _ h _ _ _ hr2
            intro x hx
            rw [ler_set_ne _ _ _ _ (ne_of_mem_of_not_mem hx hnar).symm]
          · intro x hx
            exact List.mem_cons_of_mem _ (List.mem_append_right _ hx)
          · simp only [List.length_set]
          · intro x hnx
            simp only [List.mem_cons, List.mem_append, not_or] at hnx
            rw [ler_set_ne _ _ _ _ (fun h3 => hnx.1 h3.symm)]
        · by_cases hre : r.ehNulo = true
          · refine ⟨h.set a none, c.esq, fl, (l, []), ?_, ?_, ?_, ?_, ?_, ?_⟩
            · simp [ArvoreBinaria.removerRecursivo, hlt, hgt, hle, hre]
            · simp only [removerRecursivo, hc, Option.bind_eq_bind, Option.some_bind, hlt, hgt,
                if_false, hel, her, hle, hre, if_true, liberar_eq h a c hc]
              rfl
            · apply representa_moldura _ h _ _ _ hl
              intro x hx
              rw [ler_set_ne _ _ _ _ (ne_of_mem_of_not_mem hx hnal).symm]
            · intro x hx
              exact List.mem_cons_of_mem _ (List.mem_append_left _ hx)
            · simp only [List.length_set]
            · intro x hnx
              simp only [List.mem_cons, List.mem_append, not_or] at hnx
              rw [ler_set_ne _ _ _ _ (fun h3 => hnx.1 h3.symm)]
          · -- two children
            obtain ⟨tmp, ct, tm, hmin, htmp, hct, hvmin, hvd⟩ :=
              encontrarMin_representa r h _ _ hr2 (by simpa using hre) m (by omega)
            have htmpa : a ≠ tmp := (ne_of_mem_of_not_mem htmp hnar).symm
            have hw1 : escreverDado h a ct.dado = some (h.set a (some ⟨ct.dado, c.esq, c.dir⟩)) :=
              escreverDado_eq h a c ct.dado hc
            have hc1 : ler (h.set a (some ⟨ct.dado, c.esq, c.dir⟩)) a =
                some ⟨ct.dado, c.esq, c.dir⟩ := ler_set_self h a _ ha
            have hct1 : ler (h.set a (some ⟨ct.dado, c.esq, c.dir⟩)) tmp = some ct := by
              rw [ler_set_ne _ _ _ _ htmpa]; exact hct
            have hr1 : Representa (h.set a (some ⟨ct.dado, c.esq, c.dir⟩)) c.dir r fr := by
              apply representa_moldura _ h _ _ _ hr2
              intro x hx
              rw [ler_set_ne _ _ _ _ (ne_of_mem_of_not_mem hx hnar).symm]
            obtain ⟨h3, q3, fq3, r3, hv, hi, hri, hfq, hlen, hm⟩ :=
              ihr _ _ _ hr1 m (by omega) ct.dado.getChave
            simp only [List.length_set] at hlen
            have hc3 : ler h3 a = some ⟨ct.dado, c.esq, c.dir⟩ := by rw [hm a hnar]; exact hc1
            have hw3 : escreverDir h3 a q3 = some (h3.set a (some ⟨ct.dado, c.esq, q3⟩)) :=
              escreverDir_eq h3 a _ q3 hc3
            have hnaq : a ∉ fq3 := fun hx => hnar (hfq a hx)
            refine ⟨h3.set a (some ⟨ct.dado, c.esq, q3⟩), some a, a :: (fl ++ fq3),
              (no l ct.dado r3.1, r3.2), ?_, ?_, ?_, ?_, ?_, ?_⟩
            · simp [ArvoreBinaria.removerRecursivo, hlt, hgt, hle, hre, hvmin, hvd, hv]
            · simp only [removerRecursivo, hc, Option.bind_eq_bind, Option.some_bind, hlt, hgt,
                if_false, hel, her, hle, hre, hmin, hct, hw1, hc1, hct1, hi, hw3]
              rfl
            · refine ⟨a, ⟨ct.dado, c.esq, q3⟩, fl, fq3, rfl, ler_set_self h3 _ _ (by omega), rfl,
                rfl, ?_, ?_, ?_, ?_⟩
              · intro hx
                rcases List.mem_append.1 hx with hx | hx
                · exact hnal hx
                · exact hnaq hx
              · intro x hx1 hx2
                exact hdis hx1 (hfq x hx2)
              · apply representa_moldura _ h _ _ _ hl
                intro x hx
                rw [ler_set_ne _ _ _ _ (ne_of_mem_of_not_mem hx hnal).symm,
                  hm x (fun h3 => hdis hx h3),
                  ler_set_ne _ _ _ _ (ne_of_mem_of_not_mem hx hnal).symm]
              · apply representa_moldura _ h3 _ _ _ hri
                intro x hx
                rw [ler_set_ne _ _ _ _ (ne_of_mem_of_not_mem hx hnaq).symm]
            · intro x hx
              rcases List.mem_cons.1 hx with rfl | hx
              · exact List.mem_cons_self _ _
              · rcases List.mem_append.1 hx with hx | hx
                · exact List.mem_cons_of_mem _ (List.mem_append_left _ hx)
                · exact List.mem_cons_of_mem _ (List.mem_append_right _ (hfq x hx))
            · simp only [List.length_set]; exact hlen
            · intro x hnx
              simp only [List.mem_cons, List.mem_append, not_or] at hnx
              rw [ler_set_ne _ _ _ _ (fun h3 => hnx.1 h3.symm), hm x hnx.2.2,
                ler_set_ne _ _ _ _ (fun h3 => hnx.1 h3.symm)]

/-! ## Two trees in one heap -/

theorem chamada_representa (h : Heap) (a : ABB) (u : NoABB) (fq : List Nat)
    (hrq : Representa h a.raiz u fq) (c : Chamada) :
    ∃ h2 a2 u2 fq2, executar h a [c] = some (h2, a2) ∧ valorApos u [c] = some u2 ∧
      Representa h2 a2.raiz u2 fq2 ∧ (∀ x ∈ fq2, x ∈ fq ∨ h.length ≤ x) ∧
      h.length ≤ h2.length ∧ ∀ x, x < h.length → x ∉ fq → ler h2 x = ler h x := by
  have hlim := representa_limite u h _ _ hrq
  cases c with
  | inserir e =>
    obtain ⟨h2, q, fq2, hi, hri, hf, hlen, hm⟩ :=
      inserirRecursivo_representa u h _ _ hrq _ hlim e
    refine ⟨h2, ⟨q⟩, _, fq2, ?_, rfl, hri, hf, hlen, hm⟩
    simp [executar, ABB.inserir, hi]
  | remover k =>
    obtain ⟨h2, q, fq2, res, hv, hi, hri, hf, hlen, hm⟩ :=
      removerRecursivo_representa u h _ _ hrq _ hlim k
    refine ⟨h2, ⟨q⟩, res.1, fq2, ?_, ?_, hri, fun x hx => Or.inl (hf x hx), by omega,
      fun x _ hx => hm x hx⟩
    · simp [executar, ABB.remover, hi]
    · simp [valorApos, hv]
  | deletarABB =>
    obtain ⟨h2, hd, hlen, hm⟩ := destruirRecursivo_representa u h _ _ hrq _ hlim
    refine ⟨h2, ⟨none⟩, nulo, [], ?_, rfl, ⟨rfl, rfl⟩, by simp, by omega,
      fun x _ hx => hm x hx⟩
    simp [executar, ABB.deletarABB, hd]

theorem executar_representa (cs : List Chamada) (h : Heap) (a : ABB) (u : NoABB)
    (fq : List Nat) (hrq : Representa h a.raiz u fq) (p : Option Nat) (t : NoABB)
    (fp : List Nat) (hrp : Representa h p t fp) (hdis : List.Disjoint fp fq) :
    ∃ h2 a2 u2 fq2, executar h a cs = some (h2, a2) ∧ valorApos u cs = some u2 ∧
      Representa h2 a2.raiz u2 fq2 ∧ Representa h2 p t fp ∧ List.Disjoint fp fq2 := by
  induction cs generalizing h a u fq with
  | nil => exact ⟨h, a, u, fq, rfl, rfl, hrq, hrp, hdis⟩
  | cons c cs ih =>
    obtain ⟨h1, a1, u1, fq1, he, hv, hr1, hf, hlen, hm⟩ := chamada_representa h a u fq hrq c
    have hvp := representa_vivo t h p fp hrp
    have hrp1 : Representa h1 p t fp :=
      representa_moldura t h h1 p fp hrp (fun x hx => hm x (hvp x hx) (fun h3 => hdis hx h3))
    have hdis1 : List.Disjoint fp fq1 := by
      intro x hx1 hx2
      rcases hf x hx2 with h3 | h3
      · exact hdis hx1 h3
      · have := hvp x hx1; omega
    obtain ⟨h2, a2, u2, fq2, he2, hv2, hr2, hrp2, hdis2⟩ := ih h1 a1 u1 fq1 hr1 hrp1 hdis1
    refine ⟨h2, a2, u2, fq2, ?_, ?_, hr2, hrp2, hdis2⟩
    · cases c with
      | inserir e =>
        simp only [executar] at he ⊢
        split at he
        · cases he
        · cases he; exact he2
      | remover k =>
        simp only [executar] at he ⊢
        split at he
        · cases he
        · cases he; exact he2
      | deletarABB =>
        simp only [executar] at he ⊢
        split at he
        · cases he
        · cases he; exact he2
    · cases c with
      | inserir e => exact hv2 ▸ (by simp only [valorApos] at hv ⊢; cases hv; rfl)
      | remover k =>
        simp only [valorApos] at hv ⊢
        split at hv
        · cases hv
        · cases hv; exact hv2
      | deletarABB => simp only [valorApos] at hv ⊢; cases hv; exact hv2

theorem copia_representa (h : Heap) (original : ABB) (t : NoABB) (fp : List Nat)
    (hr : Representa h original.raiz t fp) :
    ∃ h1 copia fq, original.copia h = some (h1, copia) ∧ Representa h1 copia.raiz t fq ∧
      Representa h1 original.raiz t fp ∧ List.Disjoint fp fq := by
  obtain ⟨h1, q, fq, hc, hrq, hf, hlen, hm⟩ :=
    copiarRecursivo_representa t h _ _ hr _ (representa_limite t h _ _ hr)
  have hvp := representa_vivo t h _ fp hr
  refine ⟨h1, ⟨q⟩, fq, by simp [ABB.copia, hc], hrq,
    representa_moldura t h h1 _ fp hr (fun x hx => hm x (hvp x hx)), ?_⟩
  intro x hx1 hx2
  have := hvp x hx1
  have := hf x hx2
  omega

theorem atribuir_representa (h : Heap) (este original : ABB) (u t : NoABB) (fu fp : List Nat)
    (hru : Representa h este.raiz u fu) (hr : Representa h original.raiz t fp)
    (hdis : List.Disjoint fp fu) :
    ∃ h1 novo fq, este.atribuir h (Referencia.outroObjeto original) = some (h1, novo) ∧
      Representa h1 novo.raiz t fq ∧ Representa h1 original.raiz t fp ∧
      List.Disjoint fp fq := by
  obtain ⟨h0, hd, hlen0, hm0⟩ :=
    destruirRecursivo_representa u h _ _ hru _ (representa_limite u h _ _ hru)
  have hr0 : Representa h0 original.raiz t fp :=
    representa_moldura t h h0 _ fp hr (fun x hx => hm0 x (fun h3 => hdis hx h3))
  obtain ⟨h1, novo, fq, hc, h2, h3, h4⟩ := copia_representa h0 original t fp hr0
  refine ⟨h1, novo, fq, ?_, h2, h3, h4⟩
  simp only [ABB.copia, Option.bind_eq_bind, Option.bind_eq_some] at hc
  obtain ⟨r, hr1, hr2⟩ := hc
  simp only [ABB.atribuir, hd, Option.bind_eq_bind, Option.some_bind, hr1]
  exact hr2

theorem chamadas_nao_alcancam (h : Heap) (a b : ABB) (t u : NoABB) (fp fq : List Nat)
    (hra : Representa h a.raiz t fp) (hrb : Representa h b.raiz u fq)
    (hdis : List.Disjoint fp fq) (cs : List Chamada) (k : StdString) :
    ∃ h2 b2, executar h b cs = some (h2, b2) ∧ Representa h2 a.raiz t fp ∧
      a.emOrdem h2 = some (ArvoreBinaria.emOrdemRecursivo t) ∧
      a.buscarPosicao h2 k = some (ArvoreBinaria.buscarPosicaoLaco t k) := by
  obtain ⟨h2, b2, _, _, he, _, _, hra2, _⟩ :=
    executar_representa cs h b u fq hrb a.raiz t fp hra hdis
  have hlim := representa_limite t h2 _ _ hra2
  exact ⟨h2, b2, he, hra2, emOrdemRecursivo_representa t h2 _ _ hra2 _ hlim,
    buscarPosicaoLaco_representa t h2 _ _ hra2 _ hlim k⟩

/-! ## The claim on deep copies -/

/-- Claim C17: when `original` is the root of a tree `t` in the heap, the copy
constructor returns, through `copiarRecursivo`, an object whose nodes represent the
same tree `t` and share no address with the nodes of `original`; after any sequence of
`inserir`, `remover` and `deletarABB` calls on the copy, `original` still represents
`t`, and its `emOrdem` and `buscarPosicao` give the results of `t`; and the same holds
for the copy after such calls on `original`. All of this holds as well for the object
that `operator=` leaves when `original` is assigned to another object, whatever tree
that object held; and `operator=` of an object to itself changes neither the heap
nor the object, whose `emOrdem` and `buscarPosicao` give the results of `t`. -/
theorem copia_profunda_independente (h : Heap) (original : ABB) (t : NoABB) (fp : List Nat)
    (hr : Representa h original.raiz t fp) (cs : List Chamada) (k : StdString) :
    (∃ h1 copia fq, original.copia h = some (h1, copia) ∧ Representa h1 copia.raiz t fq ∧
        Representa h1 original.raiz t fp ∧ List.Disjoint fp fq ∧
        (∃ h2 c2, executar h1 copia cs = some (h2, c2) ∧ Representa h2 original.raiz t fp ∧
          original.emOrdem h2 = some (ArvoreBinaria.emOrdemRecursivo t) ∧
          original.buscarPosicao h2 k = some (ArvoreBinaria.buscarPosicaoLaco t k)) ∧
        (∃ h2 o2, executar h1 original cs = some (h2, o2) ∧ Representa h2 copia.raiz t fq ∧
          copia.emOrdem h2 = some (ArvoreBinaria.emOrdemRecursivo t) ∧
          copia.buscarPosicao h2 k = some (ArvoreBinaria.buscarPosicaoLaco t k))) ∧
      (∀ (este : ABB) (u : NoABB) (fu : List Nat), Representa h este.raiz u fu →
        List.Disjoint fp fu →
        ∃ h1 atribuida fq,
          este.atribuir h (Referencia.outroObjeto original) = some (h1, atribuida) ∧
          Representa h1 atribuida.raiz t fq ∧ Representa h1 original.raiz t fp ∧
          List.Disjoint fp fq ∧
          (∃ h2 c2, executar h1 atribuida cs = some (h2, c2) ∧
            Representa h2 original.raiz t fp ∧
            original.emOrdem h2 = some (ArvoreBinaria.emOrdemRecursivo t) ∧
            original.buscarPosicao h2 k = some (ArvoreBinaria.buscarPosicaoLaco t k)) ∧
          (∃ h2 o2, executar h1 original cs = some (h2, o2) ∧
            Representa h2 atribuida.raiz t fq ∧
            atribuida.emOrdem h2 = some (ArvoreBinaria.emOrdemRecursivo t) ∧
            atribuida.buscarPosicao h2 k = some (ArvoreBinaria.buscarPosicaoLaco t k))) ∧
      original.atribuir h Referencia.esteObjeto = some (h, original) ∧
      original.emOrdem h = some (ArvoreBinaria.emOrdemRecursivo t) ∧
      original.buscarPosicao h k = some (ArvoreBinaria.buscarPosicaoLaco t k) := by
  have hlim := representa_limite t h _ _ hr
  refine ⟨?_, ?_, rfl, emOrdemRecursivo_representa t h _ _ hr _ hlim,
    buscarPosicaoLaco_representa t h _ _ hr _ hlim k⟩
  · obtain ⟨h1, copia, fq, hc, hrc, hro, hdis⟩ := copia_representa h original t fp hr
    exact ⟨h1, copia, fq, hc, hrc, hro, hdis,
      chamadas_nao_alcancam h1 original copia t t fp fq hro hrc hdis cs k,
      chamadas_nao_alcancam h1 copia original t t fq fp hrc hro
        (fun x hx1 hx2 => hdis hx2 hx1) cs k⟩
  · intro este u fu hru hdu
    obtain ⟨h1, atribuida, fq, hc, hrc, hro, hdis⟩ :=
      atribuir_representa h este original u t fu fp hru hr hdu
    exact ⟨h1, atribuida, fq, hc, hrc, hro, hdis,
      chamadas_nao_alcancam h1 original atribuida t t fp fq hro hrc hdis cs k,
      chamadas_nao_alcancam h1 atribuida original t t fq fp hrc hro
        (fun x hx1 hx2 => hdis hx2 hx1) cs k⟩

theorem copia_profunda_independente_witness :
    Representa [some ⟨⟨['B'], 0⟩, some 1, some 2⟩, some ⟨⟨['A'], 1⟩, none, none⟩,
        some ⟨⟨['C'], 2⟩, none, none⟩] (ABB.mk (some 0)).raiz
      (no (novo ⟨['A'], 1⟩) ⟨['B'], 0⟩ (novo ⟨['C'], 2⟩)) [0, 1, 2] ∧
    ((∃ h1 copia fq,
        (ABB.mk (some 0)).copia [some ⟨⟨['B'], 0⟩, some 1, some 2⟩,
          some ⟨⟨['A'], 1⟩, none, none⟩, some ⟨⟨['C'], 2⟩, none, none⟩] = some (h1, copia) ∧
        Representa h1 copia.raiz (no (novo ⟨['A'], 1⟩) ⟨['B'], 0⟩ (novo ⟨['C'], 2⟩)) fq ∧
        Representa h1 (ABB.mk (some 0)).raiz
          (no (novo ⟨['A'], 1⟩) ⟨['B'], 0⟩ (novo ⟨['C'], 2⟩)) [0, 1, 2] ∧
        List.Disjoint [0, 1, 2] fq ∧
        (∃ h2 c2, executar h1 copia [Chamada.remover ['B'], Chamada.inserir ⟨['Z'], 9⟩,
              Chamada.deletarABB] = some (h2, c2) ∧
          Representa h2 (ABB.mk (some 0)).raiz
            (no (novo ⟨['A'], 1⟩) ⟨['B'], 0⟩ (novo ⟨['C'], 2⟩)) [0, 1, 2] ∧
          (ABB.mk (some 0)).emOrdem h2 = some (ArvoreBinaria.emOrdemRecursivo
            (no (novo ⟨['A'], 1⟩) ⟨['B'], 0⟩ (novo ⟨['C'], 2⟩))) ∧
          (ABB.mk (some 0)).buscarPosicao h2 ['B'] = some (ArvoreBinaria.buscarPosicaoLaco
            (no (novo ⟨['A'], 1⟩) ⟨['B'], 0⟩ (novo ⟨['C'], 2⟩)) ['B'])) ∧
        (∃ h2 o2, executar h1 (ABB.mk (some 0)) [Chamada.remover ['B'],
              Chamada.inserir ⟨['Z'], 9⟩, Chamada.deletarABB] = some (h2, o2) ∧
          Representa h2 copia.raiz (no (novo ⟨['A'], 1⟩) ⟨['B'], 0⟩ (novo ⟨['C'], 2⟩)) fq ∧
          copia.emOrdem h2 = some (ArvoreBinaria.emOrdemRecursivo
            (no (novo ⟨['A'], 1⟩) ⟨['B'], 0⟩ (novo ⟨['C'], 2⟩))) ∧
          copia.buscarPosicao h2 ['B'] = some (ArvoreBinaria.buscarPosicaoLaco
            (no (novo ⟨['A'], 1⟩) ⟨['B'], 0⟩ (novo ⟨['C'], 2⟩)) ['B']))) ∧
      (∀ (este : ABB) (u : NoABB) (fu : List Nat),
        Representa [some ⟨⟨['B'], 0⟩, some 1, some 2⟩, some ⟨⟨['A'], 1⟩, none, none⟩,
          some ⟨⟨['C'], 2⟩, none, none⟩] este.raiz u fu →
        List.Disjoint [0, 1, 2] fu →
        ∃ h1 atribuida fq,
          este.atribuir [some ⟨⟨['B'], 0⟩, some 1, some 2⟩, some ⟨⟨['A'], 1⟩, none, none⟩,
            some ⟨⟨['C'], 2⟩, none, none⟩] (Referencia.outroObjeto (ABB.mk (some 0))) =
              some (h1, atribuida) ∧
          Representa h1 atribuida.raiz (no (novo ⟨['A'], 1⟩) ⟨['B'], 0⟩ (novo ⟨['C'], 2⟩)) fq ∧
          Representa h1 (ABB.mk (some 0)).raiz
            (no (novo ⟨['A'], 1⟩) ⟨['B'], 0⟩ (novo ⟨['C'], 2⟩)) [0, 1, 2] ∧
          List.Disjoint [0, 1, 2] fq ∧
          (∃ h2 c2, executar h1 atribuida [Chamada.remover ['B'],
                Chamada.inserir ⟨['Z'], 9⟩, Chamada.deletarABB] = some (h2, c2) ∧
            Representa h2 (ABB.mk (some 0)).raiz
              (no (novo ⟨['A'], 1⟩) ⟨['B'], 0⟩ (novo ⟨['C'], 2⟩)) [0, 1, 2] ∧
            (ABB.mk (some 0)).emOrdem h2 = some (ArvoreBinaria.emOrdemRecursivo
              (no (novo ⟨['A'], 1⟩) ⟨['B'], 0⟩ (novo ⟨['C'], 2⟩))) ∧
            (ABB.mk (some 0)).buscarPosicao h2 ['B'] = some (ArvoreBinaria.buscarPosicaoLaco
              (no (novo ⟨['A'], 1⟩) ⟨['B'], 0⟩ (novo ⟨['C'], 2⟩)) ['B'])) ∧
          (∃ h2 o2, executar h1 (ABB.mk (some 0)) [Chamada.remover ['B'],
                Chamada.inserir ⟨['Z'], 9⟩, Chamada.deletarABB] = some (h2, o2) ∧
            Representa h2 atribuida.raiz
              (no (novo ⟨['A'], 1⟩) ⟨['B'], 0⟩ (novo ⟨['C'], 2⟩)) fq ∧
            atribuida.emOrdem h2 = some (ArvoreBinaria.emOrdemRecursivo
              (no (novo ⟨['A'], 1⟩) ⟨['B'], 0⟩ (novo ⟨['C'], 2⟩))) ∧
            atribuida.buscarPosicao h2 ['B'] = some (ArvoreBinaria.buscarPosicaoLaco
              (no (novo ⟨['A'], 1⟩) ⟨['B'], 0⟩ (novo ⟨['C'], 2⟩)) ['B']))) ∧
      (ABB.mk (some 0)).atribuir [some ⟨⟨['B'], 0⟩, some 1, some 2⟩,
          some ⟨⟨['A'], 1⟩, none, none⟩, some ⟨⟨['C'], 2⟩, none, none⟩]
          Referencia.esteObjeto =
        some ([some ⟨⟨['B'], 0⟩, some 1, some 2⟩, some ⟨⟨['A'], 1⟩, none, none⟩,
          some ⟨⟨['C'], 2⟩, none, none⟩], ABB.mk (some 0)) ∧
      (ABB.mk (some 0)).emOrdem [some ⟨⟨['B'], 0⟩, some 1, some 2⟩,
          some ⟨⟨['A'], 1⟩, none, none⟩, some ⟨⟨['C'], 2⟩, none, none⟩] =
        some (ArvoreBinaria.emOrdemRecursivo
          (no (novo ⟨['A'], 1⟩) ⟨['B'], 0⟩ (novo ⟨['C'], 2⟩))) ∧
      (ABB.mk (some 0)).buscarPosicao [some ⟨⟨['B'], 0⟩, some 1, some 2⟩,
          some ⟨⟨['A'], 1⟩, none, none⟩, some ⟨⟨['C'], 2⟩, none, none⟩] ['B'] =
        some (ArvoreBinaria.buscarPosicaoLaco
          (no (novo ⟨['A'], 1⟩) ⟨['B'], 0⟩ (novo ⟨['C'], 2⟩)) ['B'])) :=
  have hrep : Representa [some ⟨⟨['B'], 0⟩, some 1, some 2⟩, some ⟨⟨['A'], 1⟩, none, none⟩,
        some ⟨⟨['C'], 2⟩, none, none⟩] (ABB.mk (some 0)).raiz
      (no (novo ⟨['A'], 1⟩) ⟨['B'], 0⟩ (novo ⟨['C'], 2⟩)) [0, 1, 2] :=
    ⟨0, ⟨⟨['B'], 0⟩, some 1, some 2⟩, [1], [2], rfl, rfl, rfl, rfl, by decide, by simp,
      ⟨1, ⟨⟨['A'], 1⟩, none, none⟩, [], [], rfl, rfl, rfl, rfl, by decide, by simp,
        ⟨rfl, rfl⟩, ⟨rfl, rfl⟩⟩,
      ⟨2, ⟨⟨['C'], 2⟩, none, none⟩, [], [], rfl, rfl, rfl, rfl, by decide, by simp,
        ⟨rfl, rfl⟩, ⟨rfl, rfl⟩⟩⟩
  ⟨hrep, copia_profunda_independente _ (ABB.mk (some 0)) _ [0, 1, 2] hrep
    [Chamada.remover ['B'], Chamada.inserir ⟨['Z'], 9⟩, Chamada.deletarABB] ['B']⟩

/-! ## Every operation returns -/

/-- Claim C22: on every tree and every key `removerRecursivo` returns without a null
dereference, the loop of `emLargura` ends within one round more than the tree has
nodes, `encontrarMin` returns on a non-null node, and in the two-children case of
`removerRecursivo` the call of `encontrarMin` and the recursive call are on the
non-null right subtree, which has fewer nodes and a smaller height; on a heap in which
the pointer is the root of a tree, `inserirRecursivo`, `removerRecursivo`, the loop of
`buscarPosicao`, `copiarRecursivo` and `destruirRecursivo` return within the bound
`limiteDe` on the depth of the calls. -/
theorem operacoes_totais (t : NoABB) (k : StdString) (e : EntradaIndice) (h : Heap)
    (p : Option Nat) (fp : List Nat) (hr : Representa h p t fp) :
    (∃ r, ArvoreBinaria.removerRecursivo t k = some r) ∧
      (∃ l, ArvoreBinaria.ABB.emLargura ⟨t⟩ = some l) ∧
      (t.ehNulo = false → ∃ m, ArvoreBinaria.encontrarMin t = some m) ∧
      (∀ esq dado dir, t = no esq dado dir → esq.ehNulo = false → dir.ehNulo = false →
        ∃ m x, ArvoreBinaria.encontrarMin dir = some (no nulo m x) ∧
          (∃ r, ArvoreBinaria.removerRecursivo dir m.chave = some r) ∧
          tamanho dir < tamanho t ∧ altura dir < altura t) ∧
      (∃ r, inserirRecursivo (limiteDe h) h p e = some r) ∧
      (∃ r, removerRecursivo (limiteDe h) h p k = some r) ∧
      (∃ r, buscarPosicaoLaco (limiteDe h) h p k = some r) ∧
      (∃ r, copiarRecursivo (limiteDe h) h p = some r) ∧
      (∃ r, destruirRecursivo (limiteDe h) h p = some r) := by
  have hl := representa_limite t h p fp hr
  refine ⟨removerRecursivo_definido t k, ⟨_, emLargura_eq_referencia t⟩, ?_, ?_, ?_, ?_,
    ⟨_, buscarPosicaoLaco_representa t h p fp hr _ hl k⟩, ?_, ?_⟩
  · intro hn
    obtain ⟨m, x, _, hm, _⟩ := encontrarMin_naoNulo t hn
    exact ⟨_, hm⟩
  · rintro esq dado dir rfl _ hd
    obtain ⟨m, x, _, hm, _⟩ := encontrarMin_naoNulo dir hd
    refine ⟨m, x, hm, removerRecursivo_definido dir m.chave, ?_, ?_⟩
    · simp only [tamanho]; omega
    · simp only [altura]; omega
  · obtain ⟨h2, q, fq, h1, _⟩ := inserirRecursivo_representa t h p fp hr _ hl e
    exact ⟨_, h1⟩
  · obtain ⟨h2, q, fq, res, _, h1, _⟩ := removerRecursivo_representa t h p fp hr _ hl k
    exact ⟨_, h1⟩
  · obtain ⟨h2, q, fq, h1, _⟩ := copiarRecursivo_representa t h p fp hr _ hl
    exact ⟨_, h1⟩
  · obtain ⟨h2, h1, _⟩ := destruirRecursivo_representa t h p fp hr _ hl
    exact ⟨_, h1⟩

theorem operacoes_totais_witness :
    (∃ r, ArvoreBinaria.removerRecursivo
        (no (novo ⟨['A'], 1⟩) ⟨['B'], 0⟩ (novo ⟨['C'], 2⟩)) ['B'] = some r) ∧
      (∃ l, ArvoreBinaria.ABB.emLargura
        ⟨no (novo ⟨['A'], 1⟩) ⟨['B'], 0⟩ (novo ⟨['C'], 2⟩)⟩ = some l) ∧
      ((no (novo ⟨['A'], 1⟩) ⟨['B'], 0⟩ (novo ⟨['C'], 2⟩)).ehNulo = false →
        ∃ m, ArvoreBinaria.encontrarMin
          (no (novo ⟨['A'], 1⟩) ⟨['B'], 0⟩ (novo ⟨['C'], 2⟩)) = some m) ∧
      (∀ esq dado dir, no (novo ⟨['A'], 1⟩) ⟨['B'], 0⟩ (novo ⟨['C'], 2⟩) = no esq dado dir →
        esq.ehNulo = false → dir.ehNulo = false →
        ∃ m x, ArvoreBinaria.encontrarMin dir = some (no nulo m x) ∧
          (∃ r, ArvoreBinaria.removerRecursivo dir m.chave = some r) ∧
          tamanho dir < tamanho (no (novo ⟨['A'], 1⟩) ⟨['B'], 0⟩ (novo ⟨['C'], 2⟩)) ∧
          altura dir < altura (no (novo ⟨['A'], 1⟩) ⟨['B'], 0⟩ (novo ⟨['C'], 2⟩))) ∧
      (∃ r, inserirRecursivo
        (limiteDe [some ⟨⟨['B'], 0⟩, some 1, some 2⟩, some ⟨⟨['A'], 1⟩, none, none⟩,
          some ⟨⟨['C'], 2⟩, none, none⟩])
        [some ⟨⟨['B'], 0⟩, some 1, some 2⟩, some ⟨⟨['A'], 1⟩, none, none⟩,
          some ⟨⟨['C'], 2⟩, none, none⟩] (some 0) ⟨['D'], 3⟩ = some r) ∧
      (∃ r, removerRecursivo
        (limiteDe [some ⟨⟨['B'], 0⟩, some 1, some 2⟩, some ⟨⟨['A'], 1⟩, none, none⟩,
          some ⟨⟨['C'], 2⟩, none, none⟩])
        [some ⟨⟨['B'], 0⟩, some 1, some 2⟩, some ⟨⟨['A'], 1⟩, none, none⟩,
          some ⟨⟨['C'], 2⟩, none, none⟩] (some 0) ['B'] = some r) ∧
      (∃ r, buscarPosicaoLaco
        (limiteDe [some ⟨⟨['B'], 0⟩, some 1, some 2⟩, some ⟨⟨['A'], 1⟩, none, none⟩,
          some ⟨⟨['C'], 2⟩, none, none⟩])
        [some ⟨⟨['B'], 0⟩, some 1, some 2⟩, some ⟨⟨['A'], 1⟩, none, none⟩,
          some ⟨⟨['C'], 2⟩, none, none⟩] (some 0) ['B'] = some r) ∧
      (∃ r, copiarRecursivo
        (limiteDe [some ⟨⟨['B'], 0⟩, some 1, some 2⟩, some ⟨⟨['A'], 1⟩, none, none⟩,
          some ⟨⟨['C'], 2⟩, none, none⟩])
        [some ⟨⟨['B'], 0⟩, some 1, some 2⟩, some ⟨⟨['A'], 1⟩, none, none⟩,
          some ⟨⟨['C'], 2⟩, none, none⟩] (some 0) = some r) ∧
      (∃ r, destruirRecursivo
        (limiteDe [some ⟨⟨['B'], 0⟩, some 1, some 2⟩, some ⟨⟨['A'], 1⟩, none, none⟩,
          some ⟨⟨['C'], 2⟩, none, none⟩])
        [some ⟨⟨['B'], 0⟩, some 1, some 2⟩, some ⟨⟨['A'], 1⟩, none, none⟩,
          some ⟨⟨['C'], 2⟩, none, none⟩] (some 0) = some r) :=
  operacoes_totais (no (novo ⟨['A'], 1⟩) ⟨['B'], 0⟩ (novo ⟨['C'], 2⟩)) ['B'] ⟨['D'], 3⟩
    [some ⟨⟨['B'], 0⟩, some 1, some 2⟩, some ⟨⟨['A'], 1⟩, none, none⟩,
      some ⟨⟨['C'], 2⟩, none, none⟩] (some 0) [0, 1, 2]
    ⟨0, ⟨⟨['B'], 0⟩, some 1, some 2⟩, [1], [2], rfl, rfl, rfl, rfl, by decide, by simp,
      ⟨1, ⟨⟨['A'], 1⟩, none, none⟩, [], [], rfl, rfl, rfl, rfl, by decide, by simp,
        ⟨rfl, rfl⟩, ⟨rfl, rfl⟩⟩,
      ⟨2, ⟨⟨['C'], 2⟩, none, none⟩, [], [], rfl, rfl, rfl, rfl, by decide, by simp,
        ⟨rfl, rfl⟩, ⟨rfl, rfl⟩⟩⟩

end Memoria

end ArvoreBinaria

namespace TabelaHash

open ArvoreBinaria (StdString)

open HashTable

/-! ## Lemmas on chains -/

/-- Claim C18 does not hold on the code: `insert` takes the empty string returned by
`search` for "not stored", so a key stored with an empty value is stored again. Two
calls `insert("1", "")` on an empty table leave two nodes with the key `1`, a later
`insert("1", "x")` adds a third node although the key is stored, and the rows
`1,` and `1,` give the same through `eliminateDuplicate`. -/
theorem insert_valor_vazio_duplica_chave :
    (executar (HashTable.novo 2 (fun _ => 1))
        [Operacao.insert ['1'] [], Operacao.insert ['1'] []]).map HashTable.nos =
        some [⟨['1'], []⟩, ⟨['1'], []⟩] ∧
      (executar (HashTable.novo 2 (fun _ => 1))
        [Operacao.insert ['1'] [], Operacao.insert ['1'] [],
          Operacao.insert ['1'] ['x']]).map HashTable.nos =
        some [⟨['1'], []⟩, ⟨['1'], []⟩, ⟨['1'], ['x']⟩] ∧
      (eliminateDuplicate [(['1'], []), (['1'], [])] (fun _ => 1)).map HashTable.nos =
        some [⟨['1'], []⟩, ⟨['1'], []⟩] := by
  refine ⟨by decide, by decide, ?_⟩
  set_option maxRecDepth 8000 in decide

/-- Claim C20 does not hold on the code: after `insert("1", "")` and
`insert("1", "x")` the table holds two nodes with the key `1` (the defect of C18),
`remove("1")` returns `true` and unlinks the first only, so a node with the key `1`
is still stored and `search("1")` returns `x`. -/
theorem remove_deixa_chave_duplicada :
    ((executar (HashTable.novo 2 (fun _ => 1))
        [Operacao.insert ['1'] [], Operacao.insert ['1'] ['x']]).bind
          (fun t => t.remove ['1'])).map (fun r => (r.1.nos, r.2, r.1.search ['1'])) =
      some ([⟨['1'], ['x']⟩], true, some ['x']) := by
  decide

end TabelaHash
